import Mathlib

/-!
# netlify-cms backends: cursor validation, paging cursors, response parsing, batch fetch

A shallow embedding of the parts of the repository that the specification's
claims are about:

* `src/valueObjects/Cursor.js` (`validKeys`, `isSerializable`, `validateCursor`),
* `packages/netlify-cms-backend-gitlab/src/index.js`
  (`getCursorFromHeaders`, `reverseCursor`, `fetchFiles`),
* `packages/netlify-cms-lib-util/src/backendUtil.js`
  (`catchFormatErrors`, `responseFormatters`, `parseResponse`),
* `packages/netlify-cms-backend-github/src/implementation.js` (`fetchFiles`).

JavaScript values are a first-order tree type, a thrown exception is the
`error` side of `Except`, and a settled promise is a value of `Promise`.
-/

set_option autoImplicit false

/-! ## JavaScript values -/

/-- An error object, as made by `new Error(message)`. -/
structure JSError where
  message : String
  deriving DecidableEq, Repr

deriving instance DecidableEq for Except

/-- JavaScript values as far as cursor validation can tell them apart.
Finite numbers are integers, `nan` is the number `NaN`; an object is the list
of its own enumerable properties in `Object.keys` order. -/
inductive JSVal where
  | undefined
  | null
  | bool (b : Bool)
  | num (n : Int)
  | nan
  | str (s : String)
  | arr (xs : List JSVal)
  | obj (kvs : List (String × JSVal))
  deriving Repr

namespace JSVal

/-- Truthiness: what `!!v` evaluates to. -/
def truthy : JSVal → Bool
  | undefined => false
  | null => false
  | bool b => b
  | num n => n != 0
  | nan => false
  | str s => s != ""
  | arr _ => true
  | obj _ => true

/-- The value of `Array.isArray(v)` (lodash `isArray`). -/
def isArray : JSVal → Bool
  | arr _ => true
  | _ => false

/-- The index keys `"0"`, ..., `"n-1"` of an array or string of length `n`. -/
def indexKeys (n : Nat) : List String :=
  (List.range n).map toString

/-- The value of `Object.keys(v)`: the own enumerable property names; it throws a
`TypeError` for `null` and `undefined`. -/
def objectKeys : JSVal → Except JSError (List String)
  | undefined => .error ⟨"Cannot convert undefined or null to object"⟩
  | null => .error ⟨"Cannot convert undefined or null to object"⟩
  | bool _ => .ok []
  | num _ => .ok []
  | nan => .ok []
  | str s => .ok (indexKeys s.length)
  | arr xs => .ok (indexKeys xs.length)
  | obj kvs => .ok (kvs.map Prod.fst)

/-- The value of the property read `v[key]` for a key that is neither an index,
nor `length`, nor a name that a built-in prototype defines (the validator
reads `actions`, `data` and `meta` only): the own property if there is one,
`undefined` otherwise; reading a property of `null` or `undefined` throws a
`TypeError`. -/
def getProp : JSVal → String → Except JSError JSVal
  | undefined, key => .error ⟨"Cannot read property " ++ key ++ " of undefined"⟩
  | null, key => .error ⟨"Cannot read property " ++ key ++ " of null"⟩
  | obj kvs, key => .ok ((kvs.lookup key).getD undefined)
  | _, _ => .ok undefined

mutual
/-- The value of `JSON.stringify(v)`, with a JSON text represented by the value it
denotes: `none` is the result `undefined` (no text), `NaN` is written as
`null`, an `undefined` array element is written as `null` and an object
property whose value is `undefined` is left out. -/
def jsonStringify : JSVal → Option JSVal
  | undefined => none
  | null => some null
  | bool b => some (bool b)
  | num n => some (num n)
  | nan => some null
  | str s => some (str s)
  | arr xs => some (arr (stringifyElems xs))
  | obj kvs => some (obj (stringifyProps kvs))
/-- The elements of a stringified array. -/
def stringifyElems : List JSVal → List JSVal
  | [] => []
  | x :: xs => (jsonStringify x).getD null :: stringifyElems xs
/-- The properties of a stringified object. -/
def stringifyProps : List (String × JSVal) → List (String × JSVal)
  | [] => []
  | (k, v) :: kvs =>
    match jsonStringify v with
    | some d => (k, d) :: stringifyProps kvs
    | none => stringifyProps kvs
end

/-- The property written for `p` when its value has a JSON text. -/
def stringifyProp (p : String × JSVal) : String × JSVal :=
  (p.1, (jsonStringify p.2).getD null)

/-- The value of `JSON.parse(text)`: the value the text denotes; the argument
`undefined` is converted to the string `"undefined"`, which is not JSON, so
the call throws a `SyntaxError`. -/
def jsonParse : Option JSVal → Except JSError JSVal
  | none => .error ⟨"Unexpected token u in JSON at position 0"⟩
  | some d => .ok d

mutual
/-- The value of lodash `isEqual(a, b)`: a deep comparison; `NaN` equals `NaN`,
arrays are compared element by element and objects property by property,
whatever the order of the keys. -/
def isEqual : JSVal → JSVal → Bool
  | undefined, undefined => true
  | null, null => true
  | bool a, bool b => a == b
  | num a, num b => a == b
  | nan, nan => true
  | str a, str b => a == b
  | arr xs, arr ys => isEqualElems xs ys
  | obj kvs, obj other => kvs.length == other.length && isEqualProps kvs other
  | _, _ => false
/-- Element-wise `isEqual` of two arrays of the same length. -/
def isEqualElems : List JSVal → List JSVal → Bool
  | [], [] => true
  | x :: xs, y :: ys => isEqual x y && isEqualElems xs ys
  | _, _ => false
/-- Every property of the first object is a property of `other` with an equal
value. -/
def isEqualProps : List (String × JSVal) → List (String × JSVal) → Bool
  | [], _ => true
  | (k, v) :: kvs, other =>
    (match other.lookup k with
      | some v2 => isEqual v v2
      | none => false) && isEqualProps kvs other
end

mutual
/-- No object in the value has two properties of the same name. -/
def WellFormed : JSVal → Prop
  | arr xs => WellFormedElems xs
  | obj kvs => (kvs.map Prod.fst).Nodup ∧ WellFormedProps kvs
  | _ => True
/-- Every element is well formed. -/
def WellFormedElems : List JSVal → Prop
  | [] => True
  | x :: xs => WellFormed x ∧ WellFormedElems xs
/-- Every property value is well formed. -/
def WellFormedProps : List (String × JSVal) → Prop
  | [] => True
  | (_, v) :: kvs => WellFormed v ∧ WellFormedProps kvs
end

/-- The object after the assignment `obj[key] = value`, for a key that becomes an
own enumerable property (any name but `__proto__`): an own property of that
name is overwritten, a new one is added after the others. An assignment to a
property of a primitive value has no effect, and the named properties of an
array are not part of the model. -/
def setProp : JSVal → String → JSVal → JSVal
  | obj kvs, key, value =>
    if (kvs.lookup key).isSome then
      obj (kvs.map (fun p => if p.1 == key then (p.1, value) else p))
    else obj (kvs ++ [(key, value)])
  | v, _, _ => v

end JSVal

/-! ## `src/valueObjects/Cursor.js` -/

namespace ValueObjects

open JSVal

/-- The call `xs.every(f)` for a callback that may throw: it stops at the first
element for which the callback returns `false`. -/
def every {α : Type} (f : α → Except JSError Bool) : List α → Except JSError Bool
  | [] => .ok true
  | x :: xs => do
    let b ← f x
    if b then every f xs else pure false

/-- `const isSerializable = v => isEqual(v, JSON.parse(JSON.stringify(v)))`. -/
def isSerializable (v : JSVal) : Except JSError Bool := do
  let parsed ← jsonParse (jsonStringify v)
  pure (isEqual v parsed)

/-- `validKeys({ required=[], optional=[] }, obj)`: the value of
`obj && required.every(key => !!obj[key]) &&
 Object.keys(obj).every(key => required.includes(key) || optional.includes(key))`. -/
def validKeys (required optional : List String) (obj : JSVal) : Except JSError JSVal :=
  if !truthy obj then pure obj
  else do
    let hasRequired ← every (fun key => do pure (truthy (← getProp obj key))) required
    if !hasRequired then pure (bool false)
    else do
      let keys ← objectKeys obj
      pure (bool (keys.all (fun key => required.contains key || optional.contains key)))

/-- `validateCursor(cursor)`: the value of
`validKeys({ required: ["actions"], optional: ["data", "meta"] }, cursor) &&
 isArray(cursor.actions) && isSerializable(cursor.data) &&
 (!cursor.meta || validKeys({ optional: ["index", "count", "pageSize", "pageCount"] }, cursor.meta))`,
or the exception that evaluating it throws. -/
def validateCursor (cursor : JSVal) : Except JSError JSVal := do
  let keysOk ← validKeys ["actions"] ["data", "meta"] cursor
  if !truthy keysOk then pure keysOk
  else do
    let actions ← getProp cursor "actions"
    if !isArray actions then pure (bool false)
    else do
      let data ← getProp cursor "data"
      let serializable ← isSerializable data
      if !serializable then pure (bool false)
      else do
        let meta ← getProp cursor "meta"
        if !truthy meta then pure (bool true)
        else validKeys [] ["index", "count", "pageSize", "pageCount"] meta

/-- The validator accepts: the expression evaluates, to a truthy value. -/
def accepts (r : Except JSError JSVal) : Prop :=
  ∃ v, r = .ok v ∧ truthy v = true

/-- The validator rejects: the expression evaluates, to a falsy value. -/
def rejects (r : Except JSError JSVal) : Prop :=
  ∃ v, r = .ok v ∧ truthy v = false


/-- The cursor `{actions: ["next"], meta: {index: 0}, data: {links: {}}}`. -/
def exampleCursor : JSVal :=
  obj [("actions", arr [str "next"]), ("meta", obj [("index", num 0)]),
    ("data", obj [("links", obj [])])]

/-- The property `key` of a candidate cursor as the specification speaks of it:
the own property of an object, `undefined` when there is none. -/
def field (c : JSVal) (key : String) : JSVal :=
  match c with
  | obj kvs => (kvs.lookup key).getD undefined
  | _ => undefined

/-- The keys a value has: its own enumerable property names, none for `null` and
`undefined`. -/
def keysOf (v : JSVal) : List String :=
  match objectKeys v with
  | .ok keys => keys
  | .error _ => []

/-- The specification's validity of a candidate cursor: `actions` is an array,
`data` comes back unchanged from a JSON encode and decode, `meta` has no key
but the four recognised ones, and the cursor has no key but `actions`, `meta`
and `data`. -/
def SpecValid (c : JSVal) : Prop :=
  (∃ xs, field c "actions" = arr xs) ∧
  jsonParse (jsonStringify (field c "data")) = .ok (field c "data") ∧
  (∀ k ∈ keysOf (field c "meta"), k ∈ ["index", "count", "pageSize", "pageCount"]) ∧
  (∀ k ∈ keysOf c, k ∈ ["actions", "meta", "data"])

end ValueObjects

/-! ## Strings, numbers and Immutable.js collections -/

namespace JS

/-- A number of a JSON body as far as the permission check can tell: an integer or
`NaN`. -/
inductive JSNum where
  | int (n : Int)
  | nan
  deriving DecidableEq, Repr

/-- A JavaScript number as the paging code makes it, an IEEE 754 double: what
`parseInt` returns is a double that holds an integer, the zero with a minus
sign, an infinity or `NaN`, and the difference of two such numbers is one of
them again. `int n` is the double that holds the integer `n`, of zero the
positive zero. -/
inductive Double where
  | int (n : Int)
  | negZero
  | inf (negative : Bool)
  | nan
  deriving DecidableEq, Repr

namespace Double

/-- The number of halvings that bring `m` below `2 ^ 53`: the number of low bits
that a significand of 53 bits cannot hold. `fuel` bounds the halvings. -/
def excessBits : Nat → Nat → Nat
  | 0, _ => 0
  | fuel + 1, m => if m < 2 ^ 53 then 0 else excessBits fuel (m / 2) + 1

/-- The natural number nearest to `m` that has a significand of 53 bits, a tie
going to the even significand: `m` itself below `2 ^ 53`. -/
def roundNat (m : Nat) : Nat :=
  let shift := excessBits m m
  let q := m / 2 ^ shift
  let r := m % 2 ^ shift
  if 2 * r < 2 ^ shift then q * 2 ^ shift
  else if 2 * r = 2 ^ shift ∧ q % 2 = 0 then q * 2 ^ shift
  else (q + 1) * 2 ^ shift

/-- The power `2 ^ 1024`, which no double reaches. -/
def overflow : Nat := 2 ^ 256 * 2 ^ 256 * 2 ^ 256 * 2 ^ 256

/-- The double nearest to the integer `n`, which is what an operation with the
exact result `n` returns: an infinity when the rounded magnitude reaches
`2 ^ 1024`. -/
def ofInt (n : Int) : Double :=
  if overflow ≤ roundNat n.natAbs then inf (decide (n < 0))
  else if n < 0 then int (-(roundNat n.natAbs : Int))
  else int (roundNat n.natAbs)

/-- The value of `a - b`: the exact difference rounded to a double; `-0 - 0` is
`-0`, the difference of equal infinities is `NaN`. -/
def sub (a b : Double) : Double :=
  match a with
  | int x =>
    match b with
    | int y => ofInt (x - y)
    | negZero => int x
    | inf negative => inf (!negative)
    | nan => nan
  | negZero =>
    match b with
    | int y => if y = 0 then negZero else ofInt (-y)
    | negZero => int 0
    | inf negative => inf (!negative)
    | nan => nan
  | inf negative =>
    match b with
    | inf other => if negative = other then nan else inf negative
    | nan => nan
    | _ => inf negative
  | nan => nan

/-- The value of `a < b`, which is `false` when an operand is `NaN`. -/
def lt (a b : Double) : Bool :=
  match a with
  | int x =>
    match b with
    | int y => decide (x < y)
    | negZero => decide (x < 0)
    | inf negative => !negative
    | nan => false
  | negZero =>
    match b with
    | int y => decide (0 < y)
    | negZero => false
    | inf negative => !negative
    | nan => false
  | inf negative =>
    match b with
    | inf other => negative && !other
    | nan => false
    | _ => negative
  | nan => false

/-- The value of `a > b`. -/
def gt (a b : Double) : Bool := lt b a

end Double

/-- White space as `String.prototype.trim` and `parseInt` skip it. -/
def isWhiteSpace (c : Char) : Bool :=
  c.toNat ∈ [0x09, 0x0A, 0x0B, 0x0C, 0x0D, 0x20, 0xA0, 0x1680, 0x2028, 0x2029, 0x202F,
    0x205F, 0x3000, 0xFEFF] || (0x2000 ≤ c.toNat && c.toNat ≤ 0x200A)

/-- Line terminators, which `.` in a regular expression does not match. -/
def isLineTerminator (c : Char) : Bool :=
  c.toNat ∈ [0x0A, 0x0D, 0x2028, 0x2029]

/-- The characters of `s.trim()`. -/
def trim (s : List Char) : List Char :=
  ((s.dropWhile isWhiteSpace).reverse.dropWhile isWhiteSpace).reverse

/-- The pieces of `s.split(sep)` for a one-character separator. -/
def splitOn (sep : Char) : List Char → List (List Char)
  | [] => [[]]
  | c :: cs =>
    if c = sep then [] :: splitOn sep cs
    else
      match splitOn sep cs with
      | [] => [[c]]
      | piece :: pieces => (c :: piece) :: pieces

/-- The shortest run of characters other than line terminators that is followed
by `close`: what `(.*?)` captures before the literal `close`. -/
def lazyUntil (close : Char) : List Char → Option (List Char)
  | [] => none
  | c :: cs =>
    if c = close then some []
    else if isLineTerminator c then none
    else (lazyUntil close cs).map (c :: ·)

/-- The first capture group of `s.match(/pre(.*?)close/)`, `none` when the
expression does not match: the leftmost place where `pre` is followed by a
lazy run up to `close`. -/
def matchCapture (pre : List Char) (close : Char) : List Char → Option (List Char)
  | [] => none
  | c :: cs =>
    match (if pre.isPrefixOf (c :: cs) then lazyUntil close ((c :: cs).drop pre.length)
      else none) with
    | some capture => some capture
    | none => matchCapture pre close cs

/-- The value of a run of decimal digits. -/
def digitsValue (ds : List Char) : Nat :=
  ds.foldl (fun acc d => 10 * acc + (d.toNat - '0'.toNat)) 0

/-- The sign that `parseInt` reads, `true` for a minus, and what follows it. -/
def readSign (body : List Char) : Bool × List Char :=
  match body with
  | [] => (false, [])
  | c :: rest =>
    if c = '-' then (true, rest)
    else if c = '+' then (false, rest)
    else (false, c :: rest)

/-- The value of `parseInt(s, 10)` for a string or `null`: leading white space is
skipped, a sign is read, the longest run of digits is the number, and there
being no digit the result is `NaN`. The result is a double: the number that
the digits write is rounded to the nearest one, and zero after a minus sign
is `-0`. -/
def parseInt (s : Option String) : Double :=
  match s with
  | none => .nan
  | some s =>
    let signed := readSign (s.data.dropWhile isWhiteSpace)
    let digits := signed.2.takeWhile Char.isDigit
    if digits.isEmpty then .nan
    else if signed.1 then
      if digitsValue digits = 0 then .negZero else Double.ofInt (-(digitsValue digits : Int))
    else Double.ofInt (digitsValue digits)

/-- The entries with the value at `key` set to `value`: an entry of that key is
overwritten where it is, a new entry goes to the end. -/
def setEntry {α : Type} (key : String) (value : α) : List (String × α) → List (String × α)
  | [] => [(key, value)]
  | (k, v) :: rest =>
    if k = key then (k, value) :: rest else (k, v) :: setEntry key value rest

/-- An Immutable.js `Map` with string keys: its entries in iteration order, no key
twice. -/
structure IMap (α : Type) where
  entries : List (String × α)
  nodup : (entries.map Prod.fst).Nodup

namespace IMap

variable {α : Type}

/-- The empty map `Map()`. -/
def empty : IMap α := ⟨[], List.nodup_nil⟩

/-- The value of `m.get(key)`, `none` for `undefined`. -/
def get (m : IMap α) (key : String) : Option α :=
  m.entries.lookup key

/-- The keys of `m.keySeq()`. -/
def keySeq (m : IMap α) : List String :=
  m.entries.map Prod.fst

/-- The map `m.set(key, value)`. -/
def set (m : IMap α) (key : String) (value : α) : IMap α :=
  ⟨setEntry key value m.entries, by
    have hkeys : ∀ l : List (String × α), (l.map Prod.fst).Nodup →
        ((setEntry key value l).map Prod.fst).Nodup ∧
          ∀ k, k ∈ (setEntry key value l).map Prod.fst → k = key ∨ k ∈ l.map Prod.fst := by
      intro l
      induction l with
      | nil => intro _; simp [setEntry]
      | cons p l ih =>
        obtain ⟨k, v⟩ := p
        intro hnd
        simp only [List.map_cons, List.nodup_cons] at hnd
        by_cases hk : k = key
        · simp only [setEntry, hk, if_true, List.map_cons, List.nodup_cons, List.mem_cons]
          exact ⟨⟨hk ▸ hnd.1, hnd.2⟩, fun k h => h.elim Or.inl (fun h => Or.inr (Or.inr h))⟩
        · obtain ⟨h1, h2⟩ := ih hnd.2
          simp only [setEntry, hk, if_false, List.map_cons, List.nodup_cons, List.mem_cons]
          refine ⟨⟨fun hmem => ?_, h1⟩, fun k h => ?_⟩
          · rcases h2 _ hmem with h | h
            · exact hk h
            · exact hnd.1 h
          · rcases h with h | h
            · exact Or.inr (Or.inl h)
            · rcases h2 _ h with h | h
              · exact Or.inl h
              · exact Or.inr (Or.inr h)
    exact (hkeys m.entries m.nodup).1⟩

/-- The map `Map(pairs)` made from a list of `[key, value]` pairs: the pairs are
set one after the other, so a later pair overwrites an earlier one of the same
key. -/
def ofEntries (pairs : List (String × α)) : IMap α :=
  pairs.foldl (fun m p => m.set p.1 p.2) empty

/-- The map `m.mapEntries(f)`: the map made from the images of the entries. -/
def mapEntries {β : Type} (f : String × α → String × β) (m : IMap α) : IMap β :=
  ofEntries (m.entries.map f)

end IMap

end JS

/-! ## `packages/netlify-cms-backend-gitlab/src/index.js`: paging cursors -/

namespace GitLab

open JS

/-- The `meta` of a cursor: each of the four recognised fields is there or not. -/
structure Meta where
  index : Option Double
  count : Option Double
  pageSize : Option Double
  pageCount : Option Double
  deriving DecidableEq, Repr

/-- Modelled from the spec: the `Cursor` class of `netlify-cms-lib-util`, whose file
`Cursor.js` is not among the sources. A cursor has `actions`, a set of
symbolic directions kept as the list of its members, `meta` with the optional
fields `index`, `count`, `pageSize` and `pageCount`, and `data`, of which the
adapter reads and writes the key `links` only: a map from an action to the
request of that page, absent when `data` has no `links`. -/
structure Cursor (ρ : Type) where
  actions : List String
  meta : Meta
  links : Option (IMap ρ)

namespace Cursor

variable {ρ : Type}

/-- Modelled from the spec: `Cursor.create({ actions, meta, data: { links } })`
makes the cursor of these three parts. -/
def create (actions : List String) (meta : Meta) (links : IMap ρ) : Cursor ρ :=
  ⟨actions, meta, some links⟩

/-- The value of `cursor.data.getIn(["links", action])`, `none` for `undefined`. -/
def link (c : Cursor ρ) (action : String) : Option ρ :=
  c.links.bind (fun m => m.get action)

end Cursor

/-- The call `list.map(f)` for a callback that may throw: the first exception
ends it. -/
def mapExcept {α β : Type} (f : α → Except JSError β) : List α → Except JSError (List β)
  | [] => .ok []
  | x :: xs => do
    let y ← f x
    let ys ← mapExcept f xs
    pure (y :: ys)

/-- The callback
`([linkStr, keyStr]) => [keyStr.match(/rel="(.*?)"/)[1], getReqFromURL(linkStr.trim().match(/<(.*?)>/)[1])]`
applied to the pieces of one part of the `Link` header. A piece that is not
there is `undefined` and a failed `match` is `null`, and reading a property
of either throws a `TypeError`. -/
def parseLink {ρ : Type} (getReqFromURL : String → ρ) (pieces : List (List Char)) :
    Except JSError (String × ρ) :=
  match pieces.get? 1 with
  | none => .error ⟨"Cannot read property 'match' of undefined"⟩
  | some keyStr =>
    match matchCapture "rel=\"".data '"' keyStr with
    | none => .error ⟨"Cannot read property '1' of null"⟩
    | some key =>
      match pieces.head? with
      | none => .error ⟨"Cannot read property 'trim' of undefined"⟩
      | some linkStr =>
        match matchCapture "<".data '>' (trim linkStr) with
        | none => .error ⟨"Cannot read property '1' of null"⟩
        | some url => .ok (String.mk key, getReqFromURL (String.mk url))

/-- The test of the `flatMap` callback in `getCursorFromHeaders`: the key is kept
as an action when
`(key === "prev" && index > 0) || (key === "next" && index < pageCount) ||
 (key === "first" && index > 0) || (key === "last" && index < pageCount)`. -/
def isValidAction (index pageCount : Double) (key : String) : Bool :=
  (key == "prev" && index.gt (.int 0)) ||
  (key == "next" && index.lt pageCount) ||
  (key == "first" && index.gt (.int 0)) ||
  (key == "last" && index.lt pageCount)

/-- `getCursorFromHeaders(headers)`, with `headers.get` given as a function and
`unsentRequest.fromURL`, which is not among the sources, as the parameter
`getReqFromURL`. -/
def getCursorFromHeaders {ρ : Type} (getReqFromURL : String → ρ)
    (headers : String → Option String) : Except JSError (Cursor ρ) :=
  let index := (parseInt (headers "X-Page")).sub (.int 1)
  let pageCount := (parseInt (headers "X-Total-Pages")).sub (.int 1)
  let pageSize := parseInt (headers "X-Per-Page")
  let count := parseInt (headers "X-Total")
  match headers "Link" with
  | none => .error ⟨"Cannot read property 'split' of null"⟩
  | some linksRaw => do
    let parts := (splitOn ',' linksRaw.data).map (fun str => splitOn ';' (trim str))
    let pairs ← mapExcept (parseLink getReqFromURL) parts
    let links := IMap.ofEntries pairs
    let actions := links.keySeq.filter (isValidAction index pageCount)
    pure (Cursor.create actions
      { index := some index, count := some count, pageSize := some pageSize,
        pageCount := some pageCount } links)

/-- `const reversableActions = Map({ first: "last", last: "first", next: "prev", prev: "next" })`. -/
def reversableActions : IMap String :=
  IMap.ofEntries [("first", "last"), ("last", "first"), ("next", "prev"), ("prev", "next")]

/-- The value of `reversableActions.get(k) || k`. -/
def reverseAction (k : String) : String :=
  match reversableActions.get k with
  | some v => if v = "" then k else v
  | none => k

/-- `reverseCursor(cursor)`: `pageCount` and `index` are read with the default
`0`, `links` with the default `Map()`, and the store is updated at
`["meta", "index"]`, `["data", "links"]` and `"actions"`. -/
def reverseCursor {ρ : Type} (cursor : Cursor ρ) : Cursor ρ :=
  let pageCount := cursor.meta.pageCount.getD (.int 0)
  let currentIndex := cursor.meta.index.getD (.int 0)
  let newIndex := pageCount.sub currentIndex
  let links := cursor.links.getD IMap.empty
  let reversedLinks := links.mapEntries (fun kv => (reverseAction kv.1, kv.2))
  let reversedActions := cursor.actions.map reverseAction
  { cursor with
    meta := { cursor.meta with index := some newIndex }
    links := some reversedLinks
    actions := reversedActions }

/-- The exchange of directions the specification names: `first` with `last`,
`next` with `prev`, every other key unchanged. -/
def swapAction (a : String) : String :=
  if a = "first" then "last"
  else if a = "last" then "first"
  else if a = "next" then "prev"
  else if a = "prev" then "next"
  else a

/-- The parts of a `Link` header: the pieces between semicolons of each trimmed
piece between commas. -/
def linkParts (linksRaw : String) : List (List (List Char)) :=
  (splitOn ',' linksRaw.data).map (fun str => splitOn ';' (trim str))

/-- A part of a `Link` header of the form `<url>; rel="key"`: a first piece with a
target in angle brackets and a second piece with a quoted `rel` value. -/
def isLinkPart (pieces : List (List Char)) : Bool :=
  match pieces with
  | linkStr :: keyStr :: _ =>
    (matchCapture "rel=\"".data '"' keyStr).isSome &&
      (matchCapture "<".data '>' (trim linkStr)).isSome
  | _ => false

/-- A well-formed `Link` header: every part has the form `<url>; rel="key"`. -/
def LinkHeaderWellFormed (linksRaw : String) : Prop :=
  ∀ pieces ∈ linkParts linksRaw, isLinkPart pieces = true

instance (linksRaw : String) : Decidable (LinkHeaderWellFormed linksRaw) := by
  unfold LinkHeaderWellFormed
  infer_instance

/-- The `rel` values that a `Link` header lists. -/
def linkRels (linksRaw : String) : List String :=
  (linkParts linksRaw).filterMap (fun pieces =>
    (pieces.get? 1).bind (fun keyStr =>
      (matchCapture "rel=\"".data '"' keyStr).map String.mk))

/-- Paging headers with the given `Link` header and the four counters written as
decimal numbers. -/
def pagingHeaders (page totalPages perPage total : Nat) (link : String) :
    String → Option String := fun name =>
  if name = "X-Page" then some (toString page)
  else if name = "X-Total-Pages" then some (toString totalPages)
  else if name = "X-Per-Page" then some (toString perPage)
  else if name = "X-Total" then some (toString total)
  else if name = "Link" then some link
  else none


/-- Paging headers of page 2 of 3 whose `Link` header lists the next page only. -/
def nextOnlyHeaders : String → Option String :=
  pagingHeaders 2 3 20 50 "<https://gitlab.com/api/v4/projects/1/repository/tree?page=3>; rel=\"next\""

/-- The cursor of page 2 of 9 with links to the first, next and last page. -/
def middleCursor : Cursor String :=
  ⟨["first", "next", "last"],
    ⟨some (.int 1), some (.int 170), some (.int 20), some (.int 8)⟩,
    some (IMap.ofEntries [("first", "tree?page=1"), ("next", "tree?page=3"),
      ("last", "tree?page=9")])⟩


/-- A `Link` header with the previous page of a listing only. -/
def prevOnlyLink : String :=
  "<https://gitlab.com/api/v4/projects/1/repository/tree?page=1>; rel=\"prev\""

/-- A `Link` header with the first, next and last page of a listing. -/
def threeLinks : String :=
  "<https://gitlab.com/api/v4/projects/1/repository/tree?page=1>; rel=\"first\", <https://gitlab.com/api/v4/projects/1/repository/tree?page=3>; rel=\"next\", <https://gitlab.com/api/v4/projects/1/repository/tree?page=9>; rel=\"last\""

end GitLab

/-! ## `packages/netlify-cms-lib-util/src/backendUtil.js`: response parsing -/

namespace JS

/-- A settled promise: resolved with a value or rejected with an error. A
synchronous call that returns or throws is a value of `Except JSError`. -/
inductive Promise (α : Type) where
  | resolved (value : α)
  | rejected (reason : JSError)
  deriving DecidableEq, Repr

/-- The promise that a call of an `async` function returns, from how its body
ends: a value that the body returns resolves the promise, an exception that
the body throws rejects it. The call itself never throws. -/
def async {α : Type} (body : Except JSError α) : Promise α :=
  match body with
  | .ok value => .resolved value
  | .error error => .rejected error

/-- The expression `await promise` inside an `async` function: the value of a
resolved promise; the reason of a rejected promise is thrown. -/
def await {α : Type} (promise : Promise α) : Except JSError α :=
  match promise with
  | .resolved value => .ok value
  | .rejected reason => .error reason

/-- `Promise.all(promises)`: resolved with all the values in order, or rejected
with the reason of the first rejected promise. -/
def Promise.all {α : Type} : List (Promise α) → Promise (List α)
  | [] => .resolved []
  | promise :: promises =>
    match promise with
    | .rejected reason => .rejected reason
    | .resolved value =>
      match Promise.all promises with
      | .resolved values => .resolved (value :: values)
      | .rejected reason => .rejected reason

/-- The value of `s.startsWith(search)`. -/
def startsWith (s search : String) : Bool :=
  search.data.isPrefixOf s.data

end JS

namespace BackendUtil

open JS

/-- A `fetch` response as `parseResponse` uses it: `ok`, `status`, the value of
`headers.get("Content-Type")`, and what the body decoders `json()`, `text()`
and `blob()` give when they are applied. -/
structure Response (β : Type) where
  ok : Bool
  status : Nat
  contentType : Option String
  json : Promise β
  text : Promise β
  blob : Promise β

/-- A promise together with the body decoders that were applied to the response
to make it, in the order of the calls. -/
abbrev Traced (β : Type) : Type := Promise β × List String

/-- `catchFormatErrors(format, formatter)`: the function
`res => { try { return formatter(res); } catch (err) { throw new Error(...) } }`.
The `catch` sees an exception that the call `formatter(res)` throws, not a
rejection of the promise that the call returns. -/
def catchFormatErrors {β : Type} (format : String)
    (formatter : Response β → Except JSError (Traced β)) (res : Response β) :
    Except JSError (Traced β) :=
  match formatter res with
  | .ok promise => .ok promise
  | .error err =>
    .error ⟨"Response cannot be parsed into the expected format (" ++ format ++ "): " ++
      err.message⟩

/-- The formatter `json`, an `async` function: the body throws when the content
type is neither `application/json...` nor `text/json...` (and when there is
no content type, `null.startsWith` being a `TypeError`), and returns
`res.json()` otherwise. -/
def jsonFormatter {β : Type} (res : Response β) : Except JSError (Traced β) :=
  match res.contentType with
  | none => .ok (async (.error ⟨"Cannot read property 'startsWith' of null"⟩), [])
  | some contentType =>
    if !startsWith contentType "application/json" && !startsWith contentType "text/json" then
      .ok (async (.error ⟨contentType ++ " is not a valid JSON Content-Type"⟩), [])
    else .ok (async (await res.json), ["json"])

/-- The formatter `text`: `async res => res.text()`. -/
def textFormatter {β : Type} (res : Response β) : Except JSError (Traced β) :=
  .ok (async (await res.text), ["text"])

/-- The formatter `blob`: `async res => res.blob()`. -/
def blobFormatter {β : Type} (res : Response β) : Except JSError (Traced β) :=
  .ok (async (await res.blob), ["blob"])

/-- `responseFormatters`: the three formatters, each wrapped by
`catchFormatErrors` through `mapEntries`. -/
def responseFormatters {β : Type} : IMap (Response β → Except JSError (Traced β)) :=
  (IMap.ofEntries [("json", jsonFormatter), ("text", textFormatter),
    ("blob", blobFormatter)]).mapEntries
    (fun entry => (entry.1, catchFormatErrors entry.1 entry.2))

/-- `parseResponse(res, { expectingOk, format })`, an `async` function: the promise
it returns and the body decoders applied on the way. The defaults of the
options are `expectingOk = true` and `format = "text"`. -/
def parseResponse {β : Type} (res : Response β) (expectingOk : Bool) (format : String) :
    Traced β :=
  if expectingOk && !res.ok then
    (async (.error ⟨"Expected an ok response, but received an error status: " ++
      toString res.status ++ "."⟩), [])
  else
    match responseFormatters.get format with
    | none => (async (.error ⟨format ++ " is not a supported response format."⟩), [])
    | some formatter =>
      match formatter res with
      | .error err => (async (.error err), [])
      | .ok (promise, applied) => (async (await promise), applied)

/-- `responseParser(options)`: `res => parseResponse(res, options)`. -/
def responseParser {β : Type} (expectingOk : Bool) (format : String) (res : Response β) :
    Traced β :=
  parseResponse res expectingOk format

/-- An ok response with the content type `text/html` and an HTML body, which
`json()` cannot decode. -/
def htmlResponse : Response String :=
  { ok := true, status := 200, contentType := some "text/html",
    json := .rejected ⟨"Unexpected token < in JSON at position 0"⟩,
    text := .resolved "<html></html>", blob := .resolved "<html></html>" }

/-- An ok response with the content type `application/json` and a truncated body. -/
def truncatedJsonResponse : Response String :=
  { ok := true, status := 200, contentType := some "application/json",
    json := .rejected ⟨"Unexpected end of JSON input"⟩,
    text := .resolved "[1, 2", blob := .resolved "[1, 2" }

end BackendUtil

/-! ## `fetchFiles` in the GitLab adapter and in the GitHub backend -/

namespace GitLab

open JS

/-- What the promise of one file is resolved with in `fetchFiles`: the object
`{ file, data }`, or the error that the `catch` returns. A read that fails is
rejected with an `Error` object, as every failure of `readFile`, of the
request pipeline and of `fetch` is. -/
inductive LoadedFile (φ δ : Type) where
  | entry (file : φ) (data : δ)
  | caught (error : JSError)
  deriving DecidableEq, Repr

/-- The value of lodash `isError(item)`. -/
def isError {φ δ : Type} : LoadedFile φ δ → Bool
  | .entry _ _ => false
  | .caught _ => true

/-- The callback of `files.map` in `fetchFiles`, an `async` function:
`try { const data = await readFile(ctx, path, { id }); return { file, data }; }
 catch (error) { console.error(...); return error; }`.
The parameter `readFile` gives the promise of the call `readFile(ctx, path, { id })`
for a file. -/
def loadFile {φ δ : Type} (readFile : φ → Promise δ) (file : φ) : Promise (LoadedFile φ δ) :=
  async
    (match (do
        let data ← await (readFile file)
        pure (LoadedFile.entry file data) : Except JSError (LoadedFile φ δ)) with
      | .ok item => .ok item
      | .error error => .ok (.caught error))

/-- `fetchFiles(ctx, files)`: the promise of
`(await Promise.all(files.map(...))).filter(item => !isError(item))`. -/
def fetchFiles {φ δ : Type} (readFile : φ → Promise δ) (files : List φ) :
    Promise (List (LoadedFile φ δ)) :=
  async (do
    let loadedFiles ← await (Promise.all (files.map (loadFile readFile)))
    pure (loadedFiles.filter (fun item => !isError item)))

end GitLab

namespace GitHub

open JS

/-- `const MAX_CONCURRENT_DOWNLOADS = 10;` -/
def MAX_CONCURRENT_DOWNLOADS : Nat := 10

/-- A semaphore of the `semaphore` package: a capacity, the number of slots taken
and the FIFO queue of the tasks that wait for a slot. -/
structure Semaphore (τ : Type) where
  capacity : Nat
  current : Nat
  queue : List τ

namespace Semaphore

variable {τ : Type}

/-- `semaphore(capacity)`. -/
def create (capacity : Nat) : Semaphore τ :=
  ⟨capacity, 0, []⟩

/-- `sem.take(task)`: with no slot free the task joins the queue, otherwise a slot
is taken and the task is run. The second component is the task to run now. -/
def take (sem : Semaphore τ) (task : τ) : Semaphore τ × Option τ :=
  if sem.current + 1 > sem.capacity then ({ sem with queue := sem.queue ++ [task] }, none)
  else ({ sem with current := sem.current + 1 }, some task)

/-- `sem.leave()`: a slot is given back, and the first task of the queue, if there
is one and a slot is free, takes a slot and is run. -/
def leave (sem : Semaphore τ) : Semaphore τ × Option τ :=
  let current := sem.current - 1
  match sem.queue with
  | [] => ({ sem with current := current }, none)
  | task :: rest =>
    if 1 + current > sem.capacity then ({ sem with current := current }, none)
    else ({ sem with current := current + 1, queue := rest }, some task)

end Semaphore

/-- How a call of `api.readFile` settles: with the data, or rejected with an error
or with no reason (`undefined`). The class `API` is not among the sources. -/
inductive ReadResult (δ : Type) where
  | data (value : δ)
  | failure (reason : Option JSError)
  deriving DecidableEq, Repr

/-- The value of the `error` property of `{ error: err }`, with the default of
`(err = true)`: `true` for a rejection without a reason, the error otherwise. -/
inductive ErrorValue where
  | defaultTrue
  | reason (error : JSError)
  deriving DecidableEq, Repr

/-- What the promise of one file is resolved with: `{ file, data }` or
`{ error: err }`. -/
inductive LoadedEntry (φ δ : Type) where
  | loaded (file : φ) (data : δ)
  | failed (error : ErrorValue)
  deriving DecidableEq, Repr

/-- The truthiness of `loadedEntry.error`: `undefined` on `{ file, data }`, and
`true` or an error object on `{ error: err }`. -/
def hasError {φ δ : Type} : LoadedEntry φ δ → Bool
  | .loaded _ _ => false
  | .failed _ => true

/-- What the handlers `.then(data => ...)` and `.catch((err = true) => ...)`
resolve the promise of a file with. -/
def loadedEntryOf {φ δ : Type} (file : φ) : ReadResult δ → LoadedEntry φ δ
  | .data value => .loaded file value
  | .failure none => .failed .defaultTrue
  | .failure (some error) => .failed (.reason error)

/-- The state of one call of `fetchFiles`: the semaphore, whose tasks are the
files with their position in the list, the reads that are in flight, and the
promises that are resolved, by position. -/
structure FetchState (φ δ : Type) where
  sem : Semaphore (Nat × φ)
  inFlight : List (Nat × φ)
  resolved : List (Nat × LoadedEntry φ δ)

/-- The task that the semaphore runs calls `api.readFile`: the read is in flight. -/
def startRead {φ δ : Type} (s : FetchState φ δ) (sem : Semaphore (Nat × φ))
    (run : Option (Nat × φ)) : FetchState φ δ :=
  match run with
  | none => { s with sem := sem }
  | some task => { s with sem := sem, inFlight := s.inFlight ++ [task] }

/-- One turn of `files.forEach`: the promise of the file is made and its executor
calls `sem.take` with the task that reads the file. -/
def takeSlot {φ δ : Type} (s : FetchState φ δ) (task : Nat × φ) : FetchState φ δ :=
  startRead s (s.sem.take task).1 (s.sem.take task).2

/-- The state after `files.forEach(...)`. -/
def enqueueAll {φ δ : Type} (files : List φ) : FetchState φ δ :=
  files.enum.foldl takeSlot ⟨Semaphore.create MAX_CONCURRENT_DOWNLOADS, [], []⟩

/-- The read at position `position` of the reads in flight settles: its handler
resolves the promise of the file and calls `sem.leave()`, which may run the
next task of the queue. -/
def settle {φ δ : Type} (readFile : φ → ReadResult δ) (s : FetchState φ δ) (position : Nat) :
    FetchState φ δ :=
  match s.inFlight.get? position with
  | none => s
  | some task =>
    let resolved := s.resolved ++ [(task.1, loadedEntryOf task.2 (readFile task.2))]
    startRead { s with inFlight := s.inFlight.eraseIdx position, resolved := resolved }
      s.sem.leave.1 s.sem.leave.2

/-- The reads settle one after the other, in the order that the schedule picks
among the reads in flight, until no read is in flight or the schedule ends. -/
def runReads {φ δ : Type} (readFile : φ → ReadResult δ) :
    List Nat → FetchState φ δ → FetchState φ δ
  | [], s => s
  | choice :: schedule, s =>
    if s.inFlight.isEmpty then s
    else runReads readFile schedule (settle readFile s (choice % s.inFlight.length))

/-- `Promise.all(promises)` over promises that are never rejected: the values in
the order of the promises once all are resolved, `none` while one is pending. -/
def allResolved {φ δ : Type} (resolved : List (Nat × LoadedEntry φ δ)) :
    List (Nat × φ) → Option (List (LoadedEntry φ δ))
  | [] => some []
  | task :: tasks =>
    match resolved.lookup task.1, allResolved resolved tasks with
    | some entry, some entries => some (entry :: entries)
    | _, _ => none

/-- `fetchFiles(files)`: what the returned promise is resolved with,
`Promise.all(promises).then(loadedEntries => loadedEntries.filter(loadedEntry => !loadedEntry.error))`,
after the reads have settled in the order of the schedule; `none` when the
promise is still pending then. -/
def fetchFiles {φ δ : Type} (readFile : φ → ReadResult δ) (files : List φ)
    (schedule : List Nat) : Option (List (LoadedEntry φ δ)) :=
  (allResolved (runReads readFile schedule (enqueueAll files)).resolved files.enum).map
    (fun loadedEntries => loadedEntries.filter (fun loadedEntry => !hasError loadedEntry))


/-- The position of a file and what its promise is resolved with. -/
def resolution {φ δ : Type} (readFile : φ → ReadResult δ) (task : Nat × φ) :
    Nat × LoadedEntry φ δ :=
  (task.1, loadedEntryOf task.2 (readFile task.2))

/-- The invariant of a call of `fetchFiles` over the tasks made so far: the slots
taken are the reads in flight, at most `capacity` of them, a task waits only
when every slot is taken, and the tasks are those that are resolved, with
their own result, those in flight and those in the queue. -/
structure FetchInvariant {φ δ : Type} (readFile : φ → ReadResult δ)
    (tasks : List (Nat × φ)) (s : FetchState φ δ) : Prop where
  capacity_pos : 0 < s.sem.capacity
  current_eq : s.sem.current = s.inFlight.length
  current_le : s.sem.current ≤ s.sem.capacity
  queue_full : s.sem.queue ≠ [] → s.sem.current = s.sem.capacity
  perm : List.Perm (s.resolved ++ (s.inFlight ++ s.sem.queue).map (resolution readFile))
    (tasks.map (resolution readFile))

/-- The reads that have not settled: in flight or waiting for a slot. -/
def unsettled {φ δ : Type} (s : FetchState φ δ) : Nat :=
  s.inFlight.length + s.sem.queue.length

end GitHub

/-! ## The successful reads of a batch -/

namespace JS

/-- The value of a resolved promise, `none` for a rejected one. -/
def Promise.value? {α : Type} : Promise α → Option α
  | .resolved value => some value
  | .rejected _ => none

/-- The files whose read succeeded, each with the data of its read, in the order
of the list; `value?` gives the data of a read that succeeded. -/
def successes {φ δ : Type} (value? : φ → Option δ) (files : List φ) : List (φ × δ) :=
  files.filterMap (fun file => (value? file).map (fun data => (file, data)))

/-- The number of files of the list whose read failed. -/
def failures {φ δ : Type} (value? : φ → Option δ) (files : List φ) : Nat :=
  (files.filter (fun file => (value? file).isNone)).length

end JS

namespace GitHub

/-- The data of a read that succeeded, `none` for one that failed. -/
def ReadResult.value? {δ : Type} : ReadResult δ → Option δ
  | .data value => some value
  | .failure _ => none

/-- A batch of 25 reads of which the reads of the files `3` and `17` fail, one
without a reason. -/
def sampleRead (file : Nat) : ReadResult String :=
  if file = 3 then .failure none
  else if file = 17 then .failure (some ⟨"Not Found"⟩)
  else .data (toString file)

end GitHub

namespace GitLab

/-- A batch of 25 reads of which the reads of the files `3` and `17` fail. -/
def sampleRead (file : Nat) : JS.Promise String :=
  if file = 3 then .rejected ⟨"Failed to fetch"⟩
  else if file = 17 then .rejected ⟨"Not Found"⟩
  else .resolved (toString file)

end GitLab

/-! ## The wrapper of `getWrapperClassForNewAPI`: the bounded `request` method -/

namespace BackendUtil

open JS

/-- `const defaultMaxDownloads = 10;` -/
def defaultMaxDownloads : Nat := 10

/-- The part of a wrapper instance that `request` works on: `requestSemaphore`,
whose tasks are the requests with the number of their call, the calls of
`performRequest` that have not settled, and the promises that `request`
returned and that are settled, by the number of the call. -/
structure WrapperState (ρ σ : Type) where
  requestSemaphore : GitHub.Semaphore (Nat × ρ)
  inFlight : List (Nat × ρ)
  settled : List (Nat × Promise σ)
  calls : Nat

/-- The constructor: `this.requestSemaphore = semaphore(maxDownloads)`. -/
def WrapperState.create {ρ σ : Type} (maxDownloads : Nat) : WrapperState ρ σ :=
  ⟨GitHub.Semaphore.create maxDownloads, [], [], 0⟩

/-- The task that the semaphore runs awaits `performRequest(req)`: the request is
in flight. -/
def startRequest {ρ σ : Type} (s : WrapperState ρ σ) (sem : GitHub.Semaphore (Nat × ρ))
    (run : Option (Nat × ρ)) : WrapperState ρ σ :=
  match run with
  | none => { s with requestSemaphore := sem }
  | some task => { s with requestSemaphore := sem, inFlight := s.inFlight ++ [task] }

/-- The call `request(req)`: a promise is made and its executor calls `sem.take`
with the task that performs the request. -/
def request {ρ σ : Type} (s : WrapperState ρ σ) (req : ρ) : WrapperState ρ σ :=
  startRequest { s with calls := s.calls + 1 }
    (s.requestSemaphore.take (s.calls, req)).1 (s.requestSemaphore.take (s.calls, req)).2

/-- The call of `performRequest` at position `position` of those in flight
settles: the task calls `sem.leave()`, in the `try` block as in the `catch`
block, and resolves or rejects the promise of the call with the response or
the error. -/
def settleRequest {ρ σ : Type} (performRequest : ρ → Promise σ) (s : WrapperState ρ σ)
    (position : Nat) : WrapperState ρ σ :=
  match s.inFlight.get? position with
  | none => s
  | some task =>
    startRequest
      { s with
        inFlight := s.inFlight.eraseIdx position
        settled := s.settled ++ [(task.1, performRequest task.2)] }
      s.requestSemaphore.leave.1 s.requestSemaphore.leave.2

/-- What happens to a wrapper instance: a call of `request`, or one of the
requests in flight settles. -/
inductive WrapperEvent (ρ : Type) where
  | request (req : ρ)
  | settle (position : Nat)

/-- The wrapper after a sequence of events. -/
def runWrapper {ρ σ : Type} (performRequest : ρ → Promise σ) :
    List (WrapperEvent ρ) → WrapperState ρ σ → WrapperState ρ σ
  | [], s => s
  | .request req :: events, s => runWrapper performRequest events (request s req)
  | .settle position :: events, s =>
    runWrapper performRequest events (settleRequest performRequest s position)

/-- The requests in flight settle one after the other, in the order that the
schedule picks among them, until none is in flight or the schedule ends. -/
def settleRequests {ρ σ : Type} (performRequest : ρ → Promise σ) :
    List Nat → WrapperState ρ σ → WrapperState ρ σ
  | [], s => s
  | choice :: schedule, s =>
    if s.inFlight.isEmpty then s
    else
      settleRequests performRequest schedule
        (settleRequest performRequest s (choice % s.inFlight.length))

/-- The requests that have not settled: in flight or waiting for a slot. -/
def pending {ρ σ : Type} (s : WrapperState ρ σ) : Nat :=
  s.inFlight.length + s.requestSemaphore.queue.length

/-- The slots of a semaphore are in step with the work in flight: there is a slot,
the slots taken are the `inFlight` units of work, at most `capacity` of them,
and a task waits only when every slot is taken. -/
structure SlotInvariant {τ : Type} (sem : GitHub.Semaphore τ) (inFlight : Nat) : Prop where
  capacity_pos : 0 < sem.capacity
  current_eq : sem.current = inFlight
  current_le : sem.current ≤ sem.capacity
  queue_full : sem.queue ≠ [] → sem.current = sem.capacity

end BackendUtil

namespace BackendUtil

/-- The invariant of a wrapper instance: the slots of `requestSemaphore` are in
step with the requests in flight, and every call of `request` so far is in
one place: its promise is settled, its request is in flight, or its task
waits in the queue. -/
structure WrapperInvariant {ρ σ : Type} (s : WrapperState ρ σ) : Prop where
  slots : SlotInvariant s.requestSemaphore s.inFlight.length
  ids : List.Perm
    (s.settled.map Prod.fst ++ (s.inFlight ++ s.requestSemaphore.queue).map Prod.fst)
    (List.range s.calls)

end BackendUtil

namespace GitHub

/-- The state after the first `k` turns of `files.forEach(...)`. -/
def enqueueSome {φ δ : Type} (files : List φ) (k : Nat) : FetchState φ δ :=
  (files.enum.take k).foldl takeSlot ⟨Semaphore.create MAX_CONCURRENT_DOWNLOADS, [], []⟩

end GitHub

namespace BackendUtil

/-- A run of a wrapper: twelve calls of `request` of which the first and the
third settle in between, the third with an error. -/
def sampleEvents : List (WrapperEvent Nat) :=
  [.request 0, .request 1, .request 2, .settle 0, .request 3, .request 4, .settle 1,
    .request 5, .request 6, .request 7, .request 8, .request 9, .request 10, .request 11]

/-- The requests of the sample run succeed but for the request `2`. -/
def samplePerformRequest (req : Nat) : JS.Promise String :=
  if req = 2 then .rejected ⟨"Failed to fetch"⟩ else .resolved (toString req)

end BackendUtil

/-! ## `packages/netlify-cms-lib-util/src/context.js` and the wrapper's `getContext` -/

namespace BackendUtil

open JS

/-- The values of the properties of a Context, as far as the request pipeline tells
them apart. -/
inductive ContextValue where
  | text (value : String)
  | flag (value : Bool)
  | commitAuthor
  | config
  | getAuthInfo
  | unsentPerformRequest
  | wrapperRequest
  | wrapperGetCredentials
  | givenCredentials
  | setCacheItem (name : String)
  | getCacheItem (name : String)
  deriving DecidableEq, Repr

/-- A Context: an object, as the map of its properties. -/
abbrev Context : Type := IMap ContextValue

/-- `getContextFor(name, extraContext)`: the object literal with the default
properties, among them `performRequest` of `unsentRequest`, followed by
`...extraContext`. -/
def getContextFor (name : String) (extraContext : List (String × ContextValue)) : Context :=
  IMap.ofEntries
    ([("apiRoot", .text ""), ("branch", .text "master"), ("commitAuthor", .commitAuthor),
      ("config", .config), ("proxied", .flag false), ("editorialWorkflow", .flag false),
      ("getAuthInfo", .getAuthInfo), ("performRequest", .unsentPerformRequest),
      ("setCacheItem", .setCacheItem name), ("getCacheItem", .getCacheItem name)] ++
      extraContext)

/-- The `defaultContext` of the wrapper's `getContext(extraContext)`:
`getContextFor(name, { config: this.config, getCredentials: this.getCredentials.bind(this),
 request: this.request.bind(this), ...extraContext })`. -/
def defaultContext (name : String) (extraContext : List (String × ContextValue)) : Context :=
  getContextFor name
    (IMap.ofEntries
      ([("config", ContextValue.config), ("getCredentials", .wrapperGetCredentials),
        ("request", .wrapperRequest)] ++ extraContext)).entries

end BackendUtil

namespace GitLab

open JS BackendUtil

/-- `buildContext(defaultContext)`: `{ ...defaultContext, apiRoot, repo, repoURL, branch }`,
with `repo` and `branch` as read from the configuration and `encodedRepo` for
`encodeURIComponent(repo)`. -/
def buildContext (repo encodedRepo branch : String) (defaultContext : Context) : Context :=
  IMap.ofEntries
    (defaultContext.entries ++
      [("apiRoot", .text "https://gitlab.com/api/v4"), ("repo", .text repo),
        ("repoURL", .text ("/projects/" ++ encodedRepo)), ("branch", .text branch)])

/-- The truthiness of `ctx.editorialWorkflow`. -/
def editorialWorkflow (ctx : Context) : Bool :=
  match ctx.get "editorialWorkflow" with
  | some (.flag value) => value
  | some (.text value) => value != ""
  | some _ => true
  | none => false

/-- `getContext(defaultContext)` of the adapter: the built context, or an error
when the editorial workflow is on. -/
def getContext (repo encodedRepo branch : String) (defaultContext : Context) :
    Except JSError Context :=
  let ctx := buildContext repo encodedRepo branch defaultContext
  if editorialWorkflow ctx then
    .error ⟨"The GitLab backend does not support the Editorial Workflow."⟩
  else .ok ctx

/-- The wrapper's `getContext(extraContext)` for the GitLab adapter:
`api.getContext(defaultContext)`. -/
def wrapperGetContext (name repo encodedRepo branch : String)
    (extraContext : List (String × ContextValue)) : Except JSError Context :=
  getContext repo encodedRepo branch (defaultContext name extraContext)

/-- The executor that `request(ctx, req)` calls: `const { performRequest } = ctx;`. -/
def requestExecutor (ctx : Context) : Option ContextValue :=
  ctx.get "performRequest"

/-- The wrapper with the requests that are in flight without a slot of its
semaphore. -/
structure Network (ρ σ : Type) where
  wrapper : WrapperState ρ σ
  direct : List ρ

/-- The call `performRequest(req)` of the adapter's `request(ctx, req)` on the
executor of the context: the wrapper's `request` takes a slot of the
semaphore; `performRequest` of `unsentRequest` sends the request at once. -/
def issue {ρ σ : Type} (ctx : Context) (net : Network ρ σ) (req : ρ) : Network ρ σ :=
  match requestExecutor ctx with
  | some .wrapperRequest => { net with wrapper := BackendUtil.request net.wrapper req }
  | some .unsentPerformRequest => { net with direct := net.direct ++ [req] }
  | _ => net

end GitLab

/-! ## The wrapper of `getWrapperClassForNewAPI`: error handling and authentication -/

namespace JS

/-- `promise.then(onFulfilled)` for a callback that returns a value or throws: a
rejection passes through, an exception of the callback rejects the new
promise. -/
def Promise.andThen {α β : Type} (promise : Promise α) (onFulfilled : α → Except JSError β) :
    Promise β :=
  match promise with
  | .resolved value => async (onFulfilled value)
  | .rejected reason => .rejected reason

end JS

namespace BackendUtil

open JS

/-- A call `v(...args)` of a function of the adapter: it throws, or it returns a
promise. -/
abbrev AdapterCall (α : Type) : Type := Except JSError (Promise α)

/-- A call of a function of `api` that is not in `synchronousAPIFunctions`:
`async (...args) => { try { return await v(...args); } catch (err) { return handler(err); } }`,
where `handler` logs the error and returns nothing. The promise is resolved
with the value of the adapter, or with `undefined`, here `none`. -/
def handled {α : Type} (call : AdapterCall α) : Promise (Option α) :=
  async
    (match (do
        let promise ← call
        await promise : Except JSError α) with
      | .ok value => .ok (some value)
      | .error _ => .ok none)

/-- The object `{ entries, cursor }` that `getCollectionEntries` returns. -/
structure CollectionEntries (ε κ : Type) where
  entries : List ε
  cursor : Option κ

/-- `entriesByFolder`: `api.getCollectionEntries(ctx, collection).then(({ entries, cursor }) =>
 { entries[CURSOR_COMPATIBILITY_SYMBOL] = cursor; return entries; })`; the result is the
list with the cursor attached. The parameter is the call of the adapter's
function. -/
def entriesByFolder {ε κ : Type} (getCollectionEntries : AdapterCall (CollectionEntries ε κ)) :
    Promise (List ε × Option κ) :=
  (handled getCollectionEntries).andThen (fun result =>
    match result with
    | none => .error ⟨"Cannot destructure property 'entries' of 'undefined' as it is undefined."⟩
    | some value => .ok (value.entries, value.cursor))

/-- `entriesByFiles`: `api.getCollectionEntries(ctx, collection).then(({ entries }) => entries)`. -/
def entriesByFiles {ε κ : Type} (getCollectionEntries : AdapterCall (CollectionEntries ε κ)) :
    Promise (List ε) :=
  (handled getCollectionEntries).andThen (fun result =>
    match result with
    | none => .error ⟨"Cannot destructure property 'entries' of 'undefined' as it is undefined."⟩
    | some value => .ok value.entries)

/-- `allEntriesByFolder`: `api.getAllCollectionEntries(ctx, collection)`; here and
in the next five operations the parameter is the call of the adapter's
function. -/
def allEntriesByFolder {α : Type} (call : AdapterCall α) : Promise (Option α) :=
  handled call

/-- `getEntry`: `api.getEntry(ctx, collection, path)`. -/
def getEntry {α : Type} (call : AdapterCall α) : Promise (Option α) :=
  handled call

/-- `getMedia`: `api.getMedia(ctx)`. -/
def getMedia {α : Type} (call : AdapterCall α) : Promise (Option α) :=
  handled call

/-- `persistEntry`: `api.persistEntry(ctx, entry, options)`. -/
def persistEntry {α : Type} (call : AdapterCall α) : Promise (Option α) :=
  handled call

/-- `persistMedia`: `api.persistMedia(ctx, mediaFile, options)`. -/
def persistMedia {α : Type} (call : AdapterCall α) : Promise (Option α) :=
  handled call

/-- `traverseCursor`: `api.traverseCursor(ctx, cursor, action)`. -/
def traverseCursor {α : Type} (call : AdapterCall α) : Promise (Option α) :=
  handled call

/-- What the authentication promise is resolved with: `undefined`, `null`, or
credentials. -/
inductive AuthValue (κ : Type) where
  | undefined
  | null
  | credentials (value : κ)
  deriving DecidableEq, Repr

/-- The authentication state of a wrapper instance: the promise made in the
constructor, pending (`none`) or resolved, and whether `logout()` has put
`Promise.resolve(null)` in the place of `authenticationPromise`. -/
structure AuthState (κ : Type) where
  constructed : Option (AuthValue κ)
  loggedOut : Bool
  deriving DecidableEq, Repr

/-- The state that the constructor makes: the promise is pending. -/
def AuthState.create {κ : Type} : AuthState κ :=
  ⟨none, false⟩

/-- `getCredentials()`: what `this.authenticationPromise` is resolved with, `none`
while it is pending. -/
def getCredentials {κ : Type} (s : AuthState κ) : Option (AuthValue κ) :=
  if s.loggedOut then some .null else s.constructed

/-- `logout()`: `this.authenticationPromise = Promise.resolve(null)`. -/
def logout {κ : Type} (s : AuthState κ) : AuthState κ :=
  { s with loggedOut := true }

/-- `this.resolveAuthenticationPromise(value)`: resolves the promise of the
constructor if it is pending. -/
def resolveAuthenticationPromise {κ : Type} (s : AuthState κ) (value : AuthValue κ) :
    AuthState κ :=
  match s.constructed with
  | none => { s with constructed := some value }
  | some _ => s

/-- `authenticate(credentials)`:
`(api.checkCredentials ? api.checkCredentials(ctx, credentials) : Promise.resolve(credentials))
 .then(credentials => { this.resolveAuthenticationPromise(credentials); return credentials; })`.
The parameter `checkCredentials` is the adapter's function, if it has one;
`api.checkCredentials` is that function wrapped as every asynchronous function
of `api` is. The result is the promise and the state once it has settled. -/
def authenticate {κ : Type} (checkCredentials : Option (κ → AdapterCall κ)) (credentials : κ)
    (s : AuthState κ) : Promise (AuthValue κ) × AuthState κ :=
  let checked : Promise (Option κ) :=
    match checkCredentials with
    | some check => handled (check credentials)
    | none => .resolved (some credentials)
  match checked with
  | .resolved (some value) =>
    (.resolved (.credentials value), resolveAuthenticationPromise s (.credentials value))
  | .resolved none => (.resolved .undefined, resolveAuthenticationPromise s .undefined)
  | .rejected reason => (.rejected reason, s)

end BackendUtil

/-! ## `packages/netlify-cms-backend-gitlab/src/index.js`: `checkCredentials` -/

namespace JS

/-- `Promise.all([first, second])`: resolved with both values, or rejected with the
reason of the first of the two that is rejected. -/
def Promise.both {α β : Type} (first : Promise α) (second : Promise β) : Promise (α × β) :=
  match first with
  | .rejected reason => .rejected reason
  | .resolved a =>
    match second with
    | .rejected reason => .rejected reason
    | .resolved b => .resolved (a, b)

end JS

namespace GitLab

open JS

/-- `const WRITE_ACCESS = 30;` -/
def WRITE_ACCESS : Int := 30

/-- The object at `project_access` or `group_access`: its `access_level`, absent or
a number. -/
structure Access where
  access_level : Option JSNum
  deriving DecidableEq, Repr

/-- The `permissions` of a project: `project_access` and `group_access`, each an
object or, as `none`, `null` or absent. -/
structure Permissions where
  project_access : Option Access
  group_access : Option Access
  deriving DecidableEq, Repr

/-- The body of the project response: its `permissions`, if it has them. -/
structure Project where
  permissions : Option Permissions
  deriving DecidableEq, Repr

/-- The value of `access && access.access_level >= WRITE_ACCESS`, as a condition. -/
def hasWriteAccess (access : Option Access) : Bool :=
  match access with
  | none => false
  | some value =>
    match value.access_level with
    | some (.int level) => decide (WRITE_ACCESS ≤ level)
    | _ => false

/-- `checkCredentials(ctx, credentials)`, with the promises of the two calls
`requestJSON(newCtx, repoURL)` and `requestJSON(newCtx, "/user")` as
parameters. -/
def checkCredentials {υ κ : Type} (projectRequest : Promise Project) (userRequest : Promise υ)
    (credentials : κ) : Promise κ :=
  async (do
    let results ← await (Promise.both projectRequest userRequest)
    match results.1.permissions with
    | none =>
      throw ⟨"Cannot destructure property 'project_access' of 'permissions' as it is undefined."⟩
    | some permissions =>
      if hasWriteAccess permissions.project_access then pure credentials
      else if hasWriteAccess permissions.group_access then pure credentials
      else throw ⟨"Invalid credentials"⟩)

/-- An access of level 30 or more. -/
def GrantsWrite (access : Option Access) : Prop :=
  ∃ value level, access = some value ∧ value.access_level = some (.int level) ∧ 30 ≤ level

/-- The permissions of the project grant write access through the project or
through the group. -/
def ProjectGrantsWrite (project : Project) : Prop :=
  ∃ permissions, project.permissions = some permissions ∧
    (GrantsWrite permissions.project_access ∨ GrantsWrite permissions.group_access)

/-- A project whose `project_access` has the given level and whose `group_access`
is `null`. -/
def projectWithLevel (level : Int) : Project :=
  ⟨some ⟨some ⟨some (.int level)⟩, none⟩⟩

end GitLab

/-! ## `packages/netlify-cms-backend-gitlab/src/index.js`: `listFullFolder` -/

namespace GitLab

open JS

/-- An entry of a repository tree listing. -/
structure TreeEntry where
  id : String
  name : String
  type : String
  path : String
  deriving DecidableEq, Repr

/-- `filterToFileObjects(entries)`: `entries.filter(({ type }) => type === "blob")`. -/
def filterToFileObjects (entries : List TreeEntry) : List TreeEntry :=
  entries.filter (fun entry => entry.type == "blob")

/-- The `while` loop of `listFullFolder`, for at most `fuel` tests of its
condition: `none` when the loop has not ended by then. The parameter
`fetchCursorAndEntries` gives the promise of `fetchCursorAndEntries(ctx, link)`,
the link being `undefined`, here `none`, when the cursor has no link for
`next`. -/
def listFullFolderLoop {ρ : Type}
    (fetchCursorAndEntries : Option ρ → Promise (Cursor ρ × List TreeEntry)) :
    Nat → Cursor ρ → List TreeEntry → Option (Except JSError (List TreeEntry))
  | 0, _, _ => none
  | fuel + 1, cursor, entries =>
    if cursor.actions.contains "next" then
      match await (fetchCursorAndEntries (cursor.link "next")) with
      | .error error => some (.error error)
      | .ok (newCursor, newEntries) =>
        listFullFolderLoop fetchCursorAndEntries fuel newCursor (entries ++ newEntries)
    else some (.ok entries)

/-- `listFullFolder(ctx, path)`: `entries` starts empty, the first page is fetched,
its cursor is taken and its entries are bound to `initialEntries`, the loop
pushes the entries of the following pages to `entries`, and
`filterToFileObjects(entries)` is returned. -/
def listFullFolder {ρ : Type}
    (fetchCursorAndEntries : Option ρ → Promise (Cursor ρ × List TreeEntry)) (fuel : Nat)
    (firstPage : ρ) : Option (Promise (List TreeEntry)) :=
  match await (fetchCursorAndEntries (some firstPage)) with
  | .error error => some (.rejected error)
  | .ok (cursor, _initialEntries) =>
    (listFullFolderLoop fetchCursorAndEntries fuel cursor []).map
      (fun result => async (result.map filterToFileObjects))

/-- The cursor of page `i` of a listing of `count` pages, as far as `listFullFolder`
reads it: the action `next` and its link to page `i + 1` unless the page is
the last. -/
def pageCursor (count i : Nat) : Cursor Nat :=
  if i + 1 < count then
    ⟨["next"], ⟨some (.int i), none, none, some (.int (count - 1))⟩,
      some (IMap.ofEntries [("next", i + 1)])⟩
  else ⟨[], ⟨some (.int i), none, none, some (.int (count - 1))⟩, some IMap.empty⟩

/-- A provider that serves the pages of a listing: the request for page `i` is
answered with the cursor and the entries of that page. -/
def servePages (pages : List (List TreeEntry)) :
    Option Nat → Promise (Cursor Nat × List TreeEntry)
  | none => .rejected ⟨"Not Found"⟩
  | some i =>
    match pages.get? i with
    | some entries => .resolved (pageCursor pages.length i, entries)
    | none => .rejected ⟨"Not Found"⟩

/-- A folder of one page with one file. -/
def onePageFolder : List (List TreeEntry) :=
  [[⟨"a1b2", "post.md", "blob", "posts/post.md"⟩]]

end GitLab

/-! ## `packages/netlify-cms-backend-gitlab/src/index.js`: `persistEntry` and `persistMedia` -/

namespace GitLab

open JS BackendUtil

/-- An entry or a media file as the persist functions read it: `path`, `raw`, what
its own method `toBase64()` returns if it has that method, and the size of its
`fileObj` if it has one. -/
structure FileItem where
  path : String
  raw : String
  toBase64 : Option (Promise String)
  fileObj : Option Nat
  deriving DecidableEq, Repr

/-- The value `{ ...item, uploaded: true }` that `uploadAndCommit` returns. -/
structure UploadedItem where
  item : FileItem
  uploaded : Bool
  deriving DecidableEq, Repr

/-- The value `{ name, size, getBlobPromise, path }` that `persistMedia` would
return. -/
structure MediaResult where
  name : String
  size : Nat
  path : String
  deriving DecidableEq, Repr

/-- One element of `actions` in the body of a commit request. -/
structure CommitAction where
  action : String
  file_path : String
  content : String
  encoding : String
  deriving DecidableEq, Repr

/-- A commit request: `{ url, method, headers, body: JSON.stringify(commitParams) }`
with `commitParams = { branch, commit_message, actions }`. -/
structure CommitRequest where
  url : String
  method : String
  branch : String
  commit_message : Option String
  actions : List CommitAction
  deriving DecidableEq, Repr

/-- The options `{ commitMessage, newEntry }` of a persist call. -/
structure PersistOptions where
  commitMessage : Option String
  newEntry : Option Bool
  deriving DecidableEq, Repr

/-- A value passed to `persistFiles`, whose parameters are not typed: a Context, an
array of files, an options object, or `undefined` for an argument that is
not passed. -/
inductive Argument where
  | context (ctx : Context)
  | files (items : List FileItem)
  | options (value : PersistOptions)
  | undefined

/-- The text at a key of the Context, in a template string or as a property. -/
def contextText (ctx : Context) (key : String) : String :=
  match ctx.get key with
  | some (.text value) => value
  | _ => "undefined"

/-- `item.path.replace(/^\//, "")`: the path without one leading slash. -/
def stripLeadingSlash (path : String) : String :=
  match path.data with
  | '/' :: rest => String.mk rest
  | _ => path

/-- `uploadAndCommit(ctx, item, { commitMessage, updateFile })`, an `async`
function: the promise it returns and the commit requests it issues. The
parameter `encode` is `Base64.encode`, a name that the file does not import,
and `send` gives the promise of `ctx.performRequest` for the prepared request.
With a `ctx` that is not a Context, `request(ctx, req)` fails in
`authorizeRequest`, where `ctx.getCredentials` is called, before any request. -/
def uploadAndCommit {σ : Type} (encode : String → Except JSError String)
    (send : CommitRequest → Promise σ) (ctx : Argument) (item : FileItem)
    (commitMessage : Option String) (updateFile : Bool) :
    Promise UploadedItem × List CommitRequest :=
  let encoded : Except JSError String :=
    match item.toBase64 with
    | some promise => await promise
    | none => encode item.raw
  match encoded with
  | .error error => (.rejected error, [])
  | .ok content =>
    match ctx with
    | .context c =>
      let req : CommitRequest :=
        { url := contextText c "repoURL" ++ "/repository/commits"
          method := "POST"
          branch := contextText c "branch"
          commit_message := commitMessage
          actions :=
            [{ action := if updateFile then "update" else "create"
               file_path := stripLeadingSlash item.path
               content := content
               encoding := "base64" }] }
      match send req with
      | .rejected reason => (.rejected reason, [req])
      | .resolved _ => (.resolved ⟨item, true⟩, [req])
    | _ => (.rejected ⟨"getCredentials is not a function"⟩, [])

/-- The uploads of `files.map(file => uploadAndCommit(...))` one after the other,
with `Promise.all` of their promises. -/
def uploadAll {σ : Type} (encode : String → Except JSError String)
    (send : CommitRequest → Promise σ) (ctx : Argument) (commitMessage : Option String)
    (updateFile : Bool) (items : List FileItem) :
    Promise (List UploadedItem) × List CommitRequest :=
  (Promise.all (items.map (fun item =>
      (uploadAndCommit encode send ctx item commitMessage updateFile).1)),
    (items.map (fun item =>
      (uploadAndCommit encode send ctx item commitMessage updateFile).2)).flatten)

/-- `persistFiles(ctx, files, { commitMessage, newEntry })`, not an `async`
function: it throws when the third argument is not passed, its pattern having
no default, and when `files` has no `map`. -/
def persistFiles {σ : Type} (encode : String → Except JSError String)
    (send : CommitRequest → Promise σ) (ctx files options : Argument) :
    Except JSError (Promise (List UploadedItem) × List CommitRequest) :=
  match options with
  | .undefined =>
    .error ⟨"Cannot destructure property 'commitMessage' of 'undefined' as it is undefined."⟩
  | _ =>
    let opts : PersistOptions :=
      match options with
      | .options value => value
      | _ => ⟨none, none⟩
    match files with
    | .files items =>
      .ok (uploadAll encode send ctx opts.commitMessage (opts.newEntry == some false) items)
    | _ => .error ⟨"files.map is not a function"⟩

/-- `persistEntry(ctx, entry, options = {})`: `persistFiles(ctx, [entry], options)`. -/
def persistEntry {σ : Type} (encode : String → Except JSError String)
    (send : CommitRequest → Promise σ) (ctx : Context) (entry : FileItem)
    (options : Option PersistOptions) :
    Except JSError (Promise (List UploadedItem) × List CommitRequest) :=
  persistFiles encode send (.context ctx) (.files [entry])
    (.options (options.getD ⟨none, none⟩))

/-- `persistMedia(ctx, mediaFile, options = {})`, an `async` function that starts
with `await persistFiles([mediaFile], options)`: the array is passed as `ctx`,
the options as `files`, and no third argument. What follows the `await` is
reached only if that call returns a promise that is resolved; it reads
`fileObj.size` and then calls `trimStart`, a name that the file does not
import. -/
def persistMedia {σ : Type} (encode : String → Except JSError String)
    (send : CommitRequest → Promise σ) (_ctx : Context) (mediaFile : FileItem)
    (options : Option PersistOptions) : Promise MediaResult × List CommitRequest :=
  match persistFiles encode send (.files [mediaFile])
      (.options (options.getD ⟨none, none⟩)) .undefined with
  | .error error => (.rejected error, [])
  | .ok (promise, requests) =>
    (async (do
      let _ ← await promise
      match mediaFile.fileObj with
      | none => throw ⟨"Cannot read property 'size' of undefined"⟩
      | some _ => throw ⟨"trimStart is not defined"⟩), requests)

/-- A Context of a GitLab repository. -/
def sampleContext : Context :=
  buildContext "owner/site" "owner%2Fsite" "master" (defaultContext "gitlab" [])

/-- A media file with its own `toBase64`. -/
def sampleMediaFile : FileItem :=
  ⟨"/static/img/logo.png", "", some (.resolved "iVBORw0KGgo="), some 2048⟩

end GitLab

/-! ## `packages/netlify-cms-backend-gitlab/src/index.js`: `readFile` and the content cache -/

namespace GitLab

open JS BackendUtil

/-- What a file request gives and what the cache holds: the text of a file, or a
blob with its bytes. -/
inductive FileData where
  | text (value : String)
  | blob (bytes : List Nat)
  deriving DecidableEq, Repr

/-- The truthiness of a file's data in `if (cachedFile)`: the empty string is
falsy, every other text and every blob is truthy. -/
def FileData.truthy : FileData → Bool
  | .text value => value != ""
  | .blob _ => true

/-- Modelled from the spec: the persisted content cache behind `localForage`, whose
file is not part of the sources: a store of values by key, "keyed by
`backend-name.cache-key`", written on fetch and read before a fetch. -/
abbrev LocalForage : Type := List (String × FileData)

/-- Modelled from the spec: `localForage.getItem(key)` resolves with the value
stored at the key, or with `null` when there is none. -/
def LocalForage.getItem (store : LocalForage) (key : String) : Option FileData :=
  match store with
  | [] => none
  | (k, value) :: rest => if k = key then some value else LocalForage.getItem rest key

/-- Modelled from the spec: `localForage.setItem(key, val)` stores the value at
the key, in place of what was there. -/
def LocalForage.setItem (store : LocalForage) (key : String) (val : FileData) : LocalForage :=
  (key, val) :: store.filter (fun entry => entry.1 != key)

/-- The key of `context.js` for a cache item of a backend. -/
def cacheKey (name key : String) : String :=
  "backends." ++ name ++ "." ++ key

/-- The third argument `{ id, ref, parseText = true } = {}` of `readFile`. -/
structure ReadOptions where
  id : Option String
  ref : Option String
  parseText : Option Bool
  deriving DecidableEq, Repr

/-- The request of `readFile`: its URL, the parameter `ref`, and whether it goes
through `requestText` or `requestBlob`. -/
structure FileRequest where
  url : String
  ref : String
  parseText : Bool
  deriving DecidableEq, Repr

/-- A call of `readFile`: the promise it returns, the requests it performs, the
keys it reads from the cache, what it writes to the cache, and the cache
after the call. -/
structure ReadResult where
  promise : Promise FileData
  requests : List FileRequest
  cacheReads : List String
  cacheWrites : List (String × FileData)
  store : LocalForage
  deriving DecidableEq, Repr

/-- A string operand of `&&` or `||` if it is truthy: neither `undefined` nor the
empty string. -/
def truthyString (value : Option String) : Option String :=
  match value with
  | some s => if s = "" then none else some s
  | none => none

/-- The request that `readFile` makes: the URL of the raw file, `ref` as
`refArg || branch`, and `parseText` with its default `true`. -/
def fileRequest (ctx : Context) (encodedPath : String) (options : ReadOptions) : FileRequest :=
  { url := contextText ctx "repoURL" ++ "/repository/files/" ++ encodedPath ++ "/raw"
    ref := (truthyString options.ref).getD (contextText ctx "branch")
    parseText := options.parseText.getD true }

/-- The part of `readFile` after the test of `cachedFile`: the request, then
`if (id) setCacheItem(id, result)`, then `return result`. -/
def fetchAndStore (fetch : FileRequest → Promise FileData) (store : LocalForage)
    (ctx : Context) (encodedPath : String) (options : ReadOptions)
    (cacheReads : List String) : ReadResult :=
  let req : FileRequest := fileRequest ctx encodedPath options
  match fetch req with
  | .rejected reason => ⟨.rejected reason, [req], cacheReads, [], store⟩
  | .resolved result =>
    match truthyString options.id with
    | none => ⟨.resolved result, [req], cacheReads, [], store⟩
    | some id =>
      match ctx.get "setCacheItem" with
      | some (.setCacheItem name) =>
        ⟨.resolved result, [req], cacheReads, [(cacheKey name id, result)],
          store.setItem (cacheKey name id) result⟩
      | _ => ⟨.rejected ⟨"setCacheItem is not a function"⟩, [req], cacheReads, [], store⟩

/-- `readFile(ctx, path, { id, ref, parseText })`, an `async` function, on a cache
`store`; `encodedPath` is `encodeURIComponent(path)` and `fetch` gives the
promise of `(parseText ? requestText : requestBlob)(ctx, req)`.
`cachedFile` is `id && (await getCacheItem(id))`, and it is returned only if it
is truthy. -/
def readFile (fetch : FileRequest → Promise FileData) (store : LocalForage)
    (ctx : Context) (encodedPath : String) (options : ReadOptions) : ReadResult :=
  match truthyString options.id with
  | none => fetchAndStore fetch store ctx encodedPath options []
  | some id =>
    match ctx.get "getCacheItem" with
    | some (.getCacheItem name) =>
      match store.getItem (cacheKey name id) with
      | some cachedFile =>
        if cachedFile.truthy then
          ⟨.resolved cachedFile, [], [cacheKey name id], [], store⟩
        else fetchAndStore fetch store ctx encodedPath options [cacheKey name id]
      | none => fetchAndStore fetch store ctx encodedPath options [cacheKey name id]
    | _ => ⟨.rejected ⟨"getCacheItem is not a function"⟩, [], [], [], store⟩

/-- A cache that holds the text of an empty file under the id `3f2a`. -/
def storeWithEmptyFile : LocalForage :=
  [("backends.gitlab.3f2a", .text "")]

/-- A provider that answers every file request with the same text. -/
def serveText (value : String) : FileRequest → Promise FileData :=
  fun _ => .resolved (.text value)

end GitLab

/-! ## `packages/netlify-cms-backend-github/src/implementation.js`: the fork workflow -/

namespace GitHub

open JS

/-- What the backend does to the outside in the fork workflow: a call of `fetch`
with its method and URL, or a wait of `setTimeout`. -/
inductive Effect where
  | fetch (method url : String)
  | wait (milliseconds : Nat)
  deriving DecidableEq, Repr

/-- The reason of a rejected `fetch` promise as the `catch` handler of the poll
reads it: a message, and the property `status` if it has one. -/
structure FetchError where
  message : String
  status : Option Nat
  deriving DecidableEq, Repr

/-- How the promise of the global `fetch` settles for a probe. It is resolved with
the response when the provider answers, whatever the HTTP status of the answer:
an answer `404 Not Found` is a response. It is rejected when the call fails. -/
inductive FetchOutcome where
  | response (status : Nat)
  | rejected (error : FetchError)
  deriving DecidableEq, Repr

/-- The value of `await fetch(...).then(() => true).catch(err => (err && err.status
=== 404 ? false : Promise.reject(err)))`: `true` for a resolved `fetch`,
`false` for a rejection whose reason has the status 404, and the reason is
thrown for any other rejection. -/
def probeResult : FetchOutcome → Except FetchError Bool
  | .response _ => .ok true
  | .rejected error => if error.status = some 404 then .ok false else .error error

/-- A run of `pollUntilForkExists`: how its promise settles, `none` while a probe
is not answered, and its effects in order. -/
structure PollRun where
  result : Option (Except FetchError Unit)
  effects : List Effect
  deriving DecidableEq, Repr

/-- `pollUntilForkExists({ repo, token })`, for the outcomes of its successive
probes: the loop `while (!repoExists)` probes the repository, and waits 250 ms
before the next turn if `repoExists` is still false. When the outcomes run
out, the last probe is made and not answered. -/
def pollUntilForkExists (api_root repo : String) : List FetchOutcome → PollRun
  | [] => ⟨none, [.fetch "GET" (api_root ++ "/repos/" ++ repo)]⟩
  | outcome :: rest =>
    match probeResult outcome with
    | .error error => ⟨some (.error error), [.fetch "GET" (api_root ++ "/repos/" ++ repo)]⟩
    | .ok true => ⟨some (.ok ()), [.fetch "GET" (api_root ++ "/repos/" ++ repo)]⟩
    | .ok false =>
      ⟨(pollUntilForkExists api_root repo rest).result,
        .fetch "GET" (api_root ++ "/repos/" ++ repo) :: .wait 250 ::
          (pollUntilForkExists api_root repo rest).effects⟩

/-- The fields of the backend that the fork workflow reads and writes; `none` is
a field that is not set. The maintainer promises are kept by user name. -/
structure Backend where
  forkWorkflowEnabled : Bool
  originRepo : String
  repo : Option String
  useForkWorkflow : Option Bool
  api_root : String
  currentUserPromise : Option (Promise String)
  userIsOriginMaintainerPromises : List (String × Promise Bool)
  deriving DecidableEq, Repr

/-- The provider as the fork workflow sees it: the `login` of the JSON of `/user`,
the `permission` of the JSON of the permission lookup for a user name, the
`full_name` of the JSON of the fork creation, each with the promise of
`fetch(...).then(res => res.json())`, and the outcomes of the probes. -/
structure Provider where
  user : Promise String
  permission : String → Promise (Option String)
  fork : Promise (Option String)
  probes : List FetchOutcome

/-- `currentUser({ token })`: the promise of the user, fetched once and kept. -/
def currentUser (backend : Backend) (provider : Provider) :
    Backend × Promise String × List Effect :=
  match backend.currentUserPromise with
  | some promise => (backend, promise, [])
  | none =>
    ({ backend with currentUserPromise := some provider.user }, provider.user,
      [.fetch "GET" (backend.api_root ++ "/user")])

/-- The promise kept for a user name in `_userIsOriginMaintainerPromises`. -/
def maintainerPromise (promises : List (String × Promise Bool)) (username : String) :
    Option (Promise Bool) :=
  match promises with
  | [] => none
  | (name, promise) :: rest =>
    if name = username then some promise else maintainerPromise rest username

/-- The part of `userIsOriginMaintainer` after `username` is known: the promise
kept for the user name, or else the lookup of the permission, whose promise
is kept, with `permission === 'admin' || permission === 'write'`. -/
def lookupMaintainer (backend : Backend) (provider : Provider) (username : String)
    (effects : List Effect) : Backend × Promise Bool × List Effect :=
  match maintainerPromise backend.userIsOriginMaintainerPromises username with
  | some promise => (backend, promise, effects)
  | none =>
    let promise : Promise Bool :=
      (provider.permission username).andThen (fun permission =>
        .ok (permission == some "admin" || permission == some "write"))
    ({ backend with
        userIsOriginMaintainerPromises :=
          (username, promise) :: backend.userIsOriginMaintainerPromises },
      promise,
      effects ++
        [.fetch "GET" (backend.api_root ++ "/repos/" ++ backend.originRepo ++
          "/collaborators/" ++ username ++ "/permission")])

/-- `userIsOriginMaintainer({ username: usernameArg, token })`: the user name is
`usernameArg || (await this.currentUser({ token })).login`. -/
def userIsOriginMaintainer (backend : Backend) (provider : Provider)
    (usernameArg : Option String) : Backend × Promise Bool × List Effect :=
  let viaCurrentUser : Backend × Promise Bool × List Effect :=
    match currentUser backend provider with
    | (backend1, .rejected reason, effects) => (backend1, .rejected reason, effects)
    | (backend1, .resolved login, effects) => lookupMaintainer backend1 provider login effects
  match usernameArg with
  | some username =>
    if username = "" then viaCurrentUser else lookupMaintainer backend provider username []
  | none => viaCurrentUser

/-- A run of `authenticateWithFork`: the backend after it, how its promise settles,
`none` while the poll waits for an answer, and its effects in order. -/
structure ForkRun where
  backend : Backend
  promise : Option (Promise Unit)
  effects : List Effect
  deriving DecidableEq, Repr

/-- `authenticateWithFork({ userData, getPermissionToFork })`, an `async` method;
`permissionToFork` is how `await getPermissionToFork()` ends. -/
def authenticateWithFork (backend : Backend) (provider : Provider)
    (permissionToFork : Promise Unit) : ForkRun :=
  if backend.forkWorkflowEnabled then
    match userIsOriginMaintainer backend provider none with
    | (backend1, .rejected reason, effects) => ⟨backend1, some (.rejected reason), effects⟩
    | (backend1, .resolved true, effects) =>
      ⟨{ backend1 with repo := some backend1.originRepo, useForkWorkflow := some false },
        some (.resolved ()), effects⟩
    | (backend1, .resolved false, effects) =>
      match permissionToFork with
      | .rejected reason => ⟨backend1, some (.rejected reason), effects⟩
      | .resolved _ =>
        match provider.fork with
        | .rejected reason =>
          ⟨backend1, some (.rejected reason),
            effects ++
              [.fetch "POST" (backend1.api_root ++ "/repos/" ++ backend1.originRepo ++ "/forks")]⟩
        | .resolved full_name =>
          let poll : PollRun :=
            pollUntilForkExists backend1.api_root (full_name.getD "undefined") provider.probes
          ⟨{ backend1 with useForkWorkflow := some true, repo := full_name },
            poll.result.map (fun result =>
              match result with
              | .ok _ => .resolved ()
              | .error error => .rejected ⟨error.message⟩),
            effects ++
              [.fetch "POST" (backend1.api_root ++ "/repos/" ++ backend1.originRepo ++ "/forks")]
              ++ poll.effects⟩
  else
    ⟨backend, some (.rejected ⟨"Cannot authenticate with fork; forking workflow is turned off."⟩),
      []⟩

/-- The fork-creation calls among the effects: the calls of `fetch` with the
method `POST`. -/
def forkCreationCalls (effects : List Effect) : List Effect :=
  effects.filter (fun effect =>
    match effect with
    | .fetch method _ => method == "POST"
    | .wait _ => false)

/-- A backend as its constructor leaves it with the fork workflow on. -/
def sampleBackend : Backend :=
  { forkWorkflowEnabled := true
    originRepo := "owner/site"
    repo := none
    useForkWorkflow := none
    api_root := "https://api.github.com"
    currentUserPromise := none
    userIsOriginMaintainerPromises := [] }

/-- A provider for the user `editor` with the given permission on the origin
repository, where the fork `editor/site` is made and answers the first probe. -/
def sampleProvider (permission : String) : Provider :=
  { user := .resolved "editor"
    permission := fun _ => .resolved (some permission)
    fork := .resolved (some "editor/site")
    probes := [.response 200] }

end GitHub

/-! ## `packages/netlify-cms-backend-github/src/implementation.js`: the constructor -/

namespace GitHub

open JS

/-- `config.getIn(searchKeyPath, notSetValue)` on the configuration, an Immutable
map kept as the object of its entries: the value at the path, which may be
`null`, and `notSetValue` when a key of the path is missing or the value on
the way is not a map. -/
def getIn (config : JSVal) (searchKeyPath : List String) (notSetValue : JSVal) : JSVal :=
  match searchKeyPath with
  | [] => config
  | key :: rest =>
    match config with
    | .obj kvs =>
      match kvs.lookup key with
      | some value => getIn value rest notSetValue
      | none => notSetValue
    | _ => notSetValue

/-- The value of `v == null`: true for `null` and `undefined` only. -/
def looselyNull : JSVal → Bool
  | .null => true
  | .undefined => true
  | _ => false

/-- The value of a property of `{ proxied: false, API: null, ...options }`, for the
own properties of `options`. -/
def optionValue (options : List (String × JSVal)) (key : String) : JSVal :=
  match options.lookup key with
  | some value => value
  | none =>
    if key = "proxied" then .bool false
    else if key = "API" then .null
    else .undefined

/-- The value of `value.trim()`: the trimmed string, and a `TypeError` for a value
that is not a string. -/
def trimValue : JSVal → Except JSError String
  | .str s => .ok (String.mk (trim s.data))
  | .null => .error ⟨"Cannot read property 'trim' of null"⟩
  | .undefined => .error ⟨"Cannot read property 'trim' of undefined"⟩
  | _ => .error ⟨"config.getIn(...).trim is not a function"⟩

/-- The fields that the constructor sets on the backend; `originRepo` and `repo`
are `none` when they are not set. -/
structure Fields where
  config : JSVal
  options : List (String × JSVal)
  api : JSVal
  forkWorkflowEnabled : JSVal
  originRepo : Option JSVal
  repo : Option JSVal
  branch : String
  api_root : JSVal
  token : String
  squash_merges : JSVal

/-- `new GitHub(config, options)`: the fields of the backend, or the error that
the constructor throws. -/
def construct (config : JSVal) (options : List (String × JSVal)) : Except JSError Fields :=
  if !(optionValue options "proxied").truthy &&
      looselyNull (getIn config ["backend", "repo"] .undefined) then
    .error ⟨"The GitHub backend needs a \"repo\" in the backend configuration."⟩
  else
    let api : JSVal :=
      if (optionValue options "API").truthy then optionValue options "API" else .null
    let forkWorkflowEnabled := getIn config ["backend", "fork_workflow"] (.bool false)
    if forkWorkflowEnabled.truthy && !(optionValue options "useWorkflow").truthy then
      .error ⟨"backend.fork_workflow is true but publish_mode is not set to editorial_workflow."⟩
    else
      match trimValue (getIn config ["backend", "branch"] (.str "master")) with
      | .error error => .error error
      | .ok branch =>
        .ok
          { config := config
            options := options
            api := api
            forkWorkflowEnabled := forkWorkflowEnabled
            originRepo :=
              if forkWorkflowEnabled.truthy then
                some (getIn config ["backend", "repo"] (.str ""))
              else none
            repo :=
              if forkWorkflowEnabled.truthy then none
              else some (getIn config ["backend", "repo"] (.str ""))
            branch := branch
            api_root := getIn config ["backend", "api_root"] (.str "https://api.github.com")
            token := ""
            squash_merges := getIn config ["backend", "squash_merges"] .undefined }

/-- A configuration with a repository and the given further entries of `backend`. -/
def sampleConfig (entries : List (String × JSVal)) : JSVal :=
  .obj [("backend", .obj ([("name", .str "github"), ("repo", .str "owner/site")] ++ entries))]

end GitHub

/-! ## `packages/netlify-cms-backend-github/src/implementation.js`: `unpublishedEntries` -/

namespace GitHub

open JS

/-- The pieces of `s.split(separator)` for a separator that is not empty, read from
left to right: `skip` counts the characters of a separator just found that
are still to be passed over, `piece` holds the current piece in reverse. -/
def splitPieces (separator : List Char) : List Char → Nat → List Char → List (List Char)
  | [], _, piece => [piece.reverse]
  | _ :: rest, skip + 1, piece => splitPieces separator rest skip piece
  | c :: rest, 0, piece =>
    if separator.isPrefixOf (c :: rest) then
      piece.reverse :: splitPieces separator rest (separator.length - 1) []
    else splitPieces separator rest 0 (c :: piece)

/-- The value of `s.split(separator).pop()`: the last piece, which is `s` itself
when the separator does not occur in it. -/
def splitPop (s separator : String) : String :=
  match (splitPieces separator.data s.data 0 []).getLast? with
  | some piece => String.mk piece
  | none => ""

/-- A branch as `api.listUnpublishedBranches()` lists it, of which `ref` is read. -/
structure Branch where
  ref : String
  deriving DecidableEq, Repr

/-- What the executor of the promise of a branch computes before it takes a slot:
`contentKey = ref.split('refs/heads/cms/').pop()` and
`slug = contentKey.split('/').pop()`. -/
structure BranchTask where
  contentKey : String
  slug : String
  deriving DecidableEq, Repr

/-- The content key and the slug of a branch. -/
def branchTask (branch : Branch) : BranchTask :=
  { contentKey := splitPop branch.ref "refs/heads/cms/"
    slug := splitPop (splitPop branch.ref "refs/heads/cms/") "/" }

/-- The `metaData` of an unpublished branch file, of which `objects.entry.path` is
read. -/
structure MetaData where
  entryPath : String
  deriving DecidableEq, Repr

/-- The data that `api.readUnpublishedBranchFile(contentKey)` resolves with, when
it is neither `null` nor `undefined`; `metaData` is `none` when
`data.metaData.objects.entry` cannot be read. -/
structure BranchFile where
  metaData : Option MetaData
  fileData : String
  isModification : Bool
  deriving DecidableEq, Repr

/-- The entry `{ slug, file: { path }, data, metaData, isModification }` of an
unpublished branch. -/
structure UnpublishedEntry where
  slug : String
  path : String
  data : String
  metaData : MetaData
  isModification : Bool
  deriving DecidableEq, Repr

/-- What the handlers of a branch resolve its promise with, `none` for `null`:
`null` when the data is `null` or `undefined`, the entry when the data has its
meta data, and `null` from the `catch` handler, which is reached when the read
is rejected and when `data.metaData.objects.entry.path` throws. -/
def unpublishedEntryOf (task : BranchTask) : ReadResult (Option BranchFile) →
    Option UnpublishedEntry
  | .data none => none
  | .data (some data) =>
    match data.metaData with
    | some metaData =>
      some
        { slug := task.slug
          path := metaData.entryPath
          data := data.fileData
          metaData := metaData
          isModification := data.isModification }
    | none => none
  | .failure _ => none

/-- The handler `.catch(error => ...)` at the end of `unpublishedEntries`: the empty
list for an error with the message `Not Found`, the same rejection for any
other error. -/
def catchNotFound {α : Type} (error : JSError) : Promise (List α) :=
  if error.message = "Not Found" then .resolved [] else .rejected error

/-- `unpublishedEntries()`: how the returned promise settles, `none` while it is
pending. `listing` is the promise of `api.listUnpublishedBranches()` and
`readUnpublishedBranchFile` gives the outcome of the read of a content key;
the class `API` is not among the sources. The promises of the branches take
their slots of `semaphore(MAX_CONCURRENT_DOWNLOADS)` and give them back as the
reads of `fetchFiles` do, so the run of the reads is `runReads`, which keeps
the outcome of each read by position; `Promise.all` is resolved, once every
read has settled, with what the handlers make of each outcome. -/
def unpublishedEntries (listing : Promise (List Branch))
    (readUnpublishedBranchFile : String → ReadResult (Option BranchFile))
    (schedule : List Nat) : Option (Promise (List (Option UnpublishedEntry))) :=
  match listing with
  | .rejected error => some (catchNotFound error)
  | .resolved branches =>
    (allResolved
        (runReads (fun task : BranchTask => readUnpublishedBranchFile task.contentKey) schedule
          (enqueueAll (branches.map branchTask))).resolved
        (branches.map branchTask).enum).map
      (fun loadedEntries =>
        .resolved (loadedEntries.map (fun loadedEntry =>
          match loadedEntry with
          | .loaded task data => unpublishedEntryOf task (.data data)
          | .failed _ => none)))

/-- The entry of a branch, or `null`, from the outcome of its read. -/
def entryOfBranch (readUnpublishedBranchFile : String → ReadResult (Option BranchFile))
    (branch : Branch) : Option UnpublishedEntry :=
  unpublishedEntryOf (branchTask branch)
    (readUnpublishedBranchFile (branchTask branch).contentKey)

/-- A provider with the unpublished entry `posts/second` only: the read of every
other content key is rejected. -/
def readSecondOnly (contentKey : String) : ReadResult (Option BranchFile) :=
  if contentKey = "posts/second" then
    .data (some ⟨some ⟨"content/posts/second.md"⟩, "# Second", false⟩)
  else .failure (some ⟨"content is not under editorial workflow"⟩)

/-- A provider that has data for every content key. -/
def readAny (contentKey : String) : ReadResult (Option BranchFile) :=
  .data (some ⟨some ⟨"content/" ++ contentKey ++ ".md"⟩, "# Draft", false⟩)

end GitHub

namespace GitHub

open JS

/-- A branch resolves to data: its read is resolved with data, neither `null` nor
`undefined`, that carries the meta data of the entry. -/
def resolvesToData (readUnpublishedBranchFile : String → ReadResult (Option BranchFile))
    (branch : Branch) : Bool :=
  match readUnpublishedBranchFile (branchTask branch).contentKey with
  | .data (some data) => data.metaData.isSome
  | _ => false

end GitHub

namespace GitLab

open JS

/-- The boundary invariant of a cursor in the words of the specification: `index`
and `pageCount` are integers with `0 ≤ index ≤ pageCount`, `prev` or `first`
is among the actions only when `index > 0`, and `next` or `last` only when
`index < pageCount`. -/
def BoundaryInvariant {ρ : Type} (c : Cursor ρ) : Prop :=
  ∃ index pageCount : Int,
    c.meta.index = some (.int index) ∧ c.meta.pageCount = some (.int pageCount) ∧
      0 ≤ index ∧ index ≤ pageCount ∧
      (("prev" ∈ c.actions ∨ "first" ∈ c.actions) → 0 < index) ∧
      (("next" ∈ c.actions ∨ "last" ∈ c.actions) → index < pageCount)

end GitLab

namespace GitHub

open JS

/-- The reserved prefix of the refs of unpublished branches. -/
def reservedPrefix : String := "refs/heads/cms/"

/-- Modelled from the spec: `api.listUnpublishedBranches()` of the class `API`, whose
file `API.js` is not among the sources. The specification has the discovery
"enumerate provider branches whose name matches the workflow's reserved
prefix": the promise is resolved with the branches of the provider whose
`ref` starts with `refs/heads/cms/`, in the order of the provider. -/
def listUnpublishedBranches (providerBranches : List Branch) : Promise (List Branch) :=
  .resolved (providerBranches.filter (fun branch => startsWith branch.ref reservedPrefix))

/-- Branches of a provider: two under the reserved prefix, and two that are not. -/
def sampleBranches : List Branch :=
  [⟨"refs/heads/master"⟩, ⟨"refs/heads/cms/posts/first"⟩, ⟨"refs/heads/cms-archive/hello"⟩,
    ⟨"refs/heads/cms/posts/second"⟩]

end GitHub

/-! # Theorems -/

/-! ## Facts about the value model -/

namespace JSVal

theorem jsonStringify_eq_none {v : JSVal} (h : jsonStringify v = none) : v = undefined := by
  cases v <;> simp [jsonStringify] at h ⊢

theorem stringifyProps_length_le (kvs : List (String × JSVal)) :
    (stringifyProps kvs).length ≤ kvs.length := by
  induction kvs with
  | nil => simp [stringifyProps]
  | cons p kvs ih =>
    obtain ⟨k, v⟩ := p
    cases h : jsonStringify v <;> simp [stringifyProps, h] <;> omega

theorem stringifyProps_of_length_eq (kvs : List (String × JSVal))
    (h : (stringifyProps kvs).length = kvs.length) :
    stringifyProps kvs = kvs.map stringifyProp ∧
      ∀ p ∈ kvs, ∃ d, jsonStringify p.2 = some d := by
  induction kvs with
  | nil => simp [stringifyProps]
  | cons p kvs ih =>
    obtain ⟨k, v⟩ := p
    cases hv : jsonStringify v with
    | none =>
      have := stringifyProps_length_le kvs
      simp [stringifyProps, hv] at h
      omega
    | some d =>
      simp [stringifyProps, hv] at h
      obtain ⟨h1, h2⟩ := ih h
      refine ⟨by simp [stringifyProps, hv, stringifyProp, h1], ?_⟩
      intro p hp
      rcases List.mem_cons.1 hp with rfl | hp
      · exact ⟨d, hv⟩
      · exact h2 p hp

theorem isEqualProps_iff (sub other : List (String × JSVal)) :
    isEqualProps sub other = true ↔
      ∀ p ∈ sub, ∃ v2, other.lookup p.1 = some v2 ∧ isEqual p.2 v2 = true := by
  induction sub with
  | nil => simp [isEqualProps]
  | cons p sub ih =>
    obtain ⟨k, v⟩ := p
    simp only [isEqualProps, Bool.and_eq_true, ih, List.mem_cons, forall_eq_or_imp]
    constructor
    · rintro ⟨h1, h2⟩
      refine ⟨?_, h2⟩
      cases hl : other.lookup k with
      | none => simp [hl] at h1
      | some v2 => exact ⟨v2, rfl, by simpa [hl] using h1⟩
    · rintro ⟨⟨v2, hl, he⟩, h2⟩
      exact ⟨by simpa [hl] using he, h2⟩

theorem lookup_map_of_nodup (g : String × JSVal → String × JSVal)
    (hg : ∀ p, (g p).1 = p.1) :
    ∀ (l : List (String × JSVal)), (l.map Prod.fst).Nodup → ∀ p ∈ l,
      (l.map g).lookup p.1 = some (g p).2 := by
  intro l
  induction l with
  | nil => simp
  | cons q l ih =>
    intro hnd p hp
    simp only [List.map_cons, List.nodup_cons] at hnd
    rcases List.mem_cons.1 hp with rfl | hp
    · have : g p = ((g p).1, (g p).2) := rfl
      rw [List.map_cons, this, hg p]
      simp [List.lookup]
    · have hne : p.1 ≠ q.1 := by
        intro he
        exact hnd.1 (he ▸ List.mem_map_of_mem Prod.fst hp)
      have : g q = ((g q).1, (g q).2) := rfl
      rw [List.map_cons, this, hg q, List.lookup]
      have hb : (p.1 == q.1) = false := by simpa using hne
      simp only [hb]
      exact ih hnd.2 p hp


theorem lookup_self_of_nodup (l : List (String × JSVal)) (hnd : (l.map Prod.fst).Nodup)
    (p : String × JSVal) (hp : p ∈ l) : l.lookup p.1 = some p.2 := by
  have := lookup_map_of_nodup id (fun _ => rfl) l hnd p hp
  simpa using this

/-- The comparison of an object with its own JSON round trip, from the same
fact for each of its property values. -/
theorem isEqual_stringifyProps (kvs : List (String × JSVal))
    (hnd : (kvs.map Prod.fst).Nodup)
    (hv : ∀ p ∈ kvs, ∀ d, jsonStringify p.2 = some d → (isEqual p.2 d = true ↔ d = p.2)) :
    (kvs.length == (stringifyProps kvs).length && isEqualProps kvs (stringifyProps kvs)) = true
      ↔ stringifyProps kvs = kvs := by
  constructor
  · intro h
    simp only [Bool.and_eq_true, beq_iff_eq] at h
    obtain ⟨hlen, hprops⟩ := h
    obtain ⟨hmap, hsome⟩ := stringifyProps_of_length_eq kvs hlen.symm
    rw [hmap]
    rw [hmap, isEqualProps_iff] at hprops
    conv_rhs => rw [← List.map_id kvs]
    apply List.map_congr_left
    intro p hp
    obtain ⟨v2, hl, he⟩ := hprops p hp
    rw [lookup_map_of_nodup stringifyProp (fun _ => rfl) kvs hnd p hp] at hl
    obtain ⟨d, hd⟩ := hsome p hp
    have h2 : (stringifyProp p).2 = d := by simp [stringifyProp, hd]
    have h3 : v2 = d := by rw [← h2]; exact (Option.some.inj hl).symm
    subst h3
    have := (hv p hp v2 hd).1 he
    simp only [id]
    ext
    · rfl
    · rw [h2]; exact this
  · intro h
    have hlen : (stringifyProps kvs).length = kvs.length := by rw [h]
    obtain ⟨hmap, hsome⟩ := stringifyProps_of_length_eq kvs hlen
    simp only [Bool.and_eq_true, beq_iff_eq, hlen, true_and]
    rw [h, isEqualProps_iff]
    intro p hp
    refine ⟨p.2, lookup_self_of_nodup kvs hnd p hp, ?_⟩
    obtain ⟨d, hd⟩ := hsome p hp
    have hfix : stringifyProp p = p := by
      have h4 : kvs.map stringifyProp = kvs.map id := by rw [← hmap, h, List.map_id]
      exact List.map_inj_left.1 h4 p hp
    have h2 : d = p.2 := by
      have := congrArg Prod.snd hfix
      simpa [stringifyProp, hd] using this
    subst h2
    exact (hv p hp _ hd).2 rfl

mutual
/-- On a well-formed value that has a JSON text, `isEqual` with the parsed text
holds exactly when the parsed text is the value itself. -/
theorem isEqual_stringify : ∀ (v d : JSVal), WellFormed v → jsonStringify v = some d →
    (isEqual v d = true ↔ d = v)
  | undefined, d, _, h => by simp [jsonStringify] at h
  | null, d, _, h => by simp [jsonStringify] at h; subst h; simp [isEqual]
  | bool b, d, _, h => by simp [jsonStringify] at h; subst h; simp [isEqual]
  | num n, d, _, h => by simp [jsonStringify] at h; subst h; simp [isEqual]
  | nan, d, _, h => by simp [jsonStringify] at h; subst h; simp [isEqual]
  | str s, d, _, h => by simp [jsonStringify] at h; subst h; simp [isEqual]
  | arr xs, d, hw, h => by
    simp [jsonStringify] at h
    subst h
    simp only [WellFormed] at hw
    simp [isEqual, isEqualElems_stringify xs hw]
  | obj kvs, d, hw, h => by
    simp [jsonStringify] at h
    subst h
    simp only [WellFormed] at hw
    simp only [isEqual, obj.injEq]
    exact isEqual_stringifyProps kvs hw.1 (isEqual_stringify_props kvs hw.2)
theorem isEqualElems_stringify : ∀ (xs : List JSVal), WellFormedElems xs →
    (isEqualElems xs (stringifyElems xs) = true ↔ stringifyElems xs = xs)
  | [], _ => by simp [isEqualElems, stringifyElems]
  | x :: xs, hw => by
    simp only [WellFormedElems] at hw
    simp only [stringifyElems, isEqualElems, Bool.and_eq_true, List.cons.injEq,
      isEqualElems_stringify xs hw.2]
    cases hx : jsonStringify x with
    | none =>
      have := jsonStringify_eq_none hx
      subst this
      simp [isEqual]
    | some d => simp [isEqual_stringify x d hw.1 hx]
theorem isEqual_stringify_props : ∀ (kvs : List (String × JSVal)), WellFormedProps kvs →
    ∀ p ∈ kvs, ∀ d, jsonStringify p.2 = some d → (isEqual p.2 d = true ↔ d = p.2)
  | [], _ => by simp
  | (k, v) :: kvs, hw => by
    simp only [WellFormedProps] at hw
    intro p hp d hd
    rcases List.mem_cons.1 hp with rfl | hp
    · exact isEqual_stringify v d hw.1 hd
    · exact isEqual_stringify_props kvs hw.2 p hp d hd
end

end JSVal

/-! ## Cursor validation -/

namespace ValueObjects

open JSVal

theorem accepts_ok_iff (v : JSVal) : accepts (.ok v) ↔ truthy v = true := by
  simp [accepts]

theorem not_accepts_error (e : JSError) : ¬ accepts (.error e) := by
  simp [accepts]

theorem lookup_eq_none_of_forall (key : String) :
    ∀ (kvs : List (String × JSVal)), (∀ p ∈ kvs, p.1 ≠ key) → kvs.lookup key = none
  | [], _ => rfl
  | (k, v) :: kvs, h => by
    have hq : (key == k) = false := by
      have := h (k, v) (List.mem_cons_self _ _)
      simpa using fun e : key = k => this e.symm
    simp only [List.lookup, hq]
    exact lookup_eq_none_of_forall key kvs (fun p hp => h p (List.mem_cons_of_mem _ hp))

theorem mem_keys_setProp (kvs : List (String × JSVal)) (key : String) (value : JSVal) :
    ∃ kvs2, setProp (obj kvs) key value = obj kvs2 ∧ key ∈ kvs2.map Prod.fst := by
  cases h : kvs.lookup key with
  | some v0 =>
    refine ⟨kvs.map (fun p => if p.1 == key then (p.1, value) else p), ?_, ?_⟩
    · simp only [setProp, h, Option.isSome_some, if_true]
    · have hmem : ∃ p ∈ kvs, p.1 = key := by
        by_contra hcon
        push_neg at hcon
        rw [lookup_eq_none_of_forall key kvs hcon] at h
        exact Option.noConfusion h
      obtain ⟨p, hp, hk⟩ := hmem
      simp only [List.map_map, List.mem_map, Function.comp]
      exact ⟨p, hp, by simp [hk]⟩
  | none =>
    exact ⟨kvs ++ [(key, value)], by simp [setProp, h], by simp⟩

theorem truthy_bool (b : Bool) : truthy (bool b) = b := rfl

theorem every_pure {α : Type} (f : α → Bool) (xs : List α) :
    every (fun x => (Except.ok (f x) : Except JSError Bool)) xs = .ok (xs.all f) := by
  induction xs with
  | nil => rfl
  | cons x xs ih =>
    simp only [every, List.all_cons]
    cases hx : f x <;> simp [ih, pure, Except.pure, bind, Except.bind]

theorem objectKeys_of_truthy {v : JSVal} (h : truthy v = true) :
    objectKeys v = .ok (keysOf v) := by
  cases v <;> simp [truthy] at h <;> simp [keysOf, objectKeys]

theorem keysOf_of_not_truthy {v : JSVal} (h : truthy v = false) : keysOf v = [] := by
  cases v <;> simp [truthy] at h <;> simp [keysOf, objectKeys, indexKeys, h]

/-- The keys of `keys` are all among `allowed`. -/
theorem all_contains_iff (keys allowed : List String) :
    keys.all (fun key => ([] : List String).contains key || allowed.contains key) = true ↔
      ∀ k ∈ keys, k ∈ allowed := by
  simp [List.all_eq_true]

theorem validKeys_meta {m : JSVal} (h : truthy m = true) (allowed : List String) :
    validKeys [] allowed m =
      .ok (bool ((keysOf m).all (fun key => ([] : List String).contains key ||
        allowed.contains key))) := by
  simp [validKeys, h, every, objectKeys_of_truthy h, pure, Except.pure, bind, Except.bind]

theorem validKeys_obj (required optional : List String) (kvs : List (String × JSVal)) :
    validKeys required optional (obj kvs) =
      .ok (bool (required.all (fun key => truthy ((kvs.lookup key).getD undefined)) &&
        (kvs.map Prod.fst).all (fun key => required.contains key || optional.contains key))) := by
  have h := every_pure (fun key => truthy ((kvs.lookup key).getD undefined)) required
  have ht : truthy (obj kvs) = true := rfl
  simp only [validKeys, ht, getProp, objectKeys, pure, Except.pure, bind, Except.bind,
    Bool.not_true]
  rw [h]
  cases required.all (fun key => truthy ((kvs.lookup key).getD undefined)) <;> simp

/-- The value of `validateCursor` on an object, as one nested case distinction. -/
theorem validateCursor_obj (kvs : List (String × JSVal)) :
    validateCursor (obj kvs) =
      if truthy (field (obj kvs) "actions") = true ∧
          (∀ k ∈ kvs.map Prod.fst, k ∈ ["actions", "data", "meta"]) then
        if isArray (field (obj kvs) "actions") = true then
          match jsonStringify (field (obj kvs) "data") with
          | none => .error ⟨"Unexpected token u in JSON at position 0"⟩
          | some d =>
            if isEqual (field (obj kvs) "data") d = true then
              if truthy (field (obj kvs) "meta") = true then
                .ok (bool (decide (∀ k ∈ keysOf (field (obj kvs) "meta"),
                  k ∈ ["index", "count", "pageSize", "pageCount"])))
              else .ok (bool true)
            else .ok (bool false)
        else .ok (bool false)
      else .ok (bool false) := by
  have hf : ∀ key, field (obj kvs) key = (kvs.lookup key).getD undefined := fun _ => rfl
  simp only [validateCursor, validKeys_obj, getProp, isSerializable, pure, Except.pure, bind,
    Except.bind, hf, List.all_cons, List.all_nil, Bool.and_true, truthy_bool]
  generalize (kvs.lookup "actions").getD undefined = a
  generalize (kvs.lookup "data").getD undefined = d
  generalize (kvs.lookup "meta").getD undefined = m
  by_cases hk : ∀ k ∈ kvs.map Prod.fst, k ∈ ["actions", "data", "meta"]
  · have hk2 : (kvs.map Prod.fst).all (fun key => ["actions"].contains key ||
        ["data", "meta"].contains key) = true := by
      rw [List.all_eq_true]
      intro k hkm
      have := hk k hkm
      simp only [List.mem_cons, List.mem_singleton, List.not_mem_nil, or_false] at this
      rcases this with rfl | rfl | rfl <;> decide
    simp only [hk2, Bool.and_true]
    cases ha : truthy a
    · rw [if_neg (fun h : false = true ∧ _ => Bool.noConfusion h.1)]; simp
    · rw [if_pos (And.intro rfl hk)]
      cases hia : isArray a
      · simp
      · cases hs : jsonStringify d with
        | none => simp [jsonParse]
        | some d2 =>
          cases he : isEqual d d2
          · simp [jsonParse, he]
          · cases hm : truthy m
            · simp [jsonParse, he]
            · simp only [validKeys_meta hm]
              simp only [jsonParse, he, Bool.not_true, Bool.false_eq_true, if_false, hm,
                if_true, Except.ok.injEq, bool.injEq]
              rw [Bool.eq_iff_iff]
              simp [List.all_eq_true]
  · have hk2 : (kvs.map Prod.fst).all (fun key => ["actions"].contains key ||
        ["data", "meta"].contains key) = false := by
      rw [Bool.eq_false_iff]
      intro hall
      apply hk
      rw [List.all_eq_true] at hall
      intro k hkm
      have := hall k hkm
      simp only [List.contains_eq_any_beq, List.any_cons, List.any_nil, Bool.or_false,
        Bool.or_eq_true, beq_iff_eq] at this
      simp only [List.mem_cons, List.mem_singleton, List.not_mem_nil, or_false]
      tauto
    simp only [hk2, Bool.and_false]
    rw [if_neg (fun h : _ ∧ _ => hk h.2)]
    simp

theorem validateCursor_not_obj_rejects (c : JSVal) (h : ∀ kvs, c ≠ obj kvs) :
    rejects (validateCursor c) := by
  cases c with
  | obj kvs => exact absurd rfl (h kvs)
  | bool b => cases b <;> exact ⟨_, rfl, rfl⟩
  | num n =>
    by_cases hn : n = 0
    · subst hn; exact ⟨_, rfl, rfl⟩
    · refine ⟨bool false, ?_, rfl⟩
      simp [validateCursor, validKeys, truthy, hn, every, getProp, pure, Except.pure, bind,
        Except.bind]
  | str s =>
    by_cases hs : s = ""
    · subst hs; exact ⟨_, rfl, rfl⟩
    · refine ⟨bool false, ?_, rfl⟩
      simp [validateCursor, validKeys, truthy, hs, every, getProp, pure, Except.pure, bind,
        Except.bind]
  | _ => exact ⟨_, rfl, rfl⟩

theorem not_accepts_of_rejects {r : Except JSError JSVal} (h : rejects r) : ¬ accepts r := by
  rintro ⟨v, hv, ht⟩
  obtain ⟨w, hw, hf⟩ := h
  rw [hv] at hw
  cases hw
  rw [ht] at hf
  exact Bool.noConfusion hf

/-- An object with a key besides `actions`, `data` and `meta` is rejected. -/
theorem validateCursor_rejects_of_key (kvs : List (String × JSVal)) (key : String)
    (hmem : key ∈ kvs.map Prod.fst) (hkey : key ∉ ["actions", "meta", "data"]) :
    validateCursor (obj kvs) = .ok (bool false) := by
  rw [validateCursor_obj, if_neg]
  rintro ⟨-, hall⟩
  apply hkey
  have := hall key hmem
  simp only [List.mem_cons, List.mem_singleton, List.not_mem_nil, or_false] at this ⊢
  tauto

theorem wellFormed_lookup : ∀ (kvs : List (String × JSVal)), WellFormedProps kvs →
    ∀ key, WellFormed ((kvs.lookup key).getD undefined)
  | [], _, key => by simp [WellFormed]
  | (k, v) :: kvs, h, key => by
    simp only [WellFormedProps] at h
    simp only [List.lookup]
    cases key == k
    · exact wellFormed_lookup kvs h.2 key
    · exact h.1

/-- C1. `validateCursor` accepts `{actions: ["next"], meta: {index: 0}, data: {links: {}}}`,
and for every cursor it accepts, the cursor with one more top-level key, other
than `actions`, `meta` and `data`, is rejected. -/
theorem validateCursor_accepts_example_rejects_extra_key :
    accepts (validateCursor exampleCursor) ∧
    ∀ (c : JSVal) (key : String) (value : JSVal), accepts (validateCursor c) →
      key ∉ ["actions", "meta", "data"] →
      rejects (validateCursor (setProp c key value)) := by
  refine ⟨⟨bool true, rfl, rfl⟩, ?_⟩
  intro c key value hacc hkey
  cases c with
  | obj kvs =>
    obtain ⟨kvs2, h2, hmem⟩ := mem_keys_setProp kvs key value
    rw [h2, validateCursor_rejects_of_key kvs2 key hmem hkey]
    exact ⟨_, rfl, rfl⟩
  | _ => exact absurd hacc (not_accepts_of_rejects (validateCursor_not_obj_rejects _ (by simp)))

/-- C1, at the specification's own instance: the example cursor with an added key
`foo` is rejected. -/
theorem validateCursor_accepts_example_rejects_extra_key_witness :
    accepts (validateCursor exampleCursor) ∧ "foo" ∉ ["actions", "meta", "data"] ∧
      rejects (validateCursor (setProp exampleCursor "foo" (str "bar"))) :=
  ⟨validateCursor_accepts_example_rejects_extra_key.1, by decide,
    validateCursor_accepts_example_rejects_extra_key.2 exampleCursor "foo" (str "bar")
      validateCursor_accepts_example_rejects_extra_key.1 (by decide)⟩

/-- C2. A well-formed candidate cursor is accepted by `validateCursor` exactly when
it has an array `actions`, its `data` is unchanged by a JSON encode and
decode, its `meta` has no key other than `index`, `count`, `pageSize` and
`pageCount`, and it has no top-level key other than `actions`, `meta` and
`data`. -/
theorem validateCursor_accepts_iff_specValid (c : JSVal) (hwf : WellFormed c) :
    accepts (validateCursor c) ↔ SpecValid c := by
  cases c with
  | obj kvs =>
    have hd : WellFormed (field (obj kvs) "data") := by
      simp only [WellFormed] at hwf
      exact wellFormed_lookup kvs hwf.2 "data"
    rw [validateCursor_obj]
    unfold SpecValid
    have hkeys : keysOf (obj kvs) = kvs.map Prod.fst := rfl
    rw [hkeys]
    generalize field (obj kvs) "actions" = a at *
    generalize field (obj kvs) "data" = d at *
    generalize field (obj kvs) "meta" = m at *
    have hperm : (∀ k ∈ kvs.map Prod.fst, k ∈ ["actions", "data", "meta"]) ↔
        (∀ k ∈ kvs.map Prod.fst, k ∈ ["actions", "meta", "data"]) := by
      constructor <;> intro h k hk <;> have := h k hk <;>
        simp only [List.mem_cons, List.mem_singleton, List.not_mem_nil, or_false] at this ⊢ <;>
        tauto
    have harr : isArray a = true ↔ ∃ xs, a = arr xs := by
      cases a <;> simp [isArray]
    have htr : isArray a = true → truthy a = true := by
      cases a <;> simp [isArray, truthy]
    by_cases hk : ∀ k ∈ kvs.map Prod.fst, k ∈ ["actions", "data", "meta"]
    swap
    · rw [if_neg (fun h : _ ∧ _ => hk h.2)]
      constructor
      · intro h
        exact absurd h (not_accepts_of_rejects ⟨_, rfl, rfl⟩)
      · intro h
        exact absurd (hperm.2 h.2.2.2) hk
    by_cases hia : isArray a = true
    swap
    · have hrej : rejects (if truthy a = true ∧
          (∀ k ∈ kvs.map Prod.fst, k ∈ ["actions", "data", "meta"]) then
            (if isArray a = true then
              (match jsonStringify d with
                | none => (Except.error ⟨"Unexpected token u in JSON at position 0"⟩ :
                    Except JSError JSVal)
                | some d2 =>
                  if isEqual d d2 = true then
                    if truthy m = true then
                      .ok (bool (decide (∀ k ∈ keysOf m,
                        k ∈ ["index", "count", "pageSize", "pageCount"])))
                    else .ok (bool true)
                  else .ok (bool false))
            else .ok (bool false))
          else .ok (bool false)) := by
        rw [if_neg hia]
        split <;> exact ⟨_, rfl, rfl⟩
      constructor
      · intro h
        exact absurd h (not_accepts_of_rejects hrej)
      · intro h
        exact absurd (harr.2 h.1) hia
    rw [if_pos (And.intro (htr hia) hk), if_pos hia]
    cases hs : jsonStringify d with
    | none =>
      simp only [jsonParse]
      constructor
      · intro h
        exact absurd h (not_accepts_error _)
      · intro h
        exact Except.noConfusion h.2.1
    | some d2 =>
      have heq := isEqual_stringify d d2 hd hs
      simp only [jsonParse, Except.ok.injEq]
      by_cases he : d2 = d
      swap
      · have he2 : ¬ isEqual d d2 = true := fun h => he (heq.1 h)
        rw [if_neg he2]
        constructor
        · intro h
          exact absurd h (not_accepts_of_rejects ⟨_, rfl, rfl⟩)
        · intro h
          exact absurd h.2.1 he
      rw [if_pos (heq.2 he)]
      by_cases hm : truthy m = true
      · rw [if_pos hm, accepts_ok_iff, truthy_bool, decide_eq_true_iff]
        exact ⟨fun h => ⟨harr.1 hia, he, h, hperm.1 hk⟩, fun h => h.2.2.1⟩
      · rw [if_neg hm, accepts_ok_iff]
        have hm2 : truthy m = false := by simpa using hm
        refine ⟨fun _ => ⟨harr.1 hia, he, ?_, hperm.1 hk⟩, fun _ => rfl⟩
        rw [keysOf_of_not_truthy hm2]
        simp
  | _ =>
    constructor
    · intro h
      exact absurd h (not_accepts_of_rejects (validateCursor_not_obj_rejects _ (by simp)))
    · rintro ⟨⟨xs, hxs⟩, -⟩
      simp [field] at hxs

/-- C2, at the example cursor, which is well formed, accepted and valid. -/
theorem validateCursor_accepts_iff_specValid_witness :
    WellFormed exampleCursor ∧ (accepts (validateCursor exampleCursor) ↔ SpecValid exampleCursor) :=
  ⟨by simp [exampleCursor, WellFormed, WellFormedProps, WellFormedElems],
    validateCursor_accepts_iff_specValid exampleCursor
      (by simp [exampleCursor, WellFormed, WellFormedProps, WellFormedElems])⟩

/-- C3. On a cursor that has an `actions` list and nothing else, `validateCursor`
does not return: evaluating `isSerializable(cursor.data)` throws. -/
theorem validateCursor_actions_only_throws (xs : List JSVal) :
    validateCursor (obj [("actions", arr xs)]) =
      .error ⟨"Unexpected token u in JSON at position 0"⟩ := by
  rw [validateCursor_obj]
  simp [field, truthy, isArray, jsonStringify, List.lookup]

end ValueObjects

/-! ## Paging cursors -/

namespace JS

theorem digitChar_spec : ∀ d, d < 10 →
    (Nat.digitChar d).isDigit = true ∧ (Nat.digitChar d).toNat - '0'.toNat = d := by
  decide

theorem digitsValue_append (pre : List Char) (d : Char) :
    digitsValue (pre ++ [d]) = 10 * digitsValue pre + (d.toNat - '0'.toNat) := by
  simp [digitsValue, List.foldl_append]

theorem toDigitsCore_spec : ∀ (fuel n : Nat) (ds : List Char), n < fuel →
    ∃ pre, Nat.toDigitsCore 10 fuel n ds = pre ++ ds ∧ pre ≠ [] ∧
      (∀ c ∈ pre, c.isDigit = true) ∧ digitsValue pre = n
  | 0, n, ds, h => absurd h (Nat.not_lt_zero n)
  | fuel + 1, n, ds, h => by
    have hd := digitChar_spec (n % 10) (Nat.mod_lt n (by decide))
    by_cases hq : n / 10 = 0
    · refine ⟨[Nat.digitChar (n % 10)], ?_, by simp, ?_, ?_⟩
      · simp [Nat.toDigitsCore, hq]
      · intro c hc
        rw [List.mem_singleton.1 hc]
        exact hd.1
      · have : n < 10 := by omega
        simp only [digitsValue, List.foldl_cons, List.foldl_nil, hd.2]
        omega
    · have hlt : n / 10 < fuel := by omega
      obtain ⟨pre, h1, h2, h3, h4⟩ :=
        toDigitsCore_spec fuel (n / 10) (Nat.digitChar (n % 10) :: ds) hlt
      refine ⟨pre ++ [Nat.digitChar (n % 10)], ?_, by simp, ?_, ?_⟩
      · simp [Nat.toDigitsCore, hq, h1]
      · intro c hc
        rcases List.mem_append.1 hc with hc | hc
        · exact h3 c hc
        · rw [List.mem_singleton.1 hc]
          exact hd.1
      · rw [digitsValue_append, h4, hd.2]
        omega

theorem isDigit_not_special {c : Char} (h : c.isDigit = true) :
    isWhiteSpace c = false ∧ c ≠ '-' ∧ c ≠ '+' := by
  simp only [Char.isDigit, Bool.and_eq_true, decide_eq_true_eq] at h
  have h1 : 48 ≤ c.toNat := h.1
  have h2 : c.toNat ≤ 57 := h.2
  refine ⟨?_, ?_, ?_⟩
  · simp only [isWhiteSpace, Bool.or_eq_false_iff, decide_eq_false_iff_not, List.mem_cons,
      List.mem_singleton, List.not_mem_nil, Bool.and_eq_false_imp, decide_eq_true_eq]
    refine ⟨fun h3 => ?_, fun h3 => ?_⟩
    · simp only [or_false] at h3
      omega
    · omega
  · rintro rfl
    exact absurd h1 (by decide)
  · rintro rfl
    exact absurd h1 (by decide)

namespace Double

/-- A number below `2 ^ 53` has no excess bits. -/
theorem excessBits_of_lt (m : Nat) (h : m < 2 ^ 53) : excessBits m m = 0 := by
  cases m with
  | zero => rfl
  | succ k => simp only [excessBits, h, if_true]

/-- A number below `2 ^ 53` is not rounded. -/
theorem roundNat_of_lt (m : Nat) (h : m < 2 ^ 53) : roundNat m = m := by
  simp [roundNat, excessBits_of_lt m h, Nat.mod_one]

/-- An integer of magnitude below `2 ^ 53` is held exactly. -/
theorem ofInt_of_lt (n : Int) (h : n.natAbs < 2 ^ 53) : ofInt n = .int n := by
  have h2 : ¬ (overflow ≤ n.natAbs) := by
    have : (2 : Nat) ^ 53 ≤ overflow := by decide
    omega
  simp only [ofInt, roundNat_of_lt _ h, h2, if_false]
  split
  · congr 1; omega
  · congr 1; omega

/-- A difference of magnitude below `2 ^ 53` is exact. -/
theorem sub_int_int (a b : Int) (h : (a - b).natAbs < 2 ^ 53) :
    sub (.int a) (.int b) = .int (a - b) :=
  ofInt_of_lt (a - b) h

end Double

/-- `parseInt` reads a natural number below `2 ^ 53` written in decimal as that
number. -/
theorem parseInt_toString (n : Nat) (hn : n < 2 ^ 53) :
    parseInt (some (toString n)) = .int n := by
  obtain ⟨pre, h1, h2, h3, h4⟩ := toDigitsCore_spec (n + 1) n [] (Nat.lt_succ_self n)
  have hdata : (toString n).data = pre := by
    rw [List.append_nil] at h1
    exact h1
  cases pre with
  | nil => exact absurd rfl h2
  | cons c cs =>
    have hc := isDigit_not_special (h3 c (List.mem_cons_self _ _))
    have htake : (c :: cs).takeWhile Char.isDigit = c :: cs :=
      List.takeWhile_eq_self_iff.2 (fun x hx => h3 x hx)
    have hbody : (c :: cs).dropWhile isWhiteSpace = c :: cs := by
      simp [List.dropWhile, hc.1]
    have hsign : readSign (c :: cs) = (false, c :: cs) := by
      simp [readSign, hc.2.1, hc.2.2]
    have hexact : Double.ofInt ((n : Nat) : Int) = .int n :=
      Double.ofInt_of_lt n (by simpa using hn)
    simp [parseInt, hdata, hbody, hsign, htake, h4, hexact]


namespace IMap

variable {α : Type}

theorem setEntry_of_not_mem (key : String) (value : α) :
    ∀ (l : List (String × α)), key ∉ l.map Prod.fst →
      setEntry key value l = l ++ [(key, value)]
  | [], _ => rfl
  | (k, v) :: rest, h => by
    simp only [List.map_cons, List.mem_cons, not_or] at h
    have hk : ¬ k = key := fun e => h.1 e.symm
    simp [setEntry, hk, setEntry_of_not_mem key value rest h.2]

theorem mem_keys_setEntry (key : String) (value : α) (k : String) :
    ∀ (l : List (String × α)),
      k ∈ (setEntry key value l).map Prod.fst ↔ k = key ∨ k ∈ l.map Prod.fst
  | [] => by simp [setEntry]
  | (k2, v2) :: rest => by
    by_cases hk : k2 = key
    · subst hk
      simp [setEntry]
    · simp only [setEntry, hk, if_false, List.map_cons, List.mem_cons,
        mem_keys_setEntry key value k rest]
      tauto

theorem foldl_set_entries (pairs : List (String × α)) :
    ∀ (m : IMap α), ((m.entries ++ pairs).map Prod.fst).Nodup →
      (pairs.foldl (fun m p => m.set p.1 p.2) m).entries = m.entries ++ pairs := by
  induction pairs with
  | nil => intro m _; simp
  | cons p pairs ih =>
    intro m hnd
    have hnot : p.1 ∉ m.entries.map Prod.fst := by
      intro hmem
      rw [List.map_append, List.nodup_append] at hnd
      exact hnd.2.2 hmem (by simp)
    have hset : (m.set p.1 p.2).entries = m.entries ++ [p] := by
      show setEntry p.1 p.2 m.entries = _
      rw [setEntry_of_not_mem _ _ _ hnot]
    rw [List.foldl_cons, ih (m.set p.1 p.2) (by rw [hset]; simpa using hnd), hset]
    simp

/-- A list of pairs without a repeated key is the entry list of its map. -/
theorem ofEntries_entries (pairs : List (String × α)) (hnd : (pairs.map Prod.fst).Nodup) :
    (ofEntries pairs).entries = pairs := by
  have := foldl_set_entries pairs empty (by simpa [empty] using hnd)
  simpa [ofEntries, empty] using this

theorem mem_keys_foldl_set (k : String) (pairs : List (String × α)) :
    ∀ (m : IMap α), k ∈ (pairs.foldl (fun m p => m.set p.1 p.2) m).keySeq ↔
      k ∈ m.keySeq ∨ k ∈ pairs.map Prod.fst := by
  induction pairs with
  | nil => intro m; simp
  | cons p pairs ih =>
    intro m
    rw [List.foldl_cons, ih]
    have : k ∈ (m.set p.1 p.2).keySeq ↔ k = p.1 ∨ k ∈ m.keySeq :=
      mem_keys_setEntry p.1 p.2 k m.entries
    rw [this]
    simp only [List.map_cons, List.mem_cons]
    tauto

/-- The keys of `Map(pairs)` are the keys of the pairs. -/
theorem mem_keySeq_ofEntries (k : String) (pairs : List (String × α)) :
    k ∈ (ofEntries pairs).keySeq ↔ k ∈ pairs.map Prod.fst := by
  unfold ofEntries
  rw [mem_keys_foldl_set]
  simp [keySeq, empty]

theorem lookup_map_key (f : String → String) (hf : Function.Injective f) (k : String) :
    ∀ (l : List (String × α)),
      (l.map (fun kv => (f kv.1, kv.2))).lookup (f k) = l.lookup k
  | [] => rfl
  | (k2, v2) :: rest => by
    by_cases hk : k = k2
    · subst hk
      simp [List.lookup]
    · have h1 : (k == k2) = false := by simpa using hk
      have h2 : (f k == f k2) = false := by simpa using fun e => hk (hf e)
      simp only [List.map_cons, List.lookup, h1, h2]
      exact lookup_map_key f hf k rest

/-- Renaming the keys of a map by an injective function renames the entries in
place. -/
theorem mapEntries_key_entries (f : String → String) (hf : Function.Injective f)
    (m : IMap α) :
    (m.mapEntries (fun kv => (f kv.1, kv.2))).entries =
      m.entries.map (fun kv => (f kv.1, kv.2)) := by
  apply ofEntries_entries
  rw [List.map_map]
  have : (Prod.fst ∘ fun kv : String × α => (f kv.1, kv.2)) = f ∘ Prod.fst := rfl
  rw [this, ← List.map_map]
  exact m.nodup.map hf

end IMap

end JS

namespace GitLab

open JS

theorem mapExcept_ok {α β : Type} (f : α → Except JSError β) :
    ∀ (l : List α), (∀ x ∈ l, ∃ y, f x = .ok y) → ∃ ys, mapExcept f l = .ok ys
  | [], _ => ⟨[], rfl⟩
  | x :: xs, h => by
    obtain ⟨y, hy⟩ := h x (List.mem_cons_self _ _)
    obtain ⟨ys, hys⟩ := mapExcept_ok f xs (fun z hz => h z (List.mem_cons_of_mem _ hz))
    exact ⟨y :: ys, by simp [mapExcept, hy, hys, bind, Except.bind, pure, Except.pure]⟩

theorem mapExcept_keys {α β : Type} (f : α → Except JSError (String × β))
    (g : α → Option String) (hfg : ∀ x y, f x = .ok y → g x = some y.1) :
    ∀ (l : List α) (ys : List (String × β)), mapExcept f l = .ok ys →
      ys.map Prod.fst = l.filterMap g
  | [], ys, h => by
    simp only [mapExcept, Except.ok.injEq] at h
    subst h
    rfl
  | x :: xs, ys, h => by
    simp only [mapExcept, bind, Except.bind, pure, Except.pure] at h
    cases hx : f x with
    | error e => simp [hx] at h
    | ok y =>
      cases hxs : mapExcept f xs with
      | error e => simp [hx, hxs] at h
      | ok ys2 =>
        simp only [hx, hxs, Except.ok.injEq] at h
        subst h
        simp [List.filterMap_cons, hfg x y hx, mapExcept_keys f g hfg xs ys2 hxs]

theorem parseLink_ok {ρ : Type} (getReqFromURL : String → ρ) (pieces : List (List Char))
    (h : isLinkPart pieces = true) :
    ∃ y, parseLink getReqFromURL pieces = .ok y := by
  unfold isLinkPart at h
  split at h
  · next linkStr keyStr rest =>
    rw [Bool.and_eq_true] at h
    obtain ⟨key, hkey⟩ := Option.isSome_iff_exists.1 h.1
    obtain ⟨url, hurl⟩ := Option.isSome_iff_exists.1 h.2
    exact ⟨(String.mk key, getReqFromURL (String.mk url)), by
      simp only [parseLink, List.get?, hkey, hurl, List.head?]⟩
  · exact Bool.noConfusion h

theorem parseLink_key {ρ : Type} (getReqFromURL : String → ρ) (pieces : List (List Char))
    (y : String × ρ) (h : parseLink getReqFromURL pieces = .ok y) :
    (pieces.get? 1).bind (fun keyStr =>
      (matchCapture "rel=\"".data '"' keyStr).map String.mk) = some y.1 := by
  unfold parseLink at h
  split at h
  · exact Except.noConfusion h
  · next keyStr h1 =>
    split at h
    · exact Except.noConfusion h
    · next key h2 =>
      split at h
      · exact Except.noConfusion h
      · split at h
        · exact Except.noConfusion h
        · cases h
          rw [h1]
          show Option.map String.mk (matchCapture "rel=\"".data '"' keyStr) = _
          rw [h2]
          rfl

/-- The cursor that `getCursorFromHeaders` returns when every part of the `Link`
header is read. -/
theorem getCursorFromHeaders_of_pairs {ρ : Type} (getReqFromURL : String → ρ)
    (headers : String → Option String) (link : String) (pairs : List (String × ρ))
    (hlink : headers "Link" = some link)
    (hpairs : mapExcept (parseLink getReqFromURL) (linkParts link) = .ok pairs) :
    getCursorFromHeaders getReqFromURL headers =
      .ok (Cursor.create
        ((IMap.ofEntries pairs).keySeq.filter
          (isValidAction ((parseInt (headers "X-Page")).sub (.int 1))
            ((parseInt (headers "X-Total-Pages")).sub (.int 1))))
        { index := some ((parseInt (headers "X-Page")).sub (.int 1))
          count := some (parseInt (headers "X-Total"))
          pageSize := some (parseInt (headers "X-Per-Page"))
          pageCount := some ((parseInt (headers "X-Total-Pages")).sub (.int 1)) }
        (IMap.ofEntries pairs)) := by
  unfold linkParts at hpairs
  simp [getCursorFromHeaders, hlink, hpairs, bind, Except.bind, pure, Except.pure]

theorem getCursorFromHeaders_wellFormed {ρ : Type} (getReqFromURL : String → ρ)
    (link : String) (hwf : LinkHeaderWellFormed link) :
    ∃ pairs, mapExcept (parseLink getReqFromURL) (linkParts link) = .ok pairs ∧
      pairs.map Prod.fst = linkRels link :=
  by
  obtain ⟨pairs, hpairs⟩ := mapExcept_ok (parseLink getReqFromURL) (linkParts link)
    (fun pieces hp => parseLink_ok getReqFromURL pieces (hwf pieces hp))
  exact ⟨pairs, hpairs, mapExcept_keys _ _ (parseLink_key getReqFromURL) _ _ hpairs⟩

/-- The difference with 1 of a number from 1 to below `2 ^ 53` is exact. -/
theorem sub_one_of_lt (k : Nat) (hk : 1 ≤ k) (hbound : k < 2 ^ 53) :
    (Double.int k).sub (.int 1) = .int ((k - 1 : Nat) : Int) := by
  rw [Double.sub_int_int _ _ (by omega)]
  congr 1
  omega

/-- C4, amended. From headers that carry `X-Page = i`, `X-Total-Pages = t`,
`X-Per-Page = s` and `X-Total = n` in decimal, with `i, t ≥ 1` and all four
below `2 ^ 53`, and a well-formed `Link` header, `getCursorFromHeaders`
returns a cursor with `meta.index = i - 1`, `meta.pageCount = t - 1`,
`meta.pageSize = s` and `meta.count = n`. -/
theorem getCursorFromHeaders_meta {ρ : Type} (getReqFromURL : String → ρ)
    (headers : String → Option String) (i t s n : Nat) (link : String)
    (hi : 1 ≤ i) (ht : 1 ≤ t)
    (hibound : i < 2 ^ 53) (htbound : t < 2 ^ 53) (hsbound : s < 2 ^ 53)
    (hnbound : n < 2 ^ 53)
    (hpage : headers "X-Page" = some (toString i))
    (htotal : headers "X-Total-Pages" = some (toString t))
    (hper : headers "X-Per-Page" = some (toString s))
    (hcount : headers "X-Total" = some (toString n))
    (hlink : headers "Link" = some link) (hwf : LinkHeaderWellFormed link) :
    ∃ c, getCursorFromHeaders getReqFromURL headers = .ok c ∧
      c.meta.index = some (.int ((i - 1 : Nat) : Int)) ∧
      c.meta.pageCount = some (.int ((t - 1 : Nat) : Int)) ∧
      c.meta.pageSize = some (.int (s : Int)) ∧
      c.meta.count = some (.int (n : Int)) := by
  obtain ⟨pairs, hpairs, -⟩ := getCursorFromHeaders_wellFormed getReqFromURL link hwf
  refine ⟨_, getCursorFromHeaders_of_pairs getReqFromURL headers link pairs hlink hpairs, ?_⟩
  simp only [Cursor.create, hpage, htotal, hper, hcount, parseInt_toString i hibound,
    parseInt_toString t htbound, parseInt_toString s hsbound, parseInt_toString n hnbound,
    sub_one_of_lt i hi hibound, sub_one_of_lt t ht htbound, and_self]


/-- C4 as stated fails: the headers carry `X-Page = 9007199254740993`, a decimal
integer above `2 ^ 53`, and the cursor has `meta.index = 9007199254740991`,
which is not `9007199254740993 - 1`: `parseInt` returns the nearest double,
`9007199254740992`. -/
theorem getCursorFromHeaders_meta_counterexample :
    (getCursorFromHeaders id
          (pagingHeaders 9007199254740993 9007199254740993 20 170 threeLinks)).toOption.map
        (fun c => c.meta.index) =
      some (some (.int 9007199254740991)) ∧
      ((9007199254740993 - 1 : Nat) : Int) ≠ 9007199254740991 := by
  decide

/-- C4, at page 2 of 9 with a `Link` header of three parts. -/
theorem getCursorFromHeaders_meta_witness :
    ∃ c, getCursorFromHeaders id (pagingHeaders 2 9 20 170 threeLinks) = .ok c ∧
      c.meta.index = some (.int ((2 - 1 : Nat) : Int)) ∧
      c.meta.pageCount = some (.int ((9 - 1 : Nat) : Int)) ∧
      c.meta.pageSize = some (.int ((20 : Nat) : Int)) ∧
      c.meta.count = some (.int ((170 : Nat) : Int)) :=
  getCursorFromHeaders_meta id (pagingHeaders 2 9 20 170 threeLinks) 2 9 20 170 threeLinks
    (by decide) (by decide) (by decide) (by decide) (by decide) (by decide) rfl rfl rfl rfl rfl
    (by decide)

theorem isValidAction_iff (i t : Nat) (hi : 1 ≤ i) (ht : 1 ≤ t) (hibound : i < 2 ^ 53)
    (htbound : t < 2 ^ 53) (a : String) :
    isValidAction ((Double.int i).sub (.int 1)) ((Double.int t).sub (.int 1)) a = true ↔
      ((a = "prev" ∨ a = "first") ∧ 0 < i - 1) ∨ ((a = "next" ∨ a = "last") ∧ i - 1 < t - 1) := by
  have hgt : Double.gt (.int ((i - 1 : Nat) : Int)) (.int 0) = true ↔ 0 < i - 1 := by
    simp only [Double.gt, Double.lt, decide_eq_true_eq]
    omega
  have hlt : Double.lt (.int ((i - 1 : Nat) : Int)) (.int ((t - 1 : Nat) : Int)) = true ↔
      i - 1 < t - 1 := by
    simp only [Double.lt, decide_eq_true_eq]
    omega
  simp only [isValidAction, sub_one_of_lt i hi hibound, sub_one_of_lt t ht htbound,
    Bool.or_eq_true, Bool.and_eq_true, beq_iff_eq, hgt, hlt]
  tauto

/-- C5, as the code has it. From paging headers with `1 ≤ i ≤ t`, `t` below
`2 ^ 53`, and a well-formed `Link` header, the actions of the cursor are the
`rel` values that the `Link` header lists and that pass the boundary test:
`prev` and `first` when `index > 0`, `next` and `last` when
`index < pageCount`. -/
theorem getCursorFromHeaders_actions {ρ : Type} (getReqFromURL : String → ρ)
    (headers : String → Option String) (i t : Nat) (link : String)
    (hi : 1 ≤ i) (hit : i ≤ t) (htbound : t < 2 ^ 53)
    (hpage : headers "X-Page" = some (toString i))
    (htotal : headers "X-Total-Pages" = some (toString t))
    (hlink : headers "Link" = some link) (hwf : LinkHeaderWellFormed link) :
    ∃ c, getCursorFromHeaders getReqFromURL headers = .ok c ∧
      ∀ a, a ∈ c.actions ↔
        a ∈ linkRels link ∧
          (((a = "prev" ∨ a = "first") ∧ 0 < i - 1) ∨
            ((a = "next" ∨ a = "last") ∧ i - 1 < t - 1)) := by
  obtain ⟨pairs, hpairs, hkeys⟩ := getCursorFromHeaders_wellFormed getReqFromURL link hwf
  refine ⟨_, getCursorFromHeaders_of_pairs getReqFromURL headers link pairs hlink hpairs, ?_⟩
  intro a
  have hibound : i < 2 ^ 53 := by omega
  simp only [Cursor.create, hpage, htotal, parseInt_toString i hibound,
    parseInt_toString t htbound, List.mem_filter, IMap.mem_keySeq_ofEntries, hkeys,
    isValidAction_iff i t hi (by omega) hibound htbound a]

/-- C5, as the code has it, at page 2 of 9 with links to the first, next and last
page. -/
theorem getCursorFromHeaders_actions_witness :
    ∃ c, getCursorFromHeaders id (pagingHeaders 2 9 20 170 threeLinks) = .ok c ∧
      ∀ a, a ∈ c.actions ↔
        a ∈ linkRels threeLinks ∧
          (((a = "prev" ∨ a = "first") ∧ 0 < 2 - 1) ∨
            ((a = "next" ∨ a = "last") ∧ 2 - 1 < 9 - 1)) :=
  getCursorFromHeaders_actions id (pagingHeaders 2 9 20 170 threeLinks) 2 9 threeLinks
    (by decide) (by decide) (by decide) rfl rfl rfl (by decide)

/-- C5 as stated fails: on page 2 of 3 (`index = 1 > 0`, `pageCount = 2`) with a
well-formed `Link` header that lists `next` only, the actions are `next`
alone, without `prev` and `first`. And on page `9007199254740992` of
`9007199254740993`, whose `Link` header lists `first`, `next` and `last`, the
two numbers are read as the same double, so `index = pageCount` and the
actions are `first` alone, without `next` and `last`. -/
theorem getCursorFromHeaders_actions_counterexample :
    LinkHeaderWellFormed
        "<https://gitlab.com/api/v4/projects/1/repository/tree?page=3>; rel=\"next\"" ∧
      (getCursorFromHeaders id nextOnlyHeaders).toOption.map
          (fun c => (c.meta.index, c.meta.pageCount, c.actions)) =
        some (some (.int 1), some (.int 2), ["next"]) ∧
      (getCursorFromHeaders id
          (pagingHeaders 9007199254740992 9007199254740993 20 170 threeLinks)).toOption.map
          (fun c => (c.meta.index, c.meta.pageCount, c.actions)) =
        some (some (.int 9007199254740991), some (.int 9007199254740991), ["first"]) := by
  decide


theorem reversableActions_entries :
    reversableActions.entries =
      [("first", "last"), ("last", "first"), ("next", "prev"), ("prev", "next")] := rfl

/-- The code's `reversableActions.get(k) || k` is the exchange of `first` with
`last` and of `next` with `prev`. -/
theorem reverseAction_eq_swapAction (k : String) : reverseAction k = swapAction k := by
  simp only [reverseAction, swapAction, IMap.get, reversableActions_entries, List.lookup]
  by_cases h1 : k = "first"
  · subst h1; rfl
  · by_cases h2 : k = "last"
    · subst h2; rfl
    · by_cases h3 : k = "next"
      · subst h3; rfl
      · by_cases h4 : k = "prev"
        · subst h4; rfl
        · have e1 : (k == "first") = false := by simpa using h1
          have e2 : (k == "last") = false := by simpa using h2
          have e3 : (k == "next") = false := by simpa using h3
          have e4 : (k == "prev") = false := by simpa using h4
          simp only [e1, e2, e3, e4, h1, h2, h3, h4, if_false]

theorem swapAction_swapAction (a : String) : swapAction (swapAction a) = a := by
  unfold swapAction
  by_cases h1 : a = "first"
  · subst h1; rfl
  · by_cases h2 : a = "last"
    · subst h2; rfl
    · by_cases h3 : a = "next"
      · subst h3; rfl
      · by_cases h4 : a = "prev"
        · subst h4; rfl
        · simp only [h1, h2, h3, h4, if_false]

theorem reverseAction_reverseAction (a : String) : reverseAction (reverseAction a) = a := by
  rw [reverseAction_eq_swapAction, reverseAction_eq_swapAction, swapAction_swapAction]

theorem reverseAction_injective : Function.Injective reverseAction :=
  Function.LeftInverse.injective reverseAction_reverseAction

/-- The link of an action in the reversed cursor is the link of the exchanged
action in the cursor. -/
theorem reverseCursor_link {ρ : Type} (c : Cursor ρ) (a : String) :
    (reverseCursor c).link a = c.link (reverseAction a) := by
  have hmap : ∀ m : IMap ρ, (m.mapEntries (fun kv => (reverseAction kv.1, kv.2))).get a =
      m.get (reverseAction a) := by
    intro m
    unfold IMap.get
    rw [IMap.mapEntries_key_entries reverseAction reverseAction_injective m]
    conv_lhs => rw [← reverseAction_reverseAction a]
    exact IMap.lookup_map_key reverseAction reverseAction_injective (reverseAction a) m.entries
  cases hl : c.links with
  | none =>
    simp only [reverseCursor, Cursor.link, hl, Option.getD_none, Option.bind]
    rw [hmap]
    rfl
  | some m =>
    simp only [reverseCursor, Cursor.link, hl, Option.getD_some, Option.bind]
    exact hmap m

theorem reverseCursor_actions {ρ : Type} (c : Cursor ρ) :
    (reverseCursor c).actions = c.actions.map reverseAction := rfl

theorem reverseCursor_index {ρ : Type} (c : Cursor ρ) :
    (reverseCursor c).meta.index =
      some ((c.meta.pageCount.getD (.int 0)).sub (c.meta.index.getD (.int 0))) := rfl

theorem reverseCursor_pageCount {ρ : Type} (c : Cursor ρ) :
    (reverseCursor c).meta.pageCount = c.meta.pageCount := rfl

/-- C6, amended. For every cursor, reversing twice gives back the actions and the
link of every action; and it gives back `meta.index` when the cursor carries
the integers `meta.index` and `meta.pageCount` with
`0 ≤ index ≤ pageCount < 2 ^ 53`. -/
theorem reverseCursor_reverseCursor {ρ : Type} (c : Cursor ρ) :
    (reverseCursor (reverseCursor c)).actions = c.actions ∧
    (∀ a, (reverseCursor (reverseCursor c)).link a = c.link a) ∧
    (∀ i p : Int, c.meta.index = some (.int i) → c.meta.pageCount = some (.int p) →
      0 ≤ i → i ≤ p → p < 2 ^ 53 →
      (reverseCursor (reverseCursor c)).meta.index = c.meta.index) := by
  refine ⟨?_, ?_, ?_⟩
  · rw [reverseCursor_actions, reverseCursor_actions, List.map_map]
    conv_rhs => rw [← List.map_id c.actions]
    exact List.map_congr_left (fun a _ => reverseAction_reverseAction a)
  · intro a
    rw [reverseCursor_link, reverseCursor_link, reverseAction_reverseAction]
  · intro i p hi hp h0 hle hbound
    rw [reverseCursor_index, reverseCursor_pageCount, reverseCursor_index, hi, hp]
    simp only [Option.getD_some]
    rw [Double.sub_int_int p i (by omega), Double.sub_int_int p (p - i) (by omega)]
    congr 2
    omega

/-- C6, amended, at the cursor of page 2 of 9. -/
theorem reverseCursor_reverseCursor_witness :
    (reverseCursor (reverseCursor middleCursor)).actions = middleCursor.actions ∧
    (reverseCursor (reverseCursor middleCursor)).meta.index = middleCursor.meta.index :=
  ⟨(reverseCursor_reverseCursor middleCursor).1,
    (reverseCursor_reverseCursor middleCursor).2.2 1 8 rfl rfl (by decide) (by decide)
      (by decide)⟩

/-- C6 as stated fails: the cursor that `getCursorFromHeaders` makes of page 2 of
`18014398509481984` pages has `meta.index = 1` and, the page count less one
being rounded to a double, `meta.pageCount = 18014398509481984`; its reversal
has the index `18014398509481984`, and two reversals give `meta.index = 0`. -/
theorem reverseCursor_reverseCursor_counterexample :
    (getCursorFromHeaders id
          (pagingHeaders 2 18014398509481984 20 170 threeLinks)).toOption.map
        (fun c => (c.meta.index, c.meta.pageCount, (reverseCursor c).meta.index,
          (reverseCursor (reverseCursor c)).meta.index)) =
      some (some (.int 1), some (.int 18014398509481984), some (.int 18014398509481984),
        some (.int 0)) := by
  decide

/-- C7. For every cursor that carries `meta.index` and `meta.pageCount`, the
reversed cursor has `meta.index = pageCount - index`, has an action exactly
when the cursor has the exchanged action, and maps a link key to the request
that the cursor maps the exchanged key to. -/
theorem reverseCursor_spec {ρ : Type} (c : Cursor ρ) (index pageCount : Double)
    (hindex : c.meta.index = some index) (hpageCount : c.meta.pageCount = some pageCount) :
    (reverseCursor c).meta.index = some (pageCount.sub index) ∧
    (∀ a, a ∈ (reverseCursor c).actions ↔ swapAction a ∈ c.actions) ∧
    (∀ a, (reverseCursor c).link a = c.link (swapAction a)) := by
  refine ⟨?_, ?_, ?_⟩
  · rw [reverseCursor_index, hindex, hpageCount]
    rfl
  · intro a
    rw [reverseCursor_actions, List.mem_map]
    constructor
    · rintro ⟨b, hb, rfl⟩
      rw [← reverseAction_eq_swapAction, reverseAction_reverseAction]
      exact hb
    · intro h
      exact ⟨swapAction a, h, by rw [reverseAction_eq_swapAction, swapAction_swapAction]⟩
  · intro a
    rw [reverseCursor_link, reverseAction_eq_swapAction]

/-- C7, at the cursor of page 2 of 9: the reversed cursor is at index `8 - 1`. -/
theorem reverseCursor_spec_witness :
    (reverseCursor middleCursor).meta.index = some ((Double.int 8).sub (.int 1)) ∧
    (∀ a, a ∈ (reverseCursor middleCursor).actions ↔ swapAction a ∈ middleCursor.actions) ∧
    (∀ a, (reverseCursor middleCursor).link a = middleCursor.link (swapAction a)) :=
  reverseCursor_spec middleCursor (.int 1) (.int 8) rfl rfl

end GitLab

/-! ## Response parsing -/

namespace BackendUtil

open JS

theorem async_await {α : Type} (p : Promise α) : async (await p) = p := by
  cases p <;> rfl

theorem responseFormatters_json {β : Type} :
    (responseFormatters : IMap (Response β → Except JSError (Traced β))).get "json" =
      some (catchFormatErrors "json" jsonFormatter) := rfl

theorem responseFormatters_text {β : Type} :
    (responseFormatters : IMap (Response β → Except JSError (Traced β))).get "text" =
      some (catchFormatErrors "text" textFormatter) := rfl

theorem responseFormatters_blob {β : Type} :
    (responseFormatters : IMap (Response β → Except JSError (Traced β))).get "blob" =
      some (catchFormatErrors "blob" blobFormatter) := rfl

/-- The `catch` of `catchFormatErrors` is never entered for the `json` formatter:
the wrapped formatter returns what the formatter returns. -/
theorem catchFormatErrors_jsonFormatter {β : Type} (res : Response β) :
    catchFormatErrors "json" jsonFormatter res = jsonFormatter res := by
  unfold catchFormatErrors jsonFormatter
  cases res.contentType with
  | none => rfl
  | some contentType =>
    by_cases h : (!startsWith contentType "application/json" &&
        !startsWith contentType "text/json") = true
    · simp only [h, if_true]
    · simp only [h, if_false, Bool.false_eq_true]

/-- C8. For an ok response whose content type starts with neither
`application/json` nor `text/json`, `parseResponse` with the format `json`
returns a rejected promise, and no body decoder is applied to the response. -/
theorem parseResponse_json_mismatch {β : Type} (res : Response β) (expectingOk : Bool)
    (hok : res.ok = true)
    (hct : ∀ contentType, res.contentType = some contentType →
      startsWith contentType "application/json" = false ∧
        startsWith contentType "text/json" = false) :
    ∃ reason, parseResponse res expectingOk "json" = (.rejected reason, []) := by
  have h1 : (expectingOk && !res.ok) = false := by simp [hok]
  simp only [parseResponse, h1, responseFormatters_json, catchFormatErrors_jsonFormatter,
    Bool.false_eq_true, if_false]
  unfold jsonFormatter
  cases hc : res.contentType with
  | none => exact ⟨_, rfl⟩
  | some contentType =>
    obtain ⟨h2, h3⟩ := hct contentType hc
    simp only [h2, h3, Bool.not_false, Bool.and_self, if_true]
    exact ⟨_, rfl⟩

/-- C8, at an ok response of content type `text/html`. -/
theorem parseResponse_json_mismatch_witness :
    ∃ reason, parseResponse htmlResponse true "json" = (.rejected reason, []) :=
  parseResponse_json_mismatch htmlResponse true rfl (by
    intro contentType h
    cases h
    exact ⟨by decide, by decide⟩)

/-- C9 fails on the code. For a `text/html` response and for an
`application/json` response whose body does not decode, `parseResponse` with
the format `json` is rejected with the underlying error as it is: the message
is not of the form
`Response cannot be parsed into the expected format (json): ...`. -/
theorem parseResponse_failure_not_wrapped :
    parseResponse htmlResponse true "json" =
        (.rejected ⟨"text/html is not a valid JSON Content-Type"⟩, []) ∧
      parseResponse truncatedJsonResponse true "json" =
        (.rejected ⟨"Unexpected end of JSON input"⟩, ["json"]) := by
  decide

end BackendUtil

/-! ## `fetchFiles` -/

namespace GitHub

open JS

variable {φ δ : Type}

theorem fetchInvariant_init (readFile : φ → ReadResult δ) (capacity : Nat)
    (h : 0 < capacity) :
    FetchInvariant readFile [] ⟨Semaphore.create capacity, [], []⟩ :=
  ⟨h, rfl, Nat.zero_le _, fun hq => absurd rfl hq, List.Perm.refl _⟩

theorem fetchInvariant_takeSlot (readFile : φ → ReadResult δ) (tasks : List (Nat × φ))
    (s : FetchState φ δ) (task : Nat × φ) (h : FetchInvariant readFile tasks s) :
    FetchInvariant readFile (tasks ++ [task]) (takeSlot s task) := by
  obtain ⟨h1, h2, h3, h4, h5⟩ := h
  have hperm : ∀ (a b : List (Nat × φ)),
      (s.resolved ++ (a ++ b).map (resolution readFile)).Perm
        (s.resolved ++ (s.inFlight ++ s.sem.queue).map (resolution readFile)) →
      (s.resolved ++ (a ++ (b ++ [task])).map (resolution readFile)).Perm
        ((tasks ++ [task]).map (resolution readFile)) := by
    intro a b hab
    have h6 := List.Perm.append_right ([task].map (resolution readFile)) (hab.trans h5)
    simpa [List.map_append, List.append_assoc] using h6
  by_cases hfull : s.sem.current + 1 > s.sem.capacity
  · have hst : takeSlot s task =
        { s with sem := { s.sem with queue := s.sem.queue ++ [task] } } := by
      simp [takeSlot, Semaphore.take, hfull, startRead]
    rw [hst]
    refine ⟨h1, h2, h3, fun _ => ?_, ?_⟩
    · show s.sem.current = s.sem.capacity
      omega
    · exact hperm s.inFlight s.sem.queue (List.Perm.refl _)
  · have hst : takeSlot s task =
        { s with sem := { s.sem with current := s.sem.current + 1 },
                 inFlight := s.inFlight ++ [task] } := by
      simp [takeSlot, Semaphore.take, hfull, startRead]
    rw [hst]
    have hq : s.sem.queue = [] := by
      by_contra hne
      have := h4 hne
      omega
    refine ⟨h1, ?_, ?_, fun hne => absurd hq hne, ?_⟩
    · show s.sem.current + 1 = (s.inFlight ++ [task]).length
      rw [List.length_append, h2]
      rfl
    · show s.sem.current + 1 ≤ s.sem.capacity
      omega
    · have := hperm [] s.inFlight (by simp [hq])
      simpa [hq] using this

theorem fetchInvariant_foldl (readFile : φ → ReadResult δ) (rest : List (Nat × φ)) :
    ∀ (tasks : List (Nat × φ)) (s : FetchState φ δ), FetchInvariant readFile tasks s →
      FetchInvariant readFile (tasks ++ rest) (rest.foldl takeSlot s) := by
  induction rest with
  | nil => intro tasks s h; simpa using h
  | cons task rest ih =>
    intro tasks s h
    have := ih (tasks ++ [task]) (takeSlot s task) (fetchInvariant_takeSlot readFile tasks s task h)
    simpa using this

/-- After `files.forEach(...)` the invariant holds over all the files. -/
theorem fetchInvariant_enqueueAll (readFile : φ → ReadResult δ) (files : List φ) :
    FetchInvariant readFile files.enum (enqueueAll files) := by
  have := fetchInvariant_foldl readFile files.enum [] _
    (fetchInvariant_init readFile MAX_CONCURRENT_DOWNLOADS (by decide))
  simpa [enqueueAll] using this

theorem unsettled_foldl (rest : List (Nat × φ)) :
    ∀ (s : FetchState φ δ), unsettled (rest.foldl takeSlot s) = unsettled s + rest.length := by
  induction rest with
  | nil => intro s; rfl
  | cons task rest ih =>
    intro s
    rw [List.foldl_cons, ih]
    have : unsettled (takeSlot s task) = unsettled s + 1 := by
      by_cases hfull : s.sem.current + 1 > s.sem.capacity
      · simp [takeSlot, Semaphore.take, hfull, startRead, unsettled]; omega
      · simp [takeSlot, Semaphore.take, hfull, startRead, unsettled]; omega
    rw [this, List.length_cons]
    omega

theorem unsettled_enqueueAll (files : List φ) :
    unsettled (enqueueAll files : FetchState φ δ) = files.length := by
  unfold enqueueAll
  rw [unsettled_foldl]
  simp [unsettled, Semaphore.create]


theorem perm_cons_eraseIdx {α : Type} (l : List α) (p : Nat) (hp : p < l.length) :
    l.Perm (l[p] :: l.eraseIdx p) := by
  have h1 : l = l.take p ++ l[p] :: l.drop (p + 1) := by
    rw [← List.drop_eq_getElem_cons hp, List.take_append_drop]
  have h2 : l.eraseIdx p = l.take p ++ l.drop (p + 1) := List.eraseIdx_eq_take_drop_succ l p
  rw [h2]
  conv_lhs => rw [h1]
  exact List.perm_middle

/-- A read that settles keeps the invariant and leaves one read less unsettled. -/
theorem fetchInvariant_settle (readFile : φ → ReadResult δ) (tasks : List (Nat × φ))
    (s : FetchState φ δ) (p : Nat) (h : FetchInvariant readFile tasks s)
    (hp : p < s.inFlight.length) :
    FetchInvariant readFile tasks (settle readFile s p) ∧
      unsettled (settle readFile s p) + 1 = unsettled s := by
  obtain ⟨h1, h2, h3, h4, h5⟩ := h
  have hget : s.inFlight[p]? = some s.inFlight[p] := List.getElem?_eq_getElem hp
  have hE := perm_cons_eraseIdx s.inFlight p hp
  have hlen : (s.inFlight.eraseIdx p).length = s.inFlight.length - 1 :=
    List.length_eraseIdx_of_lt hp
  have hmap := (hE.map (resolution readFile)).symm
  rw [List.map_cons] at hmap
  cases hq : s.sem.queue with
  | nil =>
    have hst : settle readFile s p =
        { sem := { s.sem with current := s.sem.current - 1 },
          inFlight := s.inFlight.eraseIdx p,
          resolved := s.resolved ++ [resolution readFile s.inFlight[p]] } := by
      simp [settle, hget, Semaphore.leave, hq, startRead, resolution]
    rw [hst]
    refine ⟨⟨h1, ?_, ?_, ?_, ?_⟩, ?_⟩
    · show s.sem.current - 1 = (s.inFlight.eraseIdx p).length
      omega
    · show s.sem.current - 1 ≤ s.sem.capacity
      omega
    · intro hne
      exact absurd hq hne
    · refine List.Perm.trans ?_ h5
      show (s.resolved ++ [resolution readFile s.inFlight[p]] ++
        (s.inFlight.eraseIdx p ++ s.sem.queue).map (resolution readFile)).Perm _
      rw [hq, List.append_nil, List.append_nil, List.append_assoc]
      exact List.Perm.append_left _ hmap
    · show (s.inFlight.eraseIdx p).length + s.sem.queue.length + 1 = unsettled s
      unfold unsettled
      omega
  | cons item rest =>
    have hcur : ¬ (1 + (s.sem.current - 1) > s.sem.capacity) := by omega
    have hst : settle readFile s p =
        { sem := { s.sem with current := s.sem.current - 1 + 1, queue := rest },
          inFlight := s.inFlight.eraseIdx p ++ [item],
          resolved := s.resolved ++ [resolution readFile s.inFlight[p]] } := by
      simp [settle, hget, Semaphore.leave, hq, startRead, resolution, hcur]
    rw [hst]
    have hfull := h4 (by rw [hq]; exact List.cons_ne_nil _ _)
    refine ⟨⟨h1, ?_, ?_, ?_, ?_⟩, ?_⟩
    · show s.sem.current - 1 + 1 = (s.inFlight.eraseIdx p ++ [item]).length
      rw [List.length_append, hlen, List.length_singleton]
      omega
    · show s.sem.current - 1 + 1 ≤ s.sem.capacity
      omega
    · intro _
      show s.sem.current - 1 + 1 = s.sem.capacity
      omega
    · refine List.Perm.trans ?_ h5
      show (s.resolved ++ [resolution readFile s.inFlight[p]] ++
        (s.inFlight.eraseIdx p ++ [item] ++ rest).map (resolution readFile)).Perm _
      rw [hq]
      simp only [List.map_append, List.append_assoc, List.map_cons, List.map_nil,
        List.singleton_append]
      refine List.Perm.append_left _ ?_
      have := List.Perm.append_right
        (resolution readFile item :: rest.map (resolution readFile)) hmap
      simpa using this
    · show (s.inFlight.eraseIdx p ++ [item]).length + rest.length + 1 = unsettled s
      unfold unsettled
      rw [List.length_append, hlen, hq]
      simp only [List.length_cons, List.length_nil]
      omega

/-- Once as many reads have settled as there were unsettled, none is in flight,
none waits, and the invariant holds. -/
theorem runReads_final (readFile : φ → ReadResult δ) (tasks : List (Nat × φ)) :
    ∀ (schedule : List Nat) (s : FetchState φ δ), FetchInvariant readFile tasks s →
      unsettled s ≤ schedule.length →
      FetchInvariant readFile tasks (runReads readFile schedule s) ∧
        (runReads readFile schedule s).inFlight = [] ∧
        (runReads readFile schedule s).sem.queue = [] := by
  have hquiet : ∀ s : FetchState φ δ, FetchInvariant readFile tasks s → s.inFlight = [] →
      s.sem.queue = [] := by
    intro s h hin
    by_contra hne
    have h1 := h.queue_full hne
    have h2 := h.current_eq
    have h3 := h.capacity_pos
    rw [hin, List.length_nil] at h2
    omega
  intro schedule
  induction schedule with
  | nil =>
    intro s h hle
    have hin : s.inFlight = [] := by
      simp only [unsettled, List.length_nil, Nat.le_zero, Nat.add_eq_zero] at hle
      exact List.length_eq_zero.1 hle.1
    exact ⟨h, hin, hquiet s h hin⟩
  | cons choice schedule ih =>
    intro s h hle
    by_cases hin : s.inFlight = []
    · have hrun : runReads readFile (choice :: schedule) s = s := by
        simp [runReads, hin]
      rw [hrun]
      exact ⟨h, hin, hquiet s h hin⟩
    · have hpos : 0 < s.inFlight.length := List.length_pos.2 hin
      have hrun : runReads readFile (choice :: schedule) s =
          runReads readFile schedule (settle readFile s (choice % s.inFlight.length)) := by
        simp [runReads, hin]
      rw [hrun]
      obtain ⟨h1, h2⟩ := fetchInvariant_settle readFile tasks s (choice % s.inFlight.length) h
        (Nat.mod_lt _ hpos)
      apply ih _ h1
      rw [List.length_cons] at hle
      omega

end GitHub

namespace JS

theorem successes_spec {φ δ : Type} (value? : φ → Option δ) (files : List φ) :
    (successes value? files).length = files.length - failures value? files ∧
      ((successes value? files).map Prod.fst).Sublist files ∧
      ∀ p ∈ successes value? files, value? p.1 = some p.2 := by
  induction files with
  | nil => simp [successes, failures]
  | cons file files ih =>
    obtain ⟨h1, h2, h3⟩ := ih
    have hle : failures value? files ≤ files.length := List.length_filter_le _ _
    cases hv : value? file with
    | none =>
      have hs : successes value? (file :: files) = successes value? files := by
        simp [successes, List.filterMap_cons, hv]
      have hf : failures value? (file :: files) = failures value? files + 1 := by
        simp [failures, List.filter_cons, hv]
      rw [hs, hf]
      refine ⟨?_, h2.cons _, h3⟩
      rw [h1, List.length_cons]
      omega
    | some data =>
      have hs : successes value? (file :: files) = (file, data) :: successes value? files := by
        simp [successes, List.filterMap_cons, hv]
      have hf : failures value? (file :: files) = failures value? files := by
        simp [failures, List.filter_cons, hv]
      rw [hs, hf]
      refine ⟨?_, ?_, ?_⟩
      · rw [List.length_cons, h1, List.length_cons]
        omega
      · rw [List.map_cons]
        exact h2.cons₂ _
      · intro p hp
        rcases List.mem_cons.1 hp with rfl | hp
        · exact hv
        · exact h3 p hp

theorem lookup_of_mem_nodup {β : Type} :
    ∀ (l : List (Nat × β)), (l.map Prod.fst).Nodup → ∀ p ∈ l, l.lookup p.1 = some p.2
  | [], _, p, hp => absurd hp (List.not_mem_nil p)
  | q :: l, hnd, p, hp => by
    simp only [List.map_cons, List.nodup_cons] at hnd
    rcases List.mem_cons.1 hp with rfl | hmem
    · obtain ⟨k, v⟩ := p
      simp [List.lookup]
    · have hne : p.1 ≠ q.1 := fun e => hnd.1 (e ▸ List.mem_map_of_mem Prod.fst hmem)
      have hb : (p.1 == q.1) = false := by simpa using hne
      have hrec := lookup_of_mem_nodup l hnd.2 p hmem
      obtain ⟨k, v⟩ := q
      simp only [List.lookup, hb]
      exact hrec

end JS

namespace GitLab

open JS

variable {φ δ : Type}

/-- What the promise of a file is resolved with. -/
theorem loadFile_eq (readFile : φ → Promise δ) (file : φ) :
    loadFile readFile file =
      .resolved (match readFile file with
        | .resolved data => .entry file data
        | .rejected error => .caught error) := by
  unfold loadFile
  cases readFile file <;> rfl

theorem all_map_loadFile (readFile : φ → Promise δ) (files : List φ) :
    Promise.all (files.map (loadFile readFile)) =
      .resolved (files.map (fun file =>
        match readFile file with
        | .resolved data => LoadedFile.entry file data
        | .rejected error => LoadedFile.caught error)) := by
  induction files with
  | nil => rfl
  | cons file files ih => simp only [List.map_cons, Promise.all, ih, loadFile_eq]

/-- The GitLab `fetchFiles` is resolved with the files whose read succeeded, each
with its data, in the order of the list. -/
theorem gitlab_fetchFiles_eq (readFile : φ → Promise δ) (files : List φ) :
    fetchFiles readFile files =
      .resolved ((successes (fun file => (readFile file).value?) files).map
        (fun p => LoadedFile.entry p.1 p.2)) := by
  simp only [fetchFiles, all_map_loadFile, await, async, bind, Except.bind, pure, Except.pure]
  congr 1
  induction files with
  | nil => rfl
  | cons file files ih =>
    cases hv : readFile file with
    | resolved data =>
      simp [successes, List.filter_cons, List.filterMap_cons, hv, isError, Promise.value?] at ih ⊢
      exact ih
    | rejected error =>
      simp [successes, List.filter_cons, List.filterMap_cons, hv, isError, Promise.value?] at ih ⊢
      exact ih

end GitLab

namespace GitHub

open JS

variable {φ δ : Type}

theorem allResolved_of_lookup (readFile : φ → ReadResult δ)
    (resolved : List (Nat × LoadedEntry φ δ)) :
    ∀ (tasks : List (Nat × φ)),
      (∀ task ∈ tasks, resolved.lookup task.1 = some (resolution readFile task).2) →
      allResolved resolved tasks = some (tasks.map (fun task => (resolution readFile task).2))
  | [], _ => rfl
  | task :: tasks, h => by
    have h1 := h task (List.mem_cons_self _ _)
    have h2 := allResolved_of_lookup readFile resolved tasks
      (fun t ht => h t (List.mem_cons_of_mem _ ht))
    simp only [allResolved, h1, h2, List.map_cons]

/-- When every read has settled, `Promise.all` has the result of every file, in
the order of the files. -/
theorem allResolved_of_perm (readFile : φ → ReadResult δ) (files : List φ)
    (resolved : List (Nat × LoadedEntry φ δ))
    (hperm : resolved.Perm (files.enum.map (resolution readFile))) :
    allResolved resolved files.enum =
      some (files.map (fun file => loadedEntryOf file (readFile file))) := by
  have hkeys : (files.enum.map (resolution readFile)).map Prod.fst = List.range files.length := by
    rw [List.map_map]
    have : (Prod.fst ∘ resolution readFile : Nat × φ → Nat) = Prod.fst := rfl
    rw [this, List.enum_map_fst]
  have hnd : (resolved.map Prod.fst).Nodup := by
    have := (hperm.map Prod.fst).nodup_iff
    rw [this, hkeys]
    exact List.nodup_range _
  have hlook : ∀ task ∈ files.enum,
      resolved.lookup task.1 = some (resolution readFile task).2 := by
    intro task ht
    have hmem : resolution readFile task ∈ resolved :=
      hperm.symm.subset (List.mem_map_of_mem _ ht)
    exact lookup_of_mem_nodup resolved hnd _ hmem
  rw [allResolved_of_lookup readFile resolved files.enum hlook]
  congr 1
  have : (fun task : Nat × φ => (resolution readFile task).2) =
      (fun file => loadedEntryOf file (readFile file)) ∘ Prod.snd := rfl
  rw [this, ← List.map_map, List.enum_map_snd]

/-- The GitHub `fetchFiles`, once every read has settled, is resolved with the
files whose read succeeded, each with its data, in the order of the list,
whatever the order in which the reads settle. -/
theorem github_fetchFiles_eq (readFile : φ → ReadResult δ) (files : List φ) (schedule : List Nat)
    (hlen : files.length ≤ schedule.length) :
    fetchFiles readFile files schedule =
      some ((successes (fun file => (readFile file).value?) files).map
        (fun p => LoadedEntry.loaded p.1 p.2)) := by
  obtain ⟨hinv, hin, hq⟩ := runReads_final readFile files.enum schedule (enqueueAll files)
    (fetchInvariant_enqueueAll readFile files) (by rw [unsettled_enqueueAll]; exact hlen)
  have hperm := hinv.perm
  rw [hin, hq] at hperm
  simp only [List.append_nil, List.map_nil] at hperm
  simp only [fetchFiles, allResolved_of_perm readFile files _ hperm, Option.map_some',
    Option.some.injEq]
  clear hinv hin hq hperm hlen
  induction files with
  | nil => rfl
  | cons file files ih =>
    cases hv : readFile file with
    | data value =>
      simp [successes, List.filter_cons, List.filterMap_cons, hv, hasError, loadedEntryOf,
        ReadResult.value?] at ih ⊢
      exact ih
    | failure reason =>
      cases reason <;>
        simp [successes, List.filter_cons, List.filterMap_cons, hv, hasError, loadedEntryOf,
          ReadResult.value?] at ih ⊢ <;>
        exact ih

end GitHub

namespace Backends

open JS

/-- C10. For every list of `N` files of which exactly `k` reads fail, the GitLab
`fetchFiles` is resolved, and the GitHub `fetchFiles` is resolved once every
read has settled, in whatever order, with exactly `N - k` items: the items
`{ file, data }` of a sublist of the input files, each file with the data of
its own, successful, read. -/
theorem fetchFiles_returns_successful_reads {φ δ : Type} :
    (∀ (readFile : φ → Promise δ) (files : List φ) (k : Nat),
      failures (fun file => (readFile file).value?) files = k →
      ∃ picked : List (φ × δ),
        GitLab.fetchFiles readFile files =
          .resolved (picked.map (fun p => GitLab.LoadedFile.entry p.1 p.2)) ∧
        picked.length = files.length - k ∧
        (picked.map Prod.fst).Sublist files ∧
        ∀ p ∈ picked, readFile p.1 = .resolved p.2) ∧
    (∀ (readFile : φ → GitHub.ReadResult δ) (files : List φ) (schedule : List Nat) (k : Nat),
      files.length ≤ schedule.length →
      failures (fun file => (readFile file).value?) files = k →
      ∃ picked : List (φ × δ),
        GitHub.fetchFiles readFile files schedule =
          some (picked.map (fun p => GitHub.LoadedEntry.loaded p.1 p.2)) ∧
        picked.length = files.length - k ∧
        (picked.map Prod.fst).Sublist files ∧
        ∀ p ∈ picked, readFile p.1 = .data p.2) := by
  constructor
  · intro readFile files k hk
    obtain ⟨h1, h2, h3⟩ := successes_spec (fun file => (readFile file).value?) files
    refine ⟨_, GitLab.gitlab_fetchFiles_eq readFile files, hk ▸ h1, h2, ?_⟩
    intro p hp
    have := h3 p hp
    cases hr : readFile p.1 with
    | resolved value => simp only [hr, Promise.value?, Option.some.injEq] at this; rw [this]
    | rejected reason => simp [hr, Promise.value?] at this
  · intro readFile files schedule k hlen hk
    obtain ⟨h1, h2, h3⟩ := successes_spec (fun file => (readFile file).value?) files
    refine ⟨_, GitHub.github_fetchFiles_eq readFile files schedule hlen, hk ▸ h1, h2, ?_⟩
    intro p hp
    have := h3 p hp
    cases hr : readFile p.1 with
    | data value =>
      simp only [hr, GitHub.ReadResult.value?, Option.some.injEq] at this; rw [this]
    | failure reason => simp [hr, GitHub.ReadResult.value?] at this

/-- C10, at a batch of 25 files with 2 reads that fail: 23 items come back, from
the GitLab adapter and from the GitHub backend. -/
theorem fetchFiles_returns_successful_reads_witness :
    (∃ items, GitLab.fetchFiles GitLab.sampleRead (List.range 25) = .resolved items ∧
      items.length = 23) ∧
    (∃ items, GitHub.fetchFiles GitHub.sampleRead (List.range 25) (List.replicate 25 0) =
        some items ∧ items.length = 23) := by
  constructor
  · obtain ⟨picked, h1, h2, -, -⟩ :=
      (@fetchFiles_returns_successful_reads Nat String).1
        GitLab.sampleRead (List.range 25) 2 (by decide)
    exact ⟨_, h1, by simpa using h2⟩
  · obtain ⟨picked, h1, h2, -, -⟩ :=
      (@fetchFiles_returns_successful_reads Nat String).2
        GitHub.sampleRead (List.range 25) (List.replicate 25 0) 2 (by decide) (by decide)
    exact ⟨_, h1, by simpa using h2⟩

end Backends

/-! ## The concurrency ceiling -/

namespace BackendUtil

open JS

theorem slotInvariant_take {τ : Type} (sem : GitHub.Semaphore τ) (n : Nat) (task : τ)
    (h : SlotInvariant sem n) :
    SlotInvariant (sem.take task).1 (n + (sem.take task).2.toList.length) := by
  obtain ⟨h1, h2, h3, h4⟩ := h
  by_cases hfull : sem.current + 1 > sem.capacity
  · simp only [GitHub.Semaphore.take, hfull, if_true, Option.toList, List.length_nil,
      Nat.add_zero]
    exact ⟨h1, h2, h3, fun _ => by show sem.current = sem.capacity; omega⟩
  · have hq : sem.queue = [] := by
      by_contra hne
      have := h4 hne
      omega
    simp only [GitHub.Semaphore.take, hfull, if_false, Option.toList, List.length_singleton]
    refine ⟨h1, ?_, ?_, fun hne => absurd hq hne⟩
    · show sem.current + 1 = n + 1
      omega
    · show sem.current + 1 ≤ sem.capacity
      omega

theorem slotInvariant_leave {τ : Type} (sem : GitHub.Semaphore τ) (n : Nat)
    (h : SlotInvariant sem n) (hn : 0 < n) :
    SlotInvariant sem.leave.1 (n - 1 + sem.leave.2.toList.length) := by
  obtain ⟨h1, h2, h3, h4⟩ := h
  cases hq : sem.queue with
  | nil =>
    simp only [GitHub.Semaphore.leave, hq, Option.toList, List.length_nil, Nat.add_zero]
    refine ⟨h1, ?_, ?_, fun hne => absurd rfl hne⟩
    · show sem.current - 1 = n - 1
      omega
    · show sem.current - 1 ≤ sem.capacity
      omega
  | cons task rest =>
    have hcur : ¬ (1 + (sem.current - 1) > sem.capacity) := by omega
    have hfull := h4 (by rw [hq]; exact List.cons_ne_nil _ _)
    simp only [GitHub.Semaphore.leave, hq, hcur, if_false, Option.toList,
      List.length_singleton]
    refine ⟨h1, ?_, ?_, fun _ => ?_⟩
    · show sem.current - 1 + 1 = n - 1 + 1
      omega
    · show sem.current - 1 + 1 ≤ sem.capacity
      omega
    · show sem.current - 1 + 1 = sem.capacity
      omega

end BackendUtil

namespace BackendUtil

open JS

variable {ρ σ : Type}

theorem wrapperInvariant_create (maxDownloads : Nat) (h : 0 < maxDownloads) :
    WrapperInvariant (WrapperState.create maxDownloads : WrapperState ρ σ) :=
  ⟨⟨h, rfl, Nat.zero_le _, fun hq => absurd rfl hq⟩, List.Perm.refl _⟩

theorem wrapperInvariant_request (s : WrapperState ρ σ) (req : ρ) (h : WrapperInvariant s) :
    WrapperInvariant (request s req) := by
  obtain ⟨hslots, hids⟩ := h
  have htake := slotInvariant_take s.requestSemaphore s.inFlight.length (s.calls, req) hslots
  have hperm : ∀ (a b : List (Nat × ρ)),
      (s.settled.map Prod.fst ++ (a ++ b).map Prod.fst).Perm
        (s.settled.map Prod.fst ++
          (s.inFlight ++ s.requestSemaphore.queue).map Prod.fst) →
      (s.settled.map Prod.fst ++ (a ++ (b ++ [(s.calls, req)])).map Prod.fst).Perm
        (List.range (s.calls + 1)) := by
    intro a b hab
    have h6 := List.Perm.append_right [s.calls] (hab.trans hids)
    rw [List.range_succ]
    simpa [List.map_append, List.append_assoc] using h6
  by_cases hfull : s.requestSemaphore.current + 1 > s.requestSemaphore.capacity
  · have hst : request s req =
        { s with
          requestSemaphore :=
            { s.requestSemaphore with queue := s.requestSemaphore.queue ++ [(s.calls, req)] }
          calls := s.calls + 1 } := by
      simp [request, GitHub.Semaphore.take, hfull, startRequest]
    have hsem : (s.requestSemaphore.take (s.calls, req)) =
        ({ s.requestSemaphore with queue := s.requestSemaphore.queue ++ [(s.calls, req)] },
          none) := by
      simp [GitHub.Semaphore.take, hfull]
    rw [hsem] at htake
    rw [hst]
    exact ⟨by simpa using htake, hperm s.inFlight s.requestSemaphore.queue (List.Perm.refl _)⟩
  · have hq : s.requestSemaphore.queue = [] := by
      by_contra hne
      have := hslots.queue_full hne
      omega
    have hst : request s req =
        { s with
          requestSemaphore :=
            { s.requestSemaphore with current := s.requestSemaphore.current + 1 }
          inFlight := s.inFlight ++ [(s.calls, req)]
          calls := s.calls + 1 } := by
      simp [request, GitHub.Semaphore.take, hfull, startRequest]
    have hsem : (s.requestSemaphore.take (s.calls, req)) =
        ({ s.requestSemaphore with current := s.requestSemaphore.current + 1 },
          some (s.calls, req)) := by
      simp [GitHub.Semaphore.take, hfull]
    rw [hsem] at htake
    rw [hst]
    refine ⟨by simpa using htake, ?_⟩
    have := hperm [] s.inFlight (by simp [hq])
    simpa [hq] using this

theorem wrapperInvariant_settleRequest (performRequest : ρ → Promise σ)
    (s : WrapperState ρ σ) (position : Nat) (h : WrapperInvariant s) :
    WrapperInvariant (settleRequest performRequest s position) := by
  by_cases hp : position < s.inFlight.length
  swap
  · have hnone : s.inFlight[position]? = none := List.getElem?_eq_none (by omega)
    have hst : settleRequest performRequest s position = s := by
      simp [settleRequest, hnone]
    rw [hst]
    exact h
  obtain ⟨hslots, hids⟩ := h
  have hget : s.inFlight[position]? = some s.inFlight[position] := List.getElem?_eq_getElem hp
  have hE := GitHub.perm_cons_eraseIdx s.inFlight position hp
  have hlen : (s.inFlight.eraseIdx position).length = s.inFlight.length - 1 :=
    List.length_eraseIdx_of_lt hp
  have hmap := (hE.map Prod.fst).symm
  rw [List.map_cons] at hmap
  have hleave := slotInvariant_leave s.requestSemaphore s.inFlight.length hslots (by omega)
  cases hq : s.requestSemaphore.queue with
  | nil =>
    have hsem : s.requestSemaphore.leave =
        ({ s.requestSemaphore with current := s.requestSemaphore.current - 1 }, none) := by
      simp [GitHub.Semaphore.leave, hq]
    have hst : settleRequest performRequest s position =
        { s with
          requestSemaphore :=
            { s.requestSemaphore with current := s.requestSemaphore.current - 1 }
          inFlight := s.inFlight.eraseIdx position
          settled := s.settled ++ [(s.inFlight[position].1,
            performRequest s.inFlight[position].2)] } := by
      simp [settleRequest, hget, hsem, startRequest]
    rw [hsem] at hleave
    rw [hst]
    refine ⟨by simpa [hlen] using hleave, ?_⟩
    refine List.Perm.trans ?_ hids
    show ((s.settled ++ [(s.inFlight[position].1, performRequest s.inFlight[position].2)]).map
        Prod.fst ++ (s.inFlight.eraseIdx position ++ s.requestSemaphore.queue).map
        Prod.fst).Perm _
    rw [hq]
    simp only [List.map_append, List.append_assoc, List.map_cons, List.map_nil,
      List.singleton_append, List.append_nil]
    exact List.Perm.append_left _ hmap
  | cons task rest =>
    have hcur : ¬ (1 + (s.requestSemaphore.current - 1) > s.requestSemaphore.capacity) := by
      have := hslots.current_le
      have := hslots.current_eq
      omega
    have hsem : s.requestSemaphore.leave =
        ({ s.requestSemaphore with
            current := s.requestSemaphore.current - 1 + 1, queue := rest }, some task) := by
      simp [GitHub.Semaphore.leave, hq, hcur]
    have hst : settleRequest performRequest s position =
        { s with
          requestSemaphore :=
            { s.requestSemaphore with
              current := s.requestSemaphore.current - 1 + 1, queue := rest }
          inFlight := s.inFlight.eraseIdx position ++ [task]
          settled := s.settled ++ [(s.inFlight[position].1,
            performRequest s.inFlight[position].2)] } := by
      simp [settleRequest, hget, hsem, startRequest]
    rw [hsem] at hleave
    rw [hst]
    refine ⟨by simpa [hlen] using hleave, ?_⟩
    refine List.Perm.trans ?_ hids
    show ((s.settled ++ [(s.inFlight[position].1, performRequest s.inFlight[position].2)]).map
        Prod.fst ++ (s.inFlight.eraseIdx position ++ [task] ++ rest).map Prod.fst).Perm _
    rw [hq]
    simp only [List.map_append, List.append_assoc, List.map_cons, List.map_nil,
      List.singleton_append]
    refine List.Perm.append_left _ ?_
    have := List.Perm.append_right (task.1 :: rest.map Prod.fst) hmap
    simpa using this

/-- The invariant holds after every sequence of calls of `request` and of
requests that settle. -/
theorem wrapperInvariant_runWrapper (performRequest : ρ → Promise σ) :
    ∀ (events : List (WrapperEvent ρ)) (s : WrapperState ρ σ), WrapperInvariant s →
      WrapperInvariant (runWrapper performRequest events s)
  | [], _, h => h
  | .request req :: events, s, h =>
    wrapperInvariant_runWrapper performRequest events _ (wrapperInvariant_request s req h)
  | .settle position :: events, s, h =>
    wrapperInvariant_runWrapper performRequest events _
      (wrapperInvariant_settleRequest performRequest s position h)

end BackendUtil

namespace GitHub

open JS

variable {φ δ : Type}

/-- The invariant holds however many reads have settled. -/
theorem fetchInvariant_runReads (readFile : φ → ReadResult δ) (tasks : List (Nat × φ)) :
    ∀ (schedule : List Nat) (s : FetchState φ δ), FetchInvariant readFile tasks s →
      FetchInvariant readFile tasks (runReads readFile schedule s)
  | [], _, h => h
  | choice :: schedule, s, h => by
    by_cases hin : s.inFlight = []
    · have hrun : runReads readFile (choice :: schedule) s = s := by
        simp [runReads, hin]
      rw [hrun]
      exact h
    · have hpos : 0 < s.inFlight.length := List.length_pos.2 hin
      have hrun : runReads readFile (choice :: schedule) s =
          runReads readFile schedule (settle readFile s (choice % s.inFlight.length)) := by
        simp [runReads, hin]
      rw [hrun]
      exact fetchInvariant_runReads readFile tasks schedule _
        (fetchInvariant_settle readFile tasks s _ h (Nat.mod_lt _ hpos)).1

theorem fetchInvariant_enqueueSome (readFile : φ → ReadResult δ) (files : List φ) (k : Nat) :
    FetchInvariant readFile (files.enum.take k) (enqueueSome files k) := by
  have := fetchInvariant_foldl readFile (files.enum.take k) [] _
    (fetchInvariant_init readFile MAX_CONCURRENT_DOWNLOADS (by decide))
  simpa [enqueueSome] using this

theorem capacity_take {τ : Type} (sem : Semaphore τ) (task : τ) :
    (sem.take task).1.capacity = sem.capacity := by
  unfold Semaphore.take
  split <;> rfl

theorem capacity_leave {τ : Type} (sem : Semaphore τ) :
    sem.leave.1.capacity = sem.capacity := by
  unfold Semaphore.leave
  cases sem.queue with
  | nil => rfl
  | cons task rest =>
    simp only
    split <;> rfl

theorem sem_startRead (s : FetchState φ δ) (sem : Semaphore (Nat × φ))
    (run : Option (Nat × φ)) : (startRead s sem run).sem = sem := by
  cases run <;> rfl

theorem capacity_takeSlot (s : FetchState φ δ) (task : Nat × φ) :
    (takeSlot s task).sem.capacity = s.sem.capacity := by
  unfold takeSlot
  rw [sem_startRead, capacity_take]

theorem capacity_foldl_takeSlot (tasks : List (Nat × φ)) :
    ∀ (s : FetchState φ δ), (tasks.foldl takeSlot s).sem.capacity = s.sem.capacity := by
  induction tasks with
  | nil => intro s; rfl
  | cons task tasks ih => intro s; rw [List.foldl_cons, ih, capacity_takeSlot]

theorem capacity_settle (readFile : φ → ReadResult δ) (s : FetchState φ δ) (position : Nat) :
    (settle readFile s position).sem.capacity = s.sem.capacity := by
  unfold settle
  split
  · rfl
  · simp only [sem_startRead, capacity_leave]

theorem capacity_runReads (readFile : φ → ReadResult δ) :
    ∀ (schedule : List Nat) (s : FetchState φ δ),
      (runReads readFile schedule s).sem.capacity = s.sem.capacity
  | [], _ => rfl
  | choice :: schedule, s => by
    unfold runReads
    split
    · rfl
    · rw [capacity_runReads readFile schedule, capacity_settle]

/-- The positions of the tasks of a state, from the invariant: resolved, in flight
or waiting, each position once. -/
theorem fetchInvariant_positions (readFile : φ → ReadResult δ) (tasks : List (Nat × φ))
    (s : FetchState φ δ) (h : FetchInvariant readFile tasks s) :
    (s.resolved.map Prod.fst ++ (s.inFlight.map Prod.fst ++ s.sem.queue.map Prod.fst)).Perm
      (tasks.map Prod.fst) := by
  have := h.perm.map Prod.fst
  have hfst : (Prod.fst ∘ resolution readFile : Nat × φ → Nat) = Prod.fst := rfl
  simpa [List.map_append, List.map_map, hfst] using this

end GitHub

namespace BackendUtil

open JS

variable {ρ σ : Type}

theorem capacity_request (s : WrapperState ρ σ) (req : ρ) :
    (request s req).requestSemaphore.capacity = s.requestSemaphore.capacity := by
  unfold request startRequest
  split <;> exact GitHub.capacity_take _ _

theorem capacity_settleRequest (performRequest : ρ → Promise σ) (s : WrapperState ρ σ)
    (position : Nat) :
    (settleRequest performRequest s position).requestSemaphore.capacity =
      s.requestSemaphore.capacity := by
  unfold settleRequest
  split
  · rfl
  · unfold startRequest
    split <;> exact GitHub.capacity_leave _

theorem capacity_runWrapper (performRequest : ρ → Promise σ) :
    ∀ (events : List (WrapperEvent ρ)) (s : WrapperState ρ σ),
      (runWrapper performRequest events s).requestSemaphore.capacity =
        s.requestSemaphore.capacity
  | [], _ => rfl
  | .request req :: events, s => by
    rw [runWrapper, capacity_runWrapper performRequest events, capacity_request]
  | .settle position :: events, s => by
    rw [runWrapper, capacity_runWrapper performRequest events, capacity_settleRequest]

/-- A request in flight that settles: the promise of its call is settled with the
outcome of `performRequest` for its request, nothing else is settled, and one
request less is pending. -/
theorem settleRequest_valid (performRequest : ρ → Promise σ) (s : WrapperState ρ σ)
    (position : Nat) (hp : position < s.inFlight.length) :
    (settleRequest performRequest s position).settled =
        s.settled ++ [(s.inFlight[position].1, performRequest s.inFlight[position].2)] ∧
      (settleRequest performRequest s position).calls = s.calls ∧
      pending (settleRequest performRequest s position) + 1 = pending s := by
  have hget : s.inFlight[position]? = some s.inFlight[position] := List.getElem?_eq_getElem hp
  have hlen : (s.inFlight.eraseIdx position).length = s.inFlight.length - 1 :=
    List.length_eraseIdx_of_lt hp
  cases hq : s.requestSemaphore.queue with
  | nil =>
    simp [settleRequest, hget, GitHub.Semaphore.leave, hq, startRequest, pending, hlen]
    omega
  | cons task rest =>
    by_cases hfull : 1 + (s.requestSemaphore.current - 1) > s.requestSemaphore.capacity
    · simp [settleRequest, hget, GitHub.Semaphore.leave, hq, hfull, startRequest, pending, hlen]
      omega
    · simp [settleRequest, hget, GitHub.Semaphore.leave, hq, hfull, startRequest, pending, hlen]
      omega

/-- The calls counted do not change when requests settle. -/
theorem calls_settleRequests (performRequest : ρ → Promise σ) :
    ∀ (schedule : List Nat) (s : WrapperState ρ σ),
      (settleRequests performRequest schedule s).calls = s.calls
  | [], _ => rfl
  | choice :: schedule, s => by
    by_cases hin : s.inFlight = []
    · simp [settleRequests, hin]
    · have hpos : 0 < s.inFlight.length := List.length_pos.2 hin
      have hrun : settleRequests performRequest (choice :: schedule) s =
          settleRequests performRequest schedule
            (settleRequest performRequest s (choice % s.inFlight.length)) := by
        simp [settleRequests, hin]
      rw [hrun, calls_settleRequests performRequest schedule,
        (settleRequest_valid performRequest s (choice % s.inFlight.length)
          (Nat.mod_lt _ hpos)).2.1]

/-- Once as many requests have settled as were pending, none is in flight, none
waits, and the invariant holds. -/
theorem settleRequests_final (performRequest : ρ → Promise σ) :
    ∀ (schedule : List Nat) (s : WrapperState ρ σ), WrapperInvariant s →
      pending s ≤ schedule.length →
      WrapperInvariant (settleRequests performRequest schedule s) ∧
        (settleRequests performRequest schedule s).inFlight = [] ∧
        (settleRequests performRequest schedule s).requestSemaphore.queue = [] := by
  have hquiet : ∀ s : WrapperState ρ σ, WrapperInvariant s → s.inFlight = [] →
      s.requestSemaphore.queue = [] := by
    intro s h hin
    by_contra hne
    have h1 := h.slots.queue_full hne
    have h2 := h.slots.current_eq
    have h3 := h.slots.capacity_pos
    rw [hin, List.length_nil] at h2
    omega
  intro schedule
  induction schedule with
  | nil =>
    intro s h hle
    have hin : s.inFlight = [] := by
      simp only [pending, List.length_nil, Nat.le_zero, Nat.add_eq_zero] at hle
      exact List.length_eq_zero.1 hle.1
    exact ⟨h, hin, hquiet s h hin⟩
  | cons choice schedule ih =>
    intro s h hle
    by_cases hin : s.inFlight = []
    · have hrun : settleRequests performRequest (choice :: schedule) s = s := by
        simp [settleRequests, hin]
      rw [hrun]
      exact ⟨h, hin, hquiet s h hin⟩
    · have hpos : 0 < s.inFlight.length := List.length_pos.2 hin
      have hrun : settleRequests performRequest (choice :: schedule) s =
          settleRequests performRequest schedule
            (settleRequest performRequest s (choice % s.inFlight.length)) := by
        simp [settleRequests, hin]
      rw [hrun]
      have h1 := wrapperInvariant_settleRequest performRequest s
        (choice % s.inFlight.length) h
      have h2 := (settleRequest_valid performRequest s (choice % s.inFlight.length)
        (Nat.mod_lt _ hpos)).2.2
      apply ih _ h1
      rw [List.length_cons] at hle
      omega

end BackendUtil

namespace Backends

open JS

/-- C11. With the semaphore a counter with a FIFO queue: in every state of the
GitHub `fetchFiles`, during `files.forEach` and after any number of reads
have settled in any order, at most `MAX_CONCURRENT_DOWNLOADS = 10` reads are
in flight, the slots taken are the reads in flight, and every file is in one
place, resolved, in flight or waiting; once all reads have settled no slot is
taken. The same holds for a wrapper with `maxDownloads = C ≥ 1` after every
sequence of calls of `request` and of requests that settle: the slots taken
are the calls that are neither settled nor waiting; a request in flight that
settles settles the promise of its call with the outcome of `performRequest`,
leaves one request less pending and leaves the slots taken in step with the
requests in flight; and once the pending requests have settled, in any order,
no slot is taken, no request is in flight or waiting and every call is
settled. This is so whatever the reads and requests settle with. -/
theorem in_flight_within_ceiling {φ δ ρ σ : Type} :
    (∀ (readFile : φ → GitHub.ReadResult δ) (files : List φ),
      (∀ k : Nat,
        (GitHub.enqueueSome files k : GitHub.FetchState φ δ).inFlight.length ≤
            GitHub.MAX_CONCURRENT_DOWNLOADS ∧
          (GitHub.enqueueSome files k : GitHub.FetchState φ δ).sem.current =
            (GitHub.enqueueSome files k : GitHub.FetchState φ δ).inFlight.length) ∧
      (∀ schedule : List Nat,
        (GitHub.runReads readFile schedule (GitHub.enqueueAll files)).inFlight.length ≤
            GitHub.MAX_CONCURRENT_DOWNLOADS ∧
          (GitHub.runReads readFile schedule (GitHub.enqueueAll files)).sem.current =
            (GitHub.runReads readFile schedule (GitHub.enqueueAll files)).inFlight.length ∧
          ((GitHub.runReads readFile schedule (GitHub.enqueueAll files)).resolved.map Prod.fst ++
            ((GitHub.runReads readFile schedule (GitHub.enqueueAll files)).inFlight.map Prod.fst ++
              (GitHub.runReads readFile schedule (GitHub.enqueueAll files)).sem.queue.map
                Prod.fst)).Perm (List.range files.length)) ∧
      (∀ schedule : List Nat, files.length ≤ schedule.length →
        (GitHub.runReads readFile schedule (GitHub.enqueueAll files)).sem.current = 0 ∧
          ((GitHub.runReads readFile schedule (GitHub.enqueueAll files)).resolved.map
            Prod.fst).Perm (List.range files.length))) ∧
    (∀ (C : Nat), 1 ≤ C →
      ∀ (performRequest : ρ → Promise σ) (events : List (BackendUtil.WrapperEvent ρ)),
        (BackendUtil.runWrapper performRequest events
            (BackendUtil.WrapperState.create C)).inFlight.length ≤ C ∧
          (BackendUtil.runWrapper performRequest events
            (BackendUtil.WrapperState.create C)).requestSemaphore.current =
            (BackendUtil.runWrapper performRequest events
              (BackendUtil.WrapperState.create C)).inFlight.length ∧
          ((BackendUtil.runWrapper performRequest events
              (BackendUtil.WrapperState.create C)).settled.map Prod.fst ++
            ((BackendUtil.runWrapper performRequest events
                (BackendUtil.WrapperState.create C)).inFlight ++
              (BackendUtil.runWrapper performRequest events
                (BackendUtil.WrapperState.create C)).requestSemaphore.queue).map
              Prod.fst).Perm
            (List.range (BackendUtil.runWrapper performRequest events
              (BackendUtil.WrapperState.create C)).calls) ∧
          (∀ s : BackendUtil.WrapperState ρ σ,
            s = BackendUtil.runWrapper performRequest events
              (BackendUtil.WrapperState.create C) →
            s.requestSemaphore.current + s.settled.length + s.requestSemaphore.queue.length =
                s.calls ∧
              (∀ (position : Nat) (hp : position < s.inFlight.length),
                (BackendUtil.settleRequest performRequest s position).settled =
                    s.settled ++
                      [(s.inFlight[position].1, performRequest s.inFlight[position].2)] ∧
                  BackendUtil.pending (BackendUtil.settleRequest performRequest s position) + 1 =
                    BackendUtil.pending s ∧
                  (BackendUtil.settleRequest performRequest s position).requestSemaphore.current =
                    (BackendUtil.settleRequest performRequest s position).inFlight.length ∧
                  (BackendUtil.settleRequest performRequest s position).inFlight.length ≤ C) ∧
              (∀ schedule : List Nat, BackendUtil.pending s ≤ schedule.length →
                (BackendUtil.settleRequests performRequest schedule s).requestSemaphore.current =
                    0 ∧
                  (BackendUtil.settleRequests performRequest schedule s).inFlight = [] ∧
                  (BackendUtil.settleRequests performRequest schedule s).requestSemaphore.queue =
                    [] ∧
                  ((BackendUtil.settleRequests performRequest schedule s).settled.map
                    Prod.fst).Perm (List.range s.calls)))) := by
  constructor
  · intro readFile files
    refine ⟨fun k => ?_, fun schedule => ?_, fun schedule hlen => ?_⟩
    · have h := GitHub.fetchInvariant_enqueueSome readFile files k
      have hcap : (GitHub.enqueueSome files k : GitHub.FetchState φ δ).sem.capacity =
          GitHub.MAX_CONCURRENT_DOWNLOADS := by
        unfold GitHub.enqueueSome
        rw [GitHub.capacity_foldl_takeSlot]
        rfl
      have h1 := h.current_eq
      have h2 := h.current_le
      exact ⟨by omega, h1⟩
    · have h := GitHub.fetchInvariant_runReads readFile files.enum schedule _
        (GitHub.fetchInvariant_enqueueAll readFile files)
      have hcap : (GitHub.runReads readFile schedule (GitHub.enqueueAll files)).sem.capacity =
          GitHub.MAX_CONCURRENT_DOWNLOADS := by
        rw [GitHub.capacity_runReads]
        unfold GitHub.enqueueAll
        rw [GitHub.capacity_foldl_takeSlot]
        rfl
      have h1 := h.current_eq
      have h2 := h.current_le
      refine ⟨by omega, h1, ?_⟩
      have := GitHub.fetchInvariant_positions readFile files.enum _ h
      rwa [List.enum_map_fst] at this
    · obtain ⟨h, hin, hq⟩ := GitHub.runReads_final readFile files.enum schedule
        (GitHub.enqueueAll files) (GitHub.fetchInvariant_enqueueAll readFile files)
        (by rw [GitHub.unsettled_enqueueAll]; exact hlen)
      have h1 := h.current_eq
      rw [hin] at h1
      refine ⟨h1, ?_⟩
      have := GitHub.fetchInvariant_positions readFile files.enum _ h
      rw [hin, hq, List.enum_map_fst] at this
      simpa using this
  · intro C hC performRequest events
    have h := BackendUtil.wrapperInvariant_runWrapper performRequest events _
      (BackendUtil.wrapperInvariant_create C hC)
    have hcap := BackendUtil.capacity_runWrapper performRequest events
      (BackendUtil.WrapperState.create C : BackendUtil.WrapperState ρ σ)
    have hcap2 : (BackendUtil.WrapperState.create C :
        BackendUtil.WrapperState ρ σ).requestSemaphore.capacity = C := rfl
    have h1 := h.slots.current_eq
    have h2 := h.slots.current_le
    refine ⟨by omega, h1, h.ids, ?_⟩
    intro s hs
    subst hs
    refine ⟨?_, fun position hp => ?_, fun schedule hlen => ?_⟩
    · have hlength := h.ids.length_eq
      simp only [List.length_append, List.length_map, List.length_range] at hlength
      omega
    · have hvalid := BackendUtil.settleRequest_valid performRequest _ position hp
      have hnext := BackendUtil.wrapperInvariant_settleRequest performRequest _ position h
      have hcap3 := BackendUtil.capacity_settleRequest performRequest
        (BackendUtil.runWrapper performRequest events (BackendUtil.WrapperState.create C))
        position
      have h3 := hnext.slots.current_eq
      have h4 := hnext.slots.current_le
      exact ⟨hvalid.1, hvalid.2.2, h3, by omega⟩
    · obtain ⟨hfinal, hin, hq⟩ := BackendUtil.settleRequests_final performRequest schedule _ h hlen
      have h3 := hfinal.slots.current_eq
      rw [hin] at h3
      refine ⟨h3, hin, hq, ?_⟩
      have hids := hfinal.ids
      rw [hin, hq, BackendUtil.calls_settleRequests] at hids
      simpa using hids

/-- C11, at a wrapper with `maxDownloads = 10` after twelve calls of which two have
settled: ten requests are in flight; and once these ten have settled no slot
is taken. -/
theorem in_flight_within_ceiling_witness :
    (1 : Nat) ≤ 10 ∧
      (BackendUtil.runWrapper BackendUtil.samplePerformRequest BackendUtil.sampleEvents
        (BackendUtil.WrapperState.create 10)).inFlight.length ≤ 10 ∧
      (BackendUtil.runWrapper BackendUtil.samplePerformRequest BackendUtil.sampleEvents
        (BackendUtil.WrapperState.create 10)).inFlight.length = 10 ∧
      (BackendUtil.settleRequests BackendUtil.samplePerformRequest
        [0, 3, 1, 0, 2, 4, 0, 1, 1, 0]
        (BackendUtil.runWrapper BackendUtil.samplePerformRequest BackendUtil.sampleEvents
          (BackendUtil.WrapperState.create 10))).requestSemaphore.current = 0 :=
  ⟨by decide,
    ((@in_flight_within_ceiling Nat String Nat String).2 10 (by decide)
      BackendUtil.samplePerformRequest BackendUtil.sampleEvents).1,
    by decide,
    ((((@in_flight_within_ceiling Nat String Nat String).2 10 (by decide)
      BackendUtil.samplePerformRequest BackendUtil.sampleEvents).2.2.2 _ rfl).2.2
        [0, 3, 1, 0, 2, 4, 0, 1, 1, 0] (by decide)).1⟩

end Backends

/-! ## The request executor of the Context -/

namespace GitLab

open JS BackendUtil

theorem issue_direct {ρ σ : Type} (ctx : Context)
    (hctx : requestExecutor ctx = some .unsentPerformRequest) :
    ∀ (reqs : List ρ) (net : Network ρ σ),
      (reqs.foldl (issue ctx) net).wrapper = net.wrapper ∧
        (reqs.foldl (issue ctx) net).direct = net.direct ++ reqs
  | [], net => by simp
  | req :: reqs, net => by
    have hstep : issue ctx net req = { net with direct := net.direct ++ [req] } := by
      simp [issue, hctx]
    obtain ⟨h1, h2⟩ := issue_direct ctx hctx reqs (issue ctx net req)
    rw [List.foldl_cons, h1, h2, hstep]
    simp

/-- C12 fails on the code. The Context that the wrapper's `getContext()` hands to
the GitLab adapter, with no extra context as with the `getCredentials` of
`authenticate`, has the wrapper's bounded `request` under the key `request`,
but under `performRequest`, the key that the adapter's `request` reads, it
has `performRequest` of `unsentRequest`; so the requests that the adapter
issues take no slot of the wrapper's semaphore, however many there are. -/
theorem gitlab_request_executor_is_unbounded (name repo encodedRepo branch : String) :
    (∃ ctx, wrapperGetContext name repo encodedRepo branch [] = .ok ctx ∧
      requestExecutor ctx = some .unsentPerformRequest ∧
      ctx.get "request" = some .wrapperRequest ∧
      ∀ (reqs : List Nat) (maxDownloads : Nat),
        (reqs.foldl (issue ctx)
            (⟨WrapperState.create maxDownloads, []⟩ : Network Nat String)).direct = reqs ∧
          (reqs.foldl (issue ctx)
            (⟨WrapperState.create maxDownloads, []⟩ :
              Network Nat String)).wrapper.requestSemaphore.current = 0) ∧
    (∃ ctx, wrapperGetContext name repo encodedRepo branch
        [("getCredentials", .givenCredentials)] = .ok ctx ∧
      requestExecutor ctx = some .unsentPerformRequest ∧
      ctx.get "request" = some .wrapperRequest) := by
  refine ⟨⟨_, rfl, rfl, rfl, ?_⟩, ⟨_, rfl, rfl, rfl⟩⟩
  intro reqs maxDownloads
  obtain ⟨h1, h2⟩ := issue_direct
    (buildContext repo encodedRepo branch (defaultContext name [])) rfl reqs
    (⟨WrapperState.create maxDownloads, []⟩ : Network Nat String)
  rw [h1, h2]
  exact ⟨by simp, rfl⟩

end GitLab

/-! ## Error handling and authentication of the wrapper -/

namespace BackendUtil

open JS

/-- C13 fails on the code for `entriesByFolder` and `entriesByFiles`. When the
adapter's `getCollectionEntries` throws or returns a rejected promise, the
wrapped call is resolved with `undefined`, and the callback of `.then`, which
destructures its argument, throws: the operation is rejected with a
`TypeError`. The other six operations are resolved with `undefined`. -/
theorem wrapper_operations_when_adapter_fails {ε κ α : Type} (err : JSError) :
    (entriesByFolder (.ok (.rejected err) : AdapterCall (CollectionEntries ε κ)) =
        .rejected
          ⟨"Cannot destructure property 'entries' of 'undefined' as it is undefined."⟩ ∧
      entriesByFolder (.error err : AdapterCall (CollectionEntries ε κ)) =
        .rejected
          ⟨"Cannot destructure property 'entries' of 'undefined' as it is undefined."⟩ ∧
      entriesByFiles (.ok (.rejected err) : AdapterCall (CollectionEntries ε κ)) =
        .rejected
          ⟨"Cannot destructure property 'entries' of 'undefined' as it is undefined."⟩ ∧
      entriesByFiles (.error err : AdapterCall (CollectionEntries ε κ)) =
        .rejected
          ⟨"Cannot destructure property 'entries' of 'undefined' as it is undefined."⟩) ∧
    (∀ call : AdapterCall α, (call = .error err ∨ call = .ok (.rejected err)) →
      allEntriesByFolder call = .resolved none ∧ getEntry call = .resolved none ∧
      getMedia call = .resolved none ∧ persistEntry call = .resolved none ∧
      persistMedia call = .resolved none ∧ traverseCursor call = .resolved none) := by
  refine ⟨⟨rfl, rfl, rfl, rfl⟩, ?_⟩
  intro call h
  rcases h with h | h <;> subst h <;> exact ⟨rfl, rfl, rfl, rfl, rfl, rfl⟩

/-- C14 fails on the code. When the adapter's `checkCredentials` fails, by an
exception or by a rejected promise, `authenticate` on a fresh wrapper is not
rejected: it is resolved with `undefined`, and the authentication promise is
resolved with `undefined` too, so `getCredentials()` yields `undefined`. -/
theorem authenticate_when_check_fails {κ : Type} (credentials : κ) (err : JSError) :
    authenticate (some (fun _ => (.ok (.rejected err) : AdapterCall κ))) credentials
        AuthState.create = (.resolved .undefined, ⟨some .undefined, false⟩) ∧
      authenticate (some (fun _ => (.error err : AdapterCall κ))) credentials
        AuthState.create = (.resolved .undefined, ⟨some .undefined, false⟩) ∧
      getCredentials
        (authenticate (some (fun _ => (.ok (.rejected err) : AdapterCall κ))) credentials
          AuthState.create).2 = some .undefined :=
  ⟨rfl, rfl, rfl⟩

/-- When the check succeeds, `authenticate` on a fresh wrapper is resolved with the
checked credentials and `getCredentials()` yields them. -/
theorem authenticate_when_check_succeeds {κ : Type} (credentials checked : κ) :
    authenticate (some (fun _ => (.ok (.resolved checked) : AdapterCall κ))) credentials
        AuthState.create = (.resolved (.credentials checked), ⟨some (.credentials checked), false⟩) :=
  rfl

end BackendUtil

/-! ## `checkCredentials` of the GitLab adapter -/

namespace GitLab

open JS

theorem hasWriteAccess_iff (access : Option Access) :
    hasWriteAccess access = true ↔ GrantsWrite access := by
  unfold hasWriteAccess GrantsWrite
  cases access with
  | none => simp
  | some value =>
    cases hl : value.access_level with
    | none => simp [hl]
    | some num =>
      cases num with
      | nan => simp [hl]
      | int level => simp [hl, WRITE_ACCESS]

/-- C15, as the code has it. When the project request and the request for `/user`
both succeed, `checkCredentials` returns the given credentials exactly when
the project's permissions grant `project_access.access_level >= 30` or
`group_access.access_level >= 30`, and it fails otherwise; when one of the
two requests fails, it fails. -/
theorem checkCredentials_iff {υ κ : Type} (credentials : κ) :
    (∀ (project : Project) (user : υ),
      (checkCredentials (.resolved project) (.resolved user) credentials =
          .resolved credentials ↔ ProjectGrantsWrite project) ∧
      (¬ ProjectGrantsWrite project →
        ∃ reason, checkCredentials (.resolved project) (.resolved user) credentials =
          .rejected reason)) ∧
    (∀ (projectRequest : Promise Project) (userRequest : Promise υ),
      (projectRequest.value? = none ∨ userRequest.value? = none) →
      ∃ reason, checkCredentials projectRequest userRequest credentials = .rejected reason) := by
  constructor
  · intro project user
    have hcases : (ProjectGrantsWrite project ∧
          checkCredentials (.resolved project) (.resolved user) credentials =
            .resolved credentials) ∨
        (¬ ProjectGrantsWrite project ∧
          ∃ reason, checkCredentials (.resolved project) (.resolved user) credentials =
            .rejected reason) := by
      unfold ProjectGrantsWrite
      cases hp : project.permissions with
      | none =>
        right
        refine ⟨by simp,
          ⟨"Cannot destructure property 'project_access' of 'permissions' as it is undefined."⟩,
          ?_⟩
        simp [checkCredentials, Promise.both, await, async, hp, bind, Except.bind, throw,
          throwThe, MonadExceptOf.throw]
      | some permissions =>
        by_cases h1 : hasWriteAccess permissions.project_access = true
        · left
          refine ⟨⟨permissions, rfl, Or.inl ((hasWriteAccess_iff _).1 h1)⟩, ?_⟩
          simp [checkCredentials, Promise.both, await, async, hp, bind, Except.bind, h1, pure,
            Except.pure]
        · by_cases h2 : hasWriteAccess permissions.group_access = true
          · left
            refine ⟨⟨permissions, rfl, Or.inr ((hasWriteAccess_iff _).1 h2)⟩, ?_⟩
            simp [checkCredentials, Promise.both, await, async, hp, bind, Except.bind, h1, h2,
              pure, Except.pure]
          · right
            refine ⟨?_, ⟨"Invalid credentials"⟩, ?_⟩
            · rintro ⟨perms, hperms, hgrant⟩
              cases hperms
              rcases hgrant with hg | hg
              · exact h1 ((hasWriteAccess_iff _).2 hg)
              · exact h2 ((hasWriteAccess_iff _).2 hg)
            · simp [checkCredentials, Promise.both, await, async, hp, bind, Except.bind, h1, h2,
                throw, throwThe, MonadExceptOf.throw]
    rcases hcases with ⟨hg, heq⟩ | ⟨hng, reason, heq⟩
    · exact ⟨⟨fun _ => hg, fun _ => heq⟩, fun hn => absurd hg hn⟩
    · refine ⟨⟨fun h => ?_, fun h => absurd h hng⟩, fun _ => ⟨reason, heq⟩⟩
      rw [heq] at h
      exact Promise.noConfusion h
  · intro projectRequest userRequest h
    cases projectRequest with
    | rejected reason => exact ⟨reason, rfl⟩
    | resolved project =>
      cases userRequest with
      | rejected reason => exact ⟨reason, rfl⟩
      | resolved user => simp [Promise.value?] at h

/-- C15, as the code has it, at the levels 30 and 29 with a user request that
succeeds. -/
theorem checkCredentials_iff_witness :
    checkCredentials (.resolved (projectWithLevel 30)) (.resolved "user") "token" =
        .resolved "token" ∧
      (∃ reason, checkCredentials (.resolved (projectWithLevel 29)) (.resolved "user")
        "token" = .rejected reason) := by
  have h := (@checkCredentials_iff String String "token").1
  refine ⟨((h (projectWithLevel 30) "user").1).2 ?_, (h (projectWithLevel 29) "user").2 ?_⟩
  · exact ⟨_, rfl, Or.inl ⟨_, 30, rfl, rfl, by decide⟩⟩
  · rintro ⟨perms, hperms, hgrant⟩
    cases hperms
    rcases hgrant with ⟨value, level, h1, h2, h3⟩ | ⟨value, level, h1, h2, h3⟩
    · cases h1
      cases h2
      exact absurd h3 (by decide)
    · cases h1

/-- C15 as stated fails: with a project whose `project_access.access_level` is 40
and a request for `/user` that fails, `checkCredentials` fails. -/
theorem checkCredentials_counterexample :
    checkCredentials (.resolved (projectWithLevel 40))
        (.rejected ⟨"Failed to fetch"⟩ : Promise String) "token" =
      .rejected ⟨"Failed to fetch"⟩ := by
  decide

end GitLab

/-! ## `listFullFolder` -/

namespace GitLab

open JS

theorem pageCursor_next (count i : Nat) (h : i + 1 < count) :
    (pageCursor count i).actions.contains "next" = true ∧
      (pageCursor count i).link "next" = some (i + 1) := by
  simp only [pageCursor, h, if_true]
  exact ⟨rfl, rfl⟩

theorem pageCursor_last (count i : Nat) (h : ¬ i + 1 < count) :
    (pageCursor count i).actions.contains "next" = false := by
  simp only [pageCursor, h, if_false]
  rfl

/-- From the cursor of page `i`, the loop adds the entries of the pages after
page `i`. -/
theorem listFullFolderLoop_servePages (pages : List (List TreeEntry)) :
    ∀ (fuel i : Nat) (entries : List TreeEntry), i < pages.length → pages.length - i ≤ fuel →
      listFullFolderLoop (servePages pages) fuel (pageCursor pages.length i) entries =
        some (.ok (entries ++ (pages.drop (i + 1)).flatten))
  | 0, i, _, hi, hfuel => by omega
  | fuel + 1, i, entries, hi, hfuel => by
    by_cases hnext : i + 1 < pages.length
    · obtain ⟨h1, h2⟩ := pageCursor_next pages.length i hnext
      have hget : pages.get? (i + 1) = some pages[i + 1] := by
        rw [List.get?_eq_getElem?, List.getElem?_eq_getElem hnext]
      have hdrop : pages.drop (i + 1) = pages[i + 1] :: pages.drop (i + 1 + 1) :=
        List.drop_eq_getElem_cons hnext
      simp only [listFullFolderLoop, h1, h2, if_true, servePages, hget, await]
      rw [listFullFolderLoop_servePages pages fuel (i + 1) _ hnext (by omega), hdrop,
        List.flatten_cons, List.append_assoc]
    · have h1 := pageCursor_last pages.length i hnext
      have hdrop : pages.drop (i + 1) = [] := List.drop_eq_nil_of_le (by omega)
      simp only [listFullFolderLoop, h1, Bool.false_eq_true, if_false, hdrop, List.flatten_nil,
        List.append_nil]

/-- What `listFullFolder` returns for a listing of pages `p0, ..., pk`: the files of
the pages `p1, ..., pk`; the entries of the first page are not among them. -/
theorem listFullFolder_servePages (pages : List (List TreeEntry)) (fuel : Nat)
    (hpages : 0 < pages.length) (hfuel : pages.length ≤ fuel) :
    listFullFolder (servePages pages) fuel 0 =
      some (.resolved (filterToFileObjects pages.tail.flatten)) := by
  have hget : pages.get? 0 = some pages[0] := by
    rw [List.get?_eq_getElem?, List.getElem?_eq_getElem hpages]
  simp only [listFullFolder, servePages, hget, await]
  rw [listFullFolderLoop_servePages pages fuel 0 [] hpages (by omega)]
  simp [async, Except.map]

/-- C16 fails on the code. For a folder of one page with one file, `listFullFolder`
returns the empty list: the entries of the first page are bound to
`initialEntries` and never pushed to `entries`. -/
theorem listFullFolder_omits_first_page :
    filterToFileObjects onePageFolder.flatten =
        [⟨"a1b2", "post.md", "blob", "posts/post.md"⟩] ∧
      listFullFolder (servePages onePageFolder) 1 0 = some (.resolved []) := by
  decide

end GitLab

/-! ## `persistEntry` and `persistMedia` -/

namespace GitLab

open JS BackendUtil

/-- `persistMedia` issues no request and is rejected, whatever the file, the
options and the outcome of requests. -/
theorem persistMedia_rejected {σ : Type} (encode : String → Except JSError String)
    (send : CommitRequest → Promise σ) (ctx : Context) (mediaFile : FileItem)
    (options : Option PersistOptions) :
    persistMedia encode send ctx mediaFile options =
      (.rejected
        ⟨"Cannot destructure property 'commitMessage' of 'undefined' as it is undefined."⟩,
        []) :=
  rfl

/-- `persistEntry` issues one commit request with one action for the entry and is
resolved when the content is encoded and the request succeeds. -/
theorem persistEntry_one_commit {σ : Type} (encode : String → Except JSError String)
    (send : CommitRequest → Promise σ) (ctx : Context) (entry : FileItem)
    (options : Option PersistOptions) (content : String) (response : σ)
    (hcontent : (match entry.toBase64 with
      | some promise => await promise
      | none => encode entry.raw) = .ok content)
    (hsend : ∀ req, send req = .resolved response) :
    ∃ req action,
      persistEntry encode send ctx entry options =
        .ok (.resolved [⟨entry, true⟩], [req]) ∧
      req.method = "POST" ∧
      req.url = contextText ctx "repoURL" ++ "/repository/commits" ∧
      req.actions = [action] ∧ action.file_path = stripLeadingSlash entry.path ∧
      action.content = content := by
  refine ⟨⟨contextText ctx "repoURL" ++ "/repository/commits", "POST",
      contextText ctx "branch", (options.getD ⟨none, none⟩).commitMessage,
      [⟨if ((options.getD ⟨none, none⟩).newEntry == some false) = true then "update"
          else "create",
        stripLeadingSlash entry.path, content, "base64"⟩]⟩,
    _, ?_, rfl, rfl, rfl, rfl, rfl⟩
  simp only [persistEntry, persistFiles, uploadAll, uploadAndCommit, hcontent, hsend,
    List.map_cons, List.map_nil, Promise.all, List.flatten_cons, List.flatten_nil,
    List.append_nil]

/-- C17 fails on the code for `persistMedia`. For a media file with its own
`toBase64`, a Context of the wrapper and a provider that accepts every commit,
`persistMedia` is rejected with a `TypeError` and issues no request:
`persistFiles([mediaFile], options)` is called without `ctx`, so its third
parameter, a pattern without a default, is `undefined`. -/
theorem persistMedia_issues_no_commit :
    persistMedia (fun raw => .ok raw) (fun _ => (.resolved "created" : Promise String))
        sampleContext sampleMediaFile (some ⟨some "Upload logo.png", none⟩) =
      (.rejected
        ⟨"Cannot destructure property 'commitMessage' of 'undefined' as it is undefined."⟩,
        []) :=
  persistMedia_rejected _ _ _ _ _

end GitLab

/-! ## `readFile` and the content cache -/

namespace GitLab

open JS BackendUtil

/-- The value stored by `setItem` is what `getItem` gives for that key. -/
theorem getItem_setItem (store : LocalForage) (key : String) (val : FileData) :
    (store.setItem key val).getItem key = some val := by
  simp [LocalForage.setItem, LocalForage.getItem]

/-- C18 as stated fails: the cache holds a value for the id `3f2a`, the text of an
empty file, and `readFile` with that id does not return it from the cache
without a request: it performs a request. -/
theorem readFile_cache_counterexample :
    storeWithEmptyFile.getItem (cacheKey "gitlab" "3f2a") = some (.text "") ∧
      (readFile (serveText "") storeWithEmptyFile sampleContext "README.md"
          ⟨some "3f2a", none, none⟩).requests =
        [⟨"/projects/owner%2Fsite/repository/files/README.md/raw", "master", true⟩] := by
  decide

end GitLab


namespace GitLab

open JS BackendUtil

/-- C18, amended. For a Context whose cache accessors are those of a backend
`name`: called with a truthy id, `readFile` returns a truthy cached value (a
blob or a text that is not empty) with no request and no write; if the cache
holds no truthy value for the id, it performs exactly one request, and when
that request succeeds it stores the result under the id and returns it, when
it fails it fails with that reason and writes nothing. Called without a truthy
id it performs one request, returns its outcome, and neither reads nor writes
the cache. -/
theorem readFile_cache_contract (fetch : FileRequest → Promise FileData)
    (store : LocalForage) (ctx : Context) (encodedPath : String) (options : ReadOptions)
    (name : String)
    (hget : ctx.get "getCacheItem" = some (.getCacheItem name))
    (hset : ctx.get "setCacheItem" = some (.setCacheItem name)) :
    (∀ id, truthyString options.id = some id →
      (∀ cached, store.getItem (cacheKey name id) = some cached → cached.truthy = true →
        readFile fetch store ctx encodedPath options =
          ⟨.resolved cached, [], [cacheKey name id], [], store⟩) ∧
      ((¬ ∃ cached, store.getItem (cacheKey name id) = some cached ∧ cached.truthy = true) →
        (readFile fetch store ctx encodedPath options).requests =
            [fileRequest ctx encodedPath options] ∧
          (readFile fetch store ctx encodedPath options).cacheReads = [cacheKey name id] ∧
          (∀ data, fetch (fileRequest ctx encodedPath options) = .resolved data →
            (readFile fetch store ctx encodedPath options).promise = .resolved data ∧
            (readFile fetch store ctx encodedPath options).cacheWrites =
              [(cacheKey name id, data)] ∧
            (readFile fetch store ctx encodedPath options).store.getItem (cacheKey name id) =
              some data) ∧
          (∀ reason, fetch (fileRequest ctx encodedPath options) = .rejected reason →
            (readFile fetch store ctx encodedPath options).promise = .rejected reason ∧
            (readFile fetch store ctx encodedPath options).cacheWrites = [] ∧
            (readFile fetch store ctx encodedPath options).store = store))) ∧
    (truthyString options.id = none →
      (readFile fetch store ctx encodedPath options).promise =
          fetch (fileRequest ctx encodedPath options) ∧
        (readFile fetch store ctx encodedPath options).requests =
          [fileRequest ctx encodedPath options] ∧
        (readFile fetch store ctx encodedPath options).cacheReads = [] ∧
        (readFile fetch store ctx encodedPath options).cacheWrites = [] ∧
        (readFile fetch store ctx encodedPath options).store = store) := by
  refine ⟨fun id hid => ⟨fun cached hcached htruthy => ?_, fun hnone => ?_⟩, fun hid => ?_⟩
  · simp only [readFile, hid, hget, hcached, htruthy, if_true]
  · have hfetch : readFile fetch store ctx encodedPath options =
        fetchAndStore fetch store ctx encodedPath options [cacheKey name id] := by
      simp only [readFile, hid, hget]
      cases hc : store.getItem (cacheKey name id) with
      | none => rfl
      | some cached =>
        have hfalse : cached.truthy = false := by
          cases ht : cached.truthy with
          | false => rfl
          | true => exact absurd ⟨cached, hc, ht⟩ hnone
        simp only [hfalse, Bool.false_eq_true, if_false]
    rw [hfetch]
    refine ⟨?_, ?_, fun data hdata => ?_, fun reason hreason => ?_⟩
    · simp only [fetchAndStore, hid, hset]
      cases fetch (fileRequest ctx encodedPath options) <;> rfl
    · simp only [fetchAndStore, hid, hset]
      cases fetch (fileRequest ctx encodedPath options) <;> rfl
    · simp only [fetchAndStore, hid, hset, hdata, getItem_setItem, and_self]
    · simp only [fetchAndStore, hreason, and_self]
  · simp only [readFile, hid, fetchAndStore]
    cases fetch (fileRequest ctx encodedPath options) <;> simp

/-- The contract of `readFile` at a Context of the GitLab adapter, where the cache
of the backend `gitlab` holds the text `cached` under the id `3f2a`: with that
id the cached text is returned and no request is made; with the id `77c0`,
for which nothing is held, one request is made and its result is stored and
returned; without an id one request is made and the cache is left alone. -/
theorem readFile_cache_contract_witness :
    readFile (serveText "# Hello") [("backends.gitlab.3f2a", .text "cached")] sampleContext
        "README.md" ⟨some "3f2a", none, none⟩ =
      ⟨.resolved (.text "cached"), [], ["backends.gitlab.3f2a"], [],
        [("backends.gitlab.3f2a", .text "cached")]⟩ ∧
    ((readFile (serveText "# Hello") [("backends.gitlab.3f2a", .text "cached")] sampleContext
          "README.md" ⟨some "77c0", none, none⟩).requests =
        [fileRequest sampleContext "README.md" ⟨some "77c0", none, none⟩] ∧
      (readFile (serveText "# Hello") [("backends.gitlab.3f2a", .text "cached")] sampleContext
          "README.md" ⟨some "77c0", none, none⟩).promise = .resolved (.text "# Hello") ∧
      (readFile (serveText "# Hello") [("backends.gitlab.3f2a", .text "cached")] sampleContext
          "README.md" ⟨some "77c0", none, none⟩).cacheWrites =
        [("backends.gitlab.77c0", .text "# Hello")]) ∧
    ((readFile (serveText "# Hello") [("backends.gitlab.3f2a", .text "cached")] sampleContext
          "README.md" ⟨none, none, none⟩).cacheReads = [] ∧
      (readFile (serveText "# Hello") [("backends.gitlab.3f2a", .text "cached")] sampleContext
          "README.md" ⟨none, none, none⟩).cacheWrites = []) := by
  have hget : sampleContext.get "getCacheItem" = some (.getCacheItem "gitlab") := by decide
  have hset : sampleContext.get "setCacheItem" = some (.setCacheItem "gitlab") := by decide
  refine ⟨?_, ?_, ?_⟩
  · exact ((readFile_cache_contract (serveText "# Hello")
      [("backends.gitlab.3f2a", .text "cached")] sampleContext "README.md"
      ⟨some "3f2a", none, none⟩ "gitlab" hget hset).1 "3f2a" (by decide)).1
        (.text "cached") (by decide) (by decide)
  · have h := ((readFile_cache_contract (serveText "# Hello")
      [("backends.gitlab.3f2a", .text "cached")] sampleContext "README.md"
      ⟨some "77c0", none, none⟩ "gitlab" hget hset).1 "77c0" (by decide)).2 (by decide)
    have hdata := h.2.2.1 (.text "# Hello") rfl
    exact ⟨h.1, hdata.1, hdata.2.1⟩
  · have h := (readFile_cache_contract (serveText "# Hello")
      [("backends.gitlab.3f2a", .text "cached")] sampleContext "README.md"
      ⟨none, none, none⟩ "gitlab" hget hset).2 (by decide)
    exact ⟨h.2.2.1, h.2.2.2.1⟩

end GitLab


/-! ## The fork workflow -/

namespace GitHub

open JS

/-- A probe whose `fetch` is rejected with the status 404 is followed by a wait of
250 ms and the rest of the poll. -/
theorem pollUntilForkExists_rejected_not_found (api_root repo : String) (error : FetchError)
    (rest : List FetchOutcome) (hstatus : error.status = some 404) :
    pollUntilForkExists api_root repo (.rejected error :: rest) =
      ⟨(pollUntilForkExists api_root repo rest).result,
        .fetch "GET" (api_root ++ "/repos/" ++ repo) :: .wait 250 ::
          (pollUntilForkExists api_root repo rest).effects⟩ := by
  simp [pollUntilForkExists, probeResult, hstatus]

/-- A probe whose `fetch` is rejected with another status, or with none, makes the
poll fail with that reason. -/
theorem pollUntilForkExists_rejected_other (api_root repo : String) (error : FetchError)
    (rest : List FetchOutcome) (hstatus : error.status ≠ some 404) :
    pollUntilForkExists api_root repo (.rejected error :: rest) =
      ⟨some (.error error), [.fetch "GET" (api_root ++ "/repos/" ++ repo)]⟩ := by
  simp [pollUntilForkExists, probeResult, hstatus]

/-- C20 fails on the code. A probe that the provider answers, with whatever HTTP
status, resolves the promise of `fetch`, so `.then(() => true)` ends the loop:
after an answer `404 Not Found` to its first probe, `pollUntilForkExists`
completes with that one probe, without a wait and without another probe, and
after an answer with the status 500 it completes as well and does not fail. -/
theorem pollUntilForkExists_completes_on_any_answer (api_root repo : String) (status : Nat)
    (rest : List FetchOutcome) :
    pollUntilForkExists api_root repo (.response status :: rest) =
        ⟨some (.ok ()), [.fetch "GET" (api_root ++ "/repos/" ++ repo)]⟩ ∧
      pollUntilForkExists "https://api.github.com" "editor/site"
          [.response 404, .response 200] =
        ⟨some (.ok ()), [.fetch "GET" "https://api.github.com/repos/editor/site"]⟩ ∧
      pollUntilForkExists "https://api.github.com" "editor/site" [.response 500] =
        ⟨some (.ok ()), [.fetch "GET" "https://api.github.com/repos/editor/site"]⟩ :=
  ⟨rfl, by decide, by decide⟩

/-- The effects of a poll hold no fork-creation call. -/
theorem forkCreationCalls_poll (api_root repo : String) (outcomes : List FetchOutcome) :
    forkCreationCalls (pollUntilForkExists api_root repo outcomes).effects = [] := by
  induction outcomes with
  | nil => simp [pollUntilForkExists, forkCreationCalls]
  | cons outcome rest ih =>
    unfold pollUntilForkExists
    cases hprobe : probeResult outcome with
    | error error => simp [forkCreationCalls]
    | ok exists_ =>
      cases exists_ with
      | true => simp [forkCreationCalls]
      | false =>
        simp only [forkCreationCalls] at ih
        simp [forkCreationCalls, ih]

/-- On a backend that has asked for neither the user nor a permission yet, for a
user whose `login` and `permission` the provider gives: the backend and the
effects of `userIsOriginMaintainer`, and whether the permission is `admin` or
`write`. -/
theorem userIsOriginMaintainer_fresh (backend : Backend) (provider : Provider)
    (login : String) (permission : Option String)
    (hnoUser : backend.currentUserPromise = none)
    (hnoLookup : backend.userIsOriginMaintainerPromises = [])
    (huser : provider.user = .resolved login)
    (hpermission : provider.permission login = .resolved permission) :
    userIsOriginMaintainer backend provider none =
      ({ backend with
          currentUserPromise := some (.resolved login)
          userIsOriginMaintainerPromises :=
            [(login, .resolved (permission == some "admin" || permission == some "write"))] },
        .resolved (permission == some "admin" || permission == some "write"),
        [.fetch "GET" (backend.api_root ++ "/user"),
          .fetch "GET" (backend.api_root ++ "/repos/" ++ backend.originRepo ++
            "/collaborators/" ++ login ++ "/permission")]) := by
  simp [userIsOriginMaintainer, currentUser, lookupMaintainer, maintainerPromise, hnoUser,
    hnoLookup, huser, hpermission, Promise.andThen, async]

end GitHub


namespace GitHub

open JS

/-- C19 as stated fails: the user `editor` has the permission `read` on the origin
repository, which is neither `admin` nor `write`, and `getPermissionToFork()`
is rejected; `authenticateWithFork` then makes no fork-creation call, and it
leaves `repo` and `useForkWorkflow` unset. -/
theorem authenticateWithFork_counterexample :
    forkCreationCalls
        (authenticateWithFork sampleBackend (sampleProvider "read")
          (.rejected ⟨"The user did not agree to fork the repository."⟩)).effects = [] ∧
      (authenticateWithFork sampleBackend (sampleProvider "read")
          (.rejected ⟨"The user did not agree to fork the repository."⟩)).backend.repo = none ∧
      (authenticateWithFork sampleBackend (sampleProvider "read")
          (.rejected ⟨"The user did not agree to fork the repository."⟩)).backend.useForkWorkflow =
        none := by
  decide

/-- C19, amended. With the fork workflow enabled, on a backend that has not looked
up the user yet, for a user whose permission on the origin repository the
provider gives: if the permission is `admin` or `write`, no fork-creation call
is made, `repo` is `originRepo` and `useForkWorkflow` is false; otherwise, if
`getPermissionToFork()` is resolved, exactly one fork-creation call is made,
and when it succeeds `repo` is the `full_name` of the fork and
`useForkWorkflow` is true; and if `getPermissionToFork()` is rejected, no
fork-creation call is made, `repo` and `useForkWorkflow` are left as they
were, and `authenticateWithFork` is rejected with that reason. -/
theorem authenticateWithFork_contract (backend : Backend) (provider : Provider)
    (permissionToFork : Promise Unit) (login : String) (permission : Option String)
    (henabled : backend.forkWorkflowEnabled = true)
    (hnoUser : backend.currentUserPromise = none)
    (hnoLookup : backend.userIsOriginMaintainerPromises = [])
    (huser : provider.user = .resolved login)
    (hpermission : provider.permission login = .resolved permission) :
    ((permission = some "admin" ∨ permission = some "write") →
      forkCreationCalls (authenticateWithFork backend provider permissionToFork).effects = [] ∧
      (authenticateWithFork backend provider permissionToFork).backend.repo =
        some backend.originRepo ∧
      (authenticateWithFork backend provider permissionToFork).backend.useForkWorkflow =
        some false ∧
      (authenticateWithFork backend provider permissionToFork).promise =
        some (.resolved ())) ∧
    (¬ (permission = some "admin" ∨ permission = some "write") →
      (permissionToFork = .resolved () →
        forkCreationCalls (authenticateWithFork backend provider permissionToFork).effects =
          [.fetch "POST" (backend.api_root ++ "/repos/" ++ backend.originRepo ++ "/forks")] ∧
        ∀ full_name, provider.fork = .resolved full_name →
          (authenticateWithFork backend provider permissionToFork).backend.repo = full_name ∧
          (authenticateWithFork backend provider permissionToFork).backend.useForkWorkflow =
            some true) ∧
      (∀ reason, permissionToFork = .rejected reason →
        forkCreationCalls (authenticateWithFork backend provider permissionToFork).effects = [] ∧
        (authenticateWithFork backend provider permissionToFork).backend.repo = backend.repo ∧
        (authenticateWithFork backend provider permissionToFork).backend.useForkWorkflow =
          backend.useForkWorkflow ∧
        (authenticateWithFork backend provider permissionToFork).promise =
          some (.rejected reason))) := by
  have hm := userIsOriginMaintainer_fresh backend provider login permission hnoUser hnoLookup
    huser hpermission
  have hiff : (permission == some "admin" || permission == some "write") = true ↔
      (permission = some "admin" ∨ permission = some "write") := by
    simp
  refine ⟨fun hadmin => ?_, fun hother => ⟨fun hask => ?_, fun reason hask => ?_⟩⟩
  · have htrue := hiff.2 hadmin
    rw [htrue] at hm
    simp [authenticateWithFork, henabled, hm, forkCreationCalls]
  · have hfalse : (permission == some "admin" || permission == some "write") = false := by
      cases h : (permission == some "admin" || permission == some "write") with
      | false => rfl
      | true => exact absurd (hiff.1 h) hother
    rw [hfalse] at hm
    have hpoll := forkCreationCalls_poll
    simp only [forkCreationCalls] at hpoll
    cases hfork : provider.fork with
    | rejected reason =>
      simp [authenticateWithFork, henabled, hm, hask, hfork, forkCreationCalls]
    | resolved full_name =>
      simp [authenticateWithFork, henabled, hm, hask, hfork, forkCreationCalls, hpoll]
  · have hfalse : (permission == some "admin" || permission == some "write") = false := by
      cases h : (permission == some "admin" || permission == some "write") with
      | false => rfl
      | true => exact absurd (hiff.1 h) hother
    rw [hfalse] at hm
    simp [authenticateWithFork, henabled, hm, hask, forkCreationCalls]

/-- The contract of `authenticateWithFork` for the user `editor` on the origin
repository `owner/site`: with the permission `write` the backend works on
`owner/site` with no fork-creation call; with the permission `read` and a
resolved `getPermissionToFork()` there is one fork-creation call and the
backend works on the fork `editor/site`. -/
theorem authenticateWithFork_contract_witness :
    (forkCreationCalls
        (authenticateWithFork sampleBackend (sampleProvider "write") (.resolved ())).effects =
        [] ∧
      (authenticateWithFork sampleBackend (sampleProvider "write")
        (.resolved ())).backend.repo = some "owner/site" ∧
      (authenticateWithFork sampleBackend (sampleProvider "write")
        (.resolved ())).backend.useForkWorkflow = some false) ∧
    (forkCreationCalls
        (authenticateWithFork sampleBackend (sampleProvider "read") (.resolved ())).effects =
        [.fetch "POST" "https://api.github.com/repos/owner/site/forks"] ∧
      (authenticateWithFork sampleBackend (sampleProvider "read")
        (.resolved ())).backend.repo = some "editor/site" ∧
      (authenticateWithFork sampleBackend (sampleProvider "read")
        (.resolved ())).backend.useForkWorkflow = some true) := by
  have hwrite := (authenticateWithFork_contract sampleBackend (sampleProvider "write")
    (.resolved ()) "editor" (some "write") rfl rfl rfl rfl rfl).1 (Or.inr rfl)
  have hread := ((authenticateWithFork_contract sampleBackend (sampleProvider "read")
    (.resolved ()) "editor" (some "read") rfl rfl rfl rfl rfl).2 (by decide)).1 rfl
  have hfork := hread.2 (some "editor/site") rfl
  exact ⟨⟨hwrite.1, hwrite.2.1, hwrite.2.2.1⟩, hread.1, hfork.1, hfork.2⟩

end GitHub


/-! ## The constructor of the GitHub backend -/

namespace GitHub

open JS

/-- C21 as stated fails: with a repository configured, `fork_workflow` false and
`useWorkflow` set, but with `branch` present and `null` in the configuration,
construction fails: `config.getIn(['backend', 'branch'], 'master')` is `null`
and `.trim()` throws. -/
theorem construct_counterexample :
    looselyNull (getIn (sampleConfig [("fork_workflow", .bool false), ("branch", .null)])
        ["backend", "repo"] .undefined) = false ∧
      construct (sampleConfig [("fork_workflow", .bool false), ("branch", .null)])
          [("useWorkflow", .bool true)] =
        .error ⟨"Cannot read property 'trim' of null"⟩ := by
  constructor <;> rfl

/-- C21, amended. With a repository configured: if `fork_workflow` is true and
`useWorkflow` is not set, construction fails with the error of the fork
workflow; if `fork_workflow` is false or `useWorkflow` is set, and `branch`
is missing from the configuration or is a string, construction succeeds, with
`branch` trimmed, and the repository in `originRepo` when the fork workflow
is on and in `repo` when it is off. -/
theorem construct_fork_workflow (config : JSVal) (options : List (String × JSVal))
    (hrepo : looselyNull (getIn config ["backend", "repo"] .undefined) = false) :
    ((getIn config ["backend", "fork_workflow"] (.bool false)).truthy = true →
      (optionValue options "useWorkflow").truthy = false →
      construct config options =
        .error
          ⟨"backend.fork_workflow is true but publish_mode is not set to editorial_workflow."⟩) ∧
    (((getIn config ["backend", "fork_workflow"] (.bool false)).truthy = false ∨
        (optionValue options "useWorkflow").truthy = true) →
      ∀ branch : String, getIn config ["backend", "branch"] (.str "master") = .str branch →
        ∃ fields, construct config options = .ok fields ∧
          fields.branch = String.mk (trim branch.data) ∧
          fields.forkWorkflowEnabled = getIn config ["backend", "fork_workflow"] (.bool false) ∧
          (fields.forkWorkflowEnabled.truthy = true →
            fields.originRepo = some (getIn config ["backend", "repo"] (.str "")) ∧
              fields.repo = none) ∧
          (fields.forkWorkflowEnabled.truthy = false →
            fields.repo = some (getIn config ["backend", "repo"] (.str "")) ∧
              fields.originRepo = none)) := by
  refine ⟨fun hfork huse => ?_, fun hor branch hbranch => ?_⟩
  · simp [construct, hrepo, hfork, huse]
  · have hguard : ((getIn config ["backend", "fork_workflow"] (.bool false)).truthy &&
        !(optionValue options "useWorkflow").truthy) = false := by
      rcases hor with h | h <;> simp [h]
    have hconstruct : construct config options =
        .ok
          { config := config
            options := options
            api :=
              if (optionValue options "API").truthy then optionValue options "API" else .null
            forkWorkflowEnabled := getIn config ["backend", "fork_workflow"] (.bool false)
            originRepo :=
              if (getIn config ["backend", "fork_workflow"] (.bool false)).truthy then
                some (getIn config ["backend", "repo"] (.str ""))
              else none
            repo :=
              if (getIn config ["backend", "fork_workflow"] (.bool false)).truthy then none
              else some (getIn config ["backend", "repo"] (.str ""))
            branch := String.mk (trim branch.data)
            api_root := getIn config ["backend", "api_root"] (.str "https://api.github.com")
            token := ""
            squash_merges := getIn config ["backend", "squash_merges"] .undefined } := by
      simp only [construct, hrepo, Bool.and_false, Bool.false_eq_true, if_false, hguard,
        hbranch, trimValue]
    refine ⟨_, hconstruct, rfl, rfl, ?_, ?_⟩
    · intro h
      simp only at h
      simp [h]
    · intro h
      simp only at h
      simp [h]

/-- The contract of the constructor for a configuration with the repository
`owner/site`: with `fork_workflow: true` and no `useWorkflow` it fails; with
`fork_workflow: true`, `useWorkflow` and the branch ` drafts ` it succeeds
with the branch `drafts` and the repository as `originRepo`. -/
theorem construct_fork_workflow_witness :
    construct (sampleConfig [("fork_workflow", .bool true)]) [] =
      .error
        ⟨"backend.fork_workflow is true but publish_mode is not set to editorial_workflow."⟩ ∧
    ∃ fields,
      construct (sampleConfig [("fork_workflow", .bool true), ("branch", .str " drafts ")])
          [("useWorkflow", .bool true)] = .ok fields ∧
        fields.branch = "drafts" ∧ fields.originRepo = some (.str "owner/site") ∧
        fields.repo = none := by
  refine ⟨(construct_fork_workflow (sampleConfig [("fork_workflow", .bool true)]) [] rfl).1
    rfl rfl, ?_⟩
  obtain ⟨fields, h1, h2, h3, h4, -⟩ :=
    (construct_fork_workflow
      (sampleConfig [("fork_workflow", .bool true), ("branch", .str " drafts ")])
      [("useWorkflow", .bool true)] rfl).2 (Or.inr rfl) " drafts " rfl
  refine ⟨fields, h1, ?_, ?_, ?_⟩
  · rw [h2]
    decide
  · exact (h4 (by rw [h3]; rfl)).1
  · exact (h4 (by rw [h3]; rfl)).2

end GitHub


/-! ## `unpublishedEntries` -/

namespace GitHub

open JS

/-- Once every read has settled, in whatever order, `unpublishedEntries` is
resolved with one element for each branch of the listing, in the order of the
listing: the entry of the branch, or `null`. -/
theorem unpublishedEntries_resolved (branches : List Branch)
    (readUnpublishedBranchFile : String → ReadResult (Option BranchFile))
    (schedule : List Nat) (hlen : branches.length ≤ schedule.length) :
    unpublishedEntries (.resolved branches) readUnpublishedBranchFile schedule =
      some (.resolved (branches.map (entryOfBranch readUnpublishedBranchFile))) := by
  obtain ⟨hinv, hin, hq⟩ :=
    runReads_final (fun task : BranchTask => readUnpublishedBranchFile task.contentKey)
      (branches.map branchTask).enum schedule (enqueueAll (branches.map branchTask))
      (fetchInvariant_enqueueAll _ _)
      (by rw [unsettled_enqueueAll, List.length_map]; exact hlen)
  have hperm := hinv.perm
  rw [hin, hq] at hperm
  simp only [List.append_nil, List.map_nil] at hperm
  simp only [unpublishedEntries, allResolved_of_perm _ _ _ hperm, Option.map_some']
  congr 2
  rw [List.map_map, List.map_map]
  apply List.map_congr_left
  intro branch _
  simp only [Function.comp, entryOfBranch, loadedEntryOf]
  cases readUnpublishedBranchFile (branchTask branch).contentKey with
  | data value => rfl
  | failure reason => cases reason <;> rfl

/-- The entry of a branch is not `null` exactly when the branch resolves to data. -/
theorem entryOfBranch_isSome
    (readUnpublishedBranchFile : String → ReadResult (Option BranchFile)) (branch : Branch) :
    (entryOfBranch readUnpublishedBranchFile branch).isSome =
      resolvesToData readUnpublishedBranchFile branch := by
  unfold entryOfBranch resolvesToData
  cases readUnpublishedBranchFile (branchTask branch).contentKey with
  | data value =>
    cases value with
    | none => rfl
    | some data =>
      simp only [unpublishedEntryOf]
      cases data.metaData <;> rfl
  | failure reason => rfl

/-- The content key of a branch under the reserved prefix is the rest of its
`ref`, and the slug is the last part of the content key. -/
theorem branchTask_examples :
    branchTask ⟨"refs/heads/cms/posts/hello-world"⟩ = ⟨"posts/hello-world", "hello-world"⟩ ∧
      branchTask ⟨"refs/heads/cms-archive/hello"⟩ = ⟨"refs/heads/cms-archive/hello", "hello"⟩ := by
  decide

end GitHub


namespace GitHub

open JS

/-- C22 as stated fails: of two unpublished branches the read of the first is
rejected and the read of the second gives data; the list that
`unpublishedEntries` is resolved with has a `null` at the place of the first
branch, and its length is 2 while one branch resolved to data. -/
theorem unpublishedEntries_null_counterexample :
    unpublishedEntries
        (.resolved [⟨"refs/heads/cms/posts/first"⟩, ⟨"refs/heads/cms/posts/second"⟩])
        readSecondOnly [0, 0] =
      some (.resolved
        [none,
          some ⟨"second", "content/posts/second.md", "# Second", ⟨"content/posts/second.md"⟩,
            false⟩]) ∧
      ([⟨"refs/heads/cms/posts/first"⟩, ⟨"refs/heads/cms/posts/second"⟩].filter
        (resolvesToData readSecondOnly)).length = 1 := by
  decide

/-- C22, amended. For every list of unpublished branches, once every read has
settled, `unpublishedEntries` is resolved with a list that has one element for
each branch, in the order of the branches: `null` for a branch whose read
fails or gives no data, the entry of the branch otherwise. So the length of
the list is the number of branches, and the number of its elements other than
`null` is the number of branches that resolved to data. -/
theorem unpublishedEntries_one_element_per_branch (branches : List Branch)
    (readUnpublishedBranchFile : String → ReadResult (Option BranchFile))
    (schedule : List Nat) (hlen : branches.length ≤ schedule.length) :
    ∃ entries,
      unpublishedEntries (.resolved branches) readUnpublishedBranchFile schedule =
        some (.resolved entries) ∧
      entries = branches.map (entryOfBranch readUnpublishedBranchFile) ∧
      entries.length = branches.length ∧
      (entries.filter Option.isSome).length =
        (branches.filter (resolvesToData readUnpublishedBranchFile)).length ∧
      (entries.filter Option.isNone).length =
        (branches.filter (fun branch =>
          !resolvesToData readUnpublishedBranchFile branch)).length := by
  refine ⟨_, unpublishedEntries_resolved branches readUnpublishedBranchFile schedule hlen, rfl,
    List.length_map _ _, ?_, ?_⟩
  · rw [List.filter_map, List.length_map]
    congr 2
    funext branch
    exact entryOfBranch_isSome readUnpublishedBranchFile branch
  · rw [List.filter_map, List.length_map]
    congr 2
    funext branch
    have h := entryOfBranch_isSome readUnpublishedBranchFile branch
    simp only [Function.comp, ← h]
    cases entryOfBranch readUnpublishedBranchFile branch <;> rfl

/-- The list of `unpublishedEntries` for two branches of which the second only
resolves to data, with the reads settling in the order of the listing. -/
theorem unpublishedEntries_one_element_per_branch_witness :
    ∃ entries,
      unpublishedEntries
          (.resolved [⟨"refs/heads/cms/posts/first"⟩, ⟨"refs/heads/cms/posts/second"⟩])
          readSecondOnly [0, 0] = some (.resolved entries) ∧
      entries =
        [⟨"refs/heads/cms/posts/first"⟩, ⟨"refs/heads/cms/posts/second"⟩].map
          (entryOfBranch readSecondOnly) ∧
      entries.length = 2 ∧
      (entries.filter Option.isSome).length =
        ([⟨"refs/heads/cms/posts/first"⟩, ⟨"refs/heads/cms/posts/second"⟩].filter
          (resolvesToData readSecondOnly)).length ∧
      (entries.filter Option.isNone).length =
        ([⟨"refs/heads/cms/posts/first"⟩, ⟨"refs/heads/cms/posts/second"⟩].filter
          (fun branch => !resolvesToData readSecondOnly branch)).length :=
  unpublishedEntries_one_element_per_branch
    [⟨"refs/heads/cms/posts/first"⟩, ⟨"refs/heads/cms/posts/second"⟩] readSecondOnly [0, 0]
    (by decide)

/-- The method `unpublishedEntries` makes no test of the prefix itself, it works on
the branches of the listing as they are: for a listing with the branch
`refs/heads/cms-archive/hello`, whose `ref` does not carry the prefix
`refs/heads/cms/`, and a read that has data for the content key asked of it,
`split('refs/heads/cms/').pop()` gives the whole `ref` as the content key and
the slug `hello` is derived from it. -/
theorem unpublishedEntries_entry_without_prefix :
    startsWith "refs/heads/cms-archive/hello" "refs/heads/cms/" = false ∧
      branchTask ⟨"refs/heads/cms-archive/hello"⟩ =
        ⟨"refs/heads/cms-archive/hello", "hello"⟩ ∧
      unpublishedEntries (.resolved [⟨"refs/heads/cms-archive/hello"⟩]) readAny [0] =
        some (.resolved
          [some ⟨"hello", "content/refs/heads/cms-archive/hello.md", "# Draft",
            ⟨"content/refs/heads/cms-archive/hello.md"⟩, false⟩]) := by
  decide

/-- C24. When the listing of the unpublished branches is rejected with an error
whose message is `Not Found`, `unpublishedEntries` is resolved with the empty
list; when it is rejected with any other error, `unpublishedEntries` is
rejected with that same error. -/
theorem unpublishedEntries_listing_fails (error : JSError)
    (readUnpublishedBranchFile : String → ReadResult (Option BranchFile))
    (schedule : List Nat) :
    (error.message = "Not Found" →
      unpublishedEntries (.rejected error) readUnpublishedBranchFile schedule =
        some (.resolved [])) ∧
    (error.message ≠ "Not Found" →
      unpublishedEntries (.rejected error) readUnpublishedBranchFile schedule =
        some (.rejected error)) := by
  constructor
  · intro h
    simp [unpublishedEntries, catchNotFound, h]
  · intro h
    simp [unpublishedEntries, catchNotFound, h]

/-- C24, for the error `Not Found` and for the error `Bad credentials`. -/
theorem unpublishedEntries_listing_fails_witness :
    unpublishedEntries (.rejected ⟨"Not Found"⟩) readAny [] = some (.resolved []) ∧
      unpublishedEntries (.rejected ⟨"Bad credentials"⟩) readAny [] =
        some (.rejected ⟨"Bad credentials"⟩) :=
  ⟨(unpublishedEntries_listing_fails ⟨"Not Found"⟩ readAny []).1 rfl,
    (unpublishedEntries_listing_fails ⟨"Bad credentials"⟩ readAny []).2 (by decide)⟩

end GitHub


/-! ## The boundary invariant of cursors -/

namespace GitLab

open JS

/-- An action of the reversed cursor is the exchange of an action of the cursor. -/
theorem mem_reverseCursor_actions {ρ : Type} (c : Cursor ρ) (a : String) :
    a ∈ (reverseCursor c).actions ↔ swapAction a ∈ c.actions := by
  rw [reverseCursor_actions, List.mem_map]
  constructor
  · rintro ⟨b, hb, rfl⟩
    rw [← reverseAction_eq_swapAction, reverseAction_reverseAction]
    exact hb
  · intro h
    exact ⟨swapAction a, h, by rw [reverseAction_eq_swapAction, swapAction_swapAction]⟩

/-- The reversal of a cursor with the boundary invariant and a page count below
`2 ^ 53` has the boundary invariant, and the same page count. -/
theorem boundaryInvariant_reverseCursor {ρ : Type} (c : Cursor ρ) (pageCount : Int)
    (hpageCount : c.meta.pageCount = some (.int pageCount)) (hbound : pageCount < 2 ^ 53)
    (h : BoundaryInvariant c) :
    BoundaryInvariant (reverseCursor c) := by
  obtain ⟨index, pageCount2, hindex, hpageCount2, h0, hle, hprev, hnext⟩ := h
  have hsame : pageCount2 = pageCount := by
    rw [hpageCount] at hpageCount2
    injection hpageCount2 with h1
    injection h1 with h2
    exact h2.symm
  subst hsame
  refine ⟨pageCount2 - index, pageCount2, ?_, ?_, by omega, by omega, ?_, ?_⟩
  · rw [reverseCursor_index, hindex, hpageCount]
    simp only [Option.getD_some]
    rw [Double.sub_int_int pageCount2 index (by omega)]
  · rw [reverseCursor_pageCount, hpageCount]
  · intro hmem
    have hlt : index < pageCount2 := by
      apply hnext
      rcases hmem with hm | hm
      · exact Or.inl ((mem_reverseCursor_actions c "prev").1 hm)
      · exact Or.inr ((mem_reverseCursor_actions c "first").1 hm)
    omega
  · intro hmem
    have hpos : 0 < index := by
      apply hprev
      rcases hmem with hm | hm
      · exact Or.inl ((mem_reverseCursor_actions c "next").1 hm)
      · exact Or.inr ((mem_reverseCursor_actions c "last").1 hm)
    omega

/-- The cursor that `getCursorFromHeaders` returns for page `i` of `t` pages, with
`1 ≤ i ≤ t < 2 ^ 53` and a well-formed `Link` header, has the boundary
invariant, and its page count is `t - 1`. -/
theorem boundaryInvariant_getCursorFromHeaders {ρ : Type} (getReqFromURL : String → ρ)
    (headers : String → Option String) (i t : Nat) (link : String)
    (hi : 1 ≤ i) (hit : i ≤ t) (htbound : t < 2 ^ 53)
    (hpage : headers "X-Page" = some (toString i))
    (htotal : headers "X-Total-Pages" = some (toString t))
    (hlink : headers "Link" = some link) (hwf : LinkHeaderWellFormed link) :
    ∃ c, getCursorFromHeaders getReqFromURL headers = .ok c ∧
      c.meta.pageCount = some (.int ((t - 1 : Nat) : Int)) ∧ BoundaryInvariant c := by
  have hibound : i < 2 ^ 53 := by omega
  have ht : 1 ≤ t := by omega
  obtain ⟨pairs, hpairs, -⟩ := getCursorFromHeaders_wellFormed getReqFromURL link hwf
  refine ⟨_, getCursorFromHeaders_of_pairs getReqFromURL headers link pairs hlink hpairs, ?_, ?_⟩
  · simp only [Cursor.create, htotal, parseInt_toString t htbound, sub_one_of_lt t ht htbound]
  have hvalid : ∀ a, a ∈ (IMap.ofEntries pairs).keySeq.filter
      (isValidAction ((parseInt (headers "X-Page")).sub (.int 1))
        ((parseInt (headers "X-Total-Pages")).sub (.int 1))) →
      ((a = "prev" ∨ a = "first") ∧ 0 < i - 1) ∨ ((a = "next" ∨ a = "last") ∧ i - 1 < t - 1) := by
    intro a ha
    rw [List.mem_filter, hpage, htotal, parseInt_toString i hibound,
      parseInt_toString t htbound] at ha
    exact (isValidAction_iff i t hi ht hibound htbound a).1 ha.2
  refine ⟨((i - 1 : Nat) : Int), ((t - 1 : Nat) : Int), ?_, ?_, by omega, by omega, ?_, ?_⟩
  · simp only [Cursor.create, hpage, parseInt_toString i hibound, sub_one_of_lt i hi hibound]
  · simp only [Cursor.create, htotal, parseInt_toString t htbound, sub_one_of_lt t ht htbound]
  · intro hmem
    simp only [Cursor.create] at hmem
    rcases hmem with hm | hm
    · rcases hvalid _ hm with ⟨-, h⟩ | ⟨h, -⟩
      · omega
      · rcases h with h | h <;> exact absurd h (by decide)
    · rcases hvalid _ hm with ⟨-, h⟩ | ⟨h, -⟩
      · omega
      · rcases h with h | h <;> exact absurd h (by decide)
  · intro hmem
    simp only [Cursor.create] at hmem
    rcases hmem with hm | hm
    · rcases hvalid _ hm with ⟨h, -⟩ | ⟨-, h⟩
      · rcases h with h | h <;> exact absurd h (by decide)
      · omega
    · rcases hvalid _ hm with ⟨h, -⟩ | ⟨-, h⟩
      · rcases h with h | h <;> exact absurd h (by decide)
      · omega

/-- C25, amended. `reverseCursor` preserves the boundary invariant of cursors whose
page count is below `2 ^ 53`: the reversal of such a cursor with
`0 ≤ index ≤ pageCount`, `prev` or `first` only when `index > 0` and `next`
or `last` only when `index < pageCount`, has these properties too; and for
headers with `1 ≤ X-Page ≤ X-Total-Pages < 2 ^ 53` and a well-formed `Link`
header, `getCursorFromHeaders` returns a cursor whose reversal has them. -/
theorem reverseCursor_preserves_boundary {ρ : Type} (getReqFromURL : String → ρ)
    (cursor : Cursor ρ) (pageCount : Int)
    (hpageCount : cursor.meta.pageCount = some (.int pageCount))
    (hbound : pageCount < 2 ^ 53) (hcursor : BoundaryInvariant cursor)
    (headers : String → Option String) (i t : Nat) (link : String)
    (hi : 1 ≤ i) (hit : i ≤ t) (htbound : t < 2 ^ 53)
    (hpage : headers "X-Page" = some (toString i))
    (htotal : headers "X-Total-Pages" = some (toString t))
    (hlink : headers "Link" = some link) (hwf : LinkHeaderWellFormed link) :
    BoundaryInvariant (reverseCursor cursor) ∧
      ∃ c, getCursorFromHeaders getReqFromURL headers = .ok c ∧
        BoundaryInvariant (reverseCursor c) := by
  refine ⟨boundaryInvariant_reverseCursor cursor pageCount hpageCount hbound hcursor, ?_⟩
  obtain ⟨c, hc, hcount, hinv⟩ := boundaryInvariant_getCursorFromHeaders getReqFromURL headers
    i t link hi hit htbound hpage htotal hlink hwf
  exact ⟨c, hc, boundaryInvariant_reverseCursor c _ hcount (by omega) hinv⟩

/-- C25, amended, at the cursor of page 2 of 9 with the actions `first`, `next` and
`last`, and at the headers of page 2 of 9 with a `Link` header of three
parts. -/
theorem reverseCursor_preserves_boundary_witness :
    BoundaryInvariant middleCursor ∧
      BoundaryInvariant (reverseCursor middleCursor) ∧
      ∃ c, getCursorFromHeaders id (pagingHeaders 2 9 20 170 threeLinks) = .ok c ∧
        BoundaryInvariant (reverseCursor c) :=
  have hmiddle : BoundaryInvariant middleCursor :=
    ⟨1, 8, rfl, rfl, by decide, by decide, fun _ => by decide, fun _ => by decide⟩
  have h := reverseCursor_preserves_boundary id middleCursor 8 rfl (by decide) hmiddle
    (pagingHeaders 2 9 20 170 threeLinks) 2 9 threeLinks (by decide) (by decide) (by decide)
    rfl rfl rfl (by decide)
  ⟨hmiddle, h.1, h.2⟩

/-- C25 as stated fails: the headers of page 2 of `18014398509481984` pages, with a
`Link` header that lists `prev`, give a cursor with `meta.index = 1`,
`meta.pageCount = 18014398509481984` and the action `prev`, which has the
boundary invariant; its reversal has the action `next` and
`meta.index = 18014398509481984`, the double nearest to the page count less
one, which is not below `meta.pageCount`: the reversal does not have the
boundary invariant. -/
theorem reverseCursor_preserves_boundary_counterexample :
    ∃ c, getCursorFromHeaders id (pagingHeaders 2 18014398509481984 20 170 prevOnlyLink) =
        .ok c ∧
      BoundaryInvariant c ∧ ¬ BoundaryInvariant (reverseCursor c) := by
  have hfacts : (getCursorFromHeaders id
        (pagingHeaders 2 18014398509481984 20 170 prevOnlyLink)).toOption.map
      (fun c => (c.actions, c.meta.index, c.meta.pageCount)) =
      some (["prev"], some (.int 1), some (.int 18014398509481984)) := by
    decide
  have hsub : (Double.int 18014398509481984).sub (.int 1) = .int 18014398509481984 := by
    decide
  cases hget : getCursorFromHeaders id (pagingHeaders 2 18014398509481984 20 170 prevOnlyLink) with
  | error e =>
    rw [hget] at hfacts
    exact absurd hfacts (by simp [Except.toOption])
  | ok c =>
    rw [hget] at hfacts
    simp only [Except.toOption, Option.map_some', Option.some.injEq, Prod.mk.injEq] at hfacts
    obtain ⟨hactions, hindex, hpageCount⟩ := hfacts
    refine ⟨c, rfl, ⟨1, 18014398509481984, hindex, hpageCount, by decide, by decide,
      fun _ => by decide, fun h => ?_⟩, ?_⟩
    · rw [hactions] at h
      exact absurd h (by decide)
    · rintro ⟨index, pageCount, hi, hp, -, -, -, hnext⟩
      rw [reverseCursor_index, hindex, hpageCount] at hi
      rw [reverseCursor_pageCount, hpageCount] at hp
      simp only [Option.getD_some, hsub, Option.some.injEq, Double.int.injEq] at hi hp
      have hmem : "next" ∈ (reverseCursor c).actions := by
        rw [reverseCursor_actions, hactions]
        decide
      have hlt := hnext (Or.inl hmem)
      omega

end GitLab


/-! ## The unpublished branches of the listing -/

namespace GitHub

open JS

/-- The characters of a separator just found are passed over. -/
theorem splitPieces_skip (separator : List Char) (rest piece : List Char) :
    ∀ passed : List Char,
      splitPieces separator (passed ++ rest) passed.length piece =
        splitPieces separator rest 0 piece
  | [] => rfl
  | c :: passed => by
    rw [List.cons_append, List.length_cons, splitPieces]
    exact splitPieces_skip separator rest piece passed

/-- A split has at least one piece. -/
theorem splitPieces_ne_nil (separator : List Char) :
    ∀ (s : List Char) (skip : Nat) (piece : List Char), splitPieces separator s skip piece ≠ []
  | [], _, _ => by simp [splitPieces]
  | _ :: rest, skip + 1, piece => by
    rw [splitPieces]
    exact splitPieces_ne_nil separator rest skip piece
  | c :: rest, 0, piece => by
    rw [splitPieces]
    split
    · simp
    · exact splitPieces_ne_nil separator rest 0 (c :: piece)

/-- The last piece of a string that starts with the separator is the last piece of
what follows the separator. -/
theorem splitPop_append (separator key : String) (hne : separator.data ≠ []) :
    splitPop (separator ++ key) separator = splitPop key separator := by
  unfold splitPop
  rw [String.data_append]
  cases hsep : separator.data with
  | nil => exact absurd hsep hne
  | cons c rest =>
    have hprefix : (c :: rest).isPrefixOf (c :: (rest ++ key.data)) = true := by
      rw [← List.cons_append]
      exact List.isPrefixOf_iff_prefix.2 (List.prefix_append _ _)
    have hstep : splitPieces (c :: rest) (c :: rest ++ key.data) 0 [] =
        [] :: splitPieces (c :: rest) key.data 0 [] := by
      rw [List.cons_append, splitPieces, if_pos hprefix]
      simp only [List.reverse_nil, List.length_cons, Nat.add_sub_cancel]
      rw [splitPieces_skip]
    rw [hstep]
    cases hpieces : splitPieces (c :: rest) key.data 0 [] with
    | nil => exact absurd hpieces (splitPieces_ne_nil _ _ _ _)
    | cons first more => rw [List.getLast?_cons_cons]

end GitHub


namespace GitHub

open JS

/-- The slug of the entry of a branch is the slug derived from its `ref`. -/
theorem entryOfBranch_slug
    (readUnpublishedBranchFile : String → ReadResult (Option BranchFile)) (branch : Branch)
    (entry : UnpublishedEntry)
    (h : entryOfBranch readUnpublishedBranchFile branch = some entry) :
    entry.slug = (branchTask branch).slug := by
  unfold entryOfBranch at h
  cases hread : readUnpublishedBranchFile (branchTask branch).contentKey with
  | data value =>
    rw [hread] at h
    cases value with
    | none => exact absurd h (by simp [unpublishedEntryOf])
    | some data =>
      simp only [unpublishedEntryOf] at h
      cases hmeta : data.metaData with
      | none =>
        rw [hmeta] at h
        exact absurd h (by simp)
      | some metaData =>
        rw [hmeta] at h
        simp only [Option.some.injEq] at h
        rw [← h]
  | failure reason =>
    rw [hread] at h
    exact absurd h (by simp [unpublishedEntryOf])

/-- The content key and the slug of a branch under the reserved prefix are derived
from what follows the prefix in its `ref`. -/
theorem branchTask_of_startsWith (branch : Branch)
    (h : startsWith branch.ref reservedPrefix = true) :
    ∃ key, branch.ref = reservedPrefix ++ key ∧
      (branchTask branch).contentKey = splitPop key reservedPrefix ∧
      (branchTask branch).slug = splitPop (splitPop key reservedPrefix) "/" := by
  obtain ⟨rest, hrest⟩ := List.isPrefixOf_iff_prefix.1 h
  have href : branch.ref = reservedPrefix ++ String.mk rest := by
    apply String.ext
    rw [String.data_append]
    exact hrest.symm
  have hkey : splitPop branch.ref reservedPrefix = splitPop (String.mk rest) reservedPrefix := by
    rw [href]
    exact splitPop_append reservedPrefix (String.mk rest) (by decide)
  refine ⟨String.mk rest, href, ?_, ?_⟩
  · exact hkey
  · show splitPop (splitPop branch.ref "refs/heads/cms/") "/" = _
    rw [show ("refs/heads/cms/" : String) = reservedPrefix from rfl, hkey]

/-- C23. With the listing of the unpublished branches modelled from the
specification: for every list of branches of the provider, once every read
has settled, `unpublishedEntries` is resolved with one element for each
branch whose `ref` carries the prefix `refs/heads/cms/`, in their order, and
with none for a branch whose `ref` lacks it; every entry of the result is the
entry of a branch that carries the prefix, with the slug derived from that
branch; and the content key and the slug of such a branch are derived from
what follows the prefix in its `ref`. -/
theorem unpublishedEntries_only_reserved_refs (providerBranches : List Branch)
    (readUnpublishedBranchFile : String → ReadResult (Option BranchFile))
    (schedule : List Nat) (hlen : providerBranches.length ≤ schedule.length) :
    unpublishedEntries (listUnpublishedBranches providerBranches) readUnpublishedBranchFile
        schedule =
      some (.resolved
        ((providerBranches.filter (fun branch => startsWith branch.ref reservedPrefix)).map
          (entryOfBranch readUnpublishedBranchFile))) ∧
    (∀ entry,
      some entry ∈
          (providerBranches.filter (fun branch => startsWith branch.ref reservedPrefix)).map
            (entryOfBranch readUnpublishedBranchFile) →
        ∃ branch ∈ providerBranches,
          startsWith branch.ref reservedPrefix = true ∧
            entryOfBranch readUnpublishedBranchFile branch = some entry ∧
            entry.slug = (branchTask branch).slug) ∧
    (∀ branch ∈ providerBranches, startsWith branch.ref reservedPrefix = true →
      ∃ key, branch.ref = reservedPrefix ++ key ∧
        (branchTask branch).contentKey = splitPop key reservedPrefix ∧
        (branchTask branch).slug = splitPop (splitPop key reservedPrefix) "/") := by
  refine ⟨?_, ?_, fun branch _ h => branchTask_of_startsWith branch h⟩
  · exact unpublishedEntries_resolved _ readUnpublishedBranchFile schedule
      (Nat.le_trans (List.length_filter_le _ _) hlen)
  · intro entry hmem
    obtain ⟨branch, hbranch, hentry⟩ := List.mem_map.1 hmem
    obtain ⟨hin, hstarts⟩ := List.mem_filter.1 hbranch
    exact ⟨branch, hin, hstarts, hentry,
      entryOfBranch_slug readUnpublishedBranchFile branch entry hentry⟩

/-- C23, for a provider with the branches `master`, `cms/posts/first`,
`cms-archive/hello` and `cms/posts/second`, each with data: the result has
the entries of the slugs `first` and `second` only. -/
theorem unpublishedEntries_only_reserved_refs_witness :
    unpublishedEntries (listUnpublishedBranches sampleBranches) readAny [0, 0, 0, 0] =
      some (.resolved
        [some ⟨"first", "content/posts/first.md", "# Draft", ⟨"content/posts/first.md"⟩, false⟩,
          some ⟨"second", "content/posts/second.md", "# Draft", ⟨"content/posts/second.md"⟩,
            false⟩]) :=
  (unpublishedEntries_only_reserved_refs sampleBranches readAny [0, 0, 0, 0]
    (by decide)).1.trans (by decide)

end GitHub
